import Mathlib

/-!
# refbackrt user API: reference counting of `Ref<T>` and `RtValue`

Shallow embedding of `include/npcomp/RefBackend/Runtime/UserAPI.h`.

* Addresses are natural numbers, `0` is `nullptr`.
* `RefTarget::refCount` is a `std::atomic<size_t>`: a natural number below
  `2 ^ 64`, every update reduced modulo `2 ^ 64`.
* The heap records, next to the counts, the sequence of effects that
  `Ref<T>::incref` and `Ref<T>::decref` performed (count updates, destructor
  runs, `std::free` calls), oldest first.
* C++ objects of type `RtValue` and `Ref<Tensor>` live in numbered slots of a
  store; a slot holds `none` once the object's destructor has run.  Operations
  take slot numbers, so that aliasing (`a = a`) is the same code path as in
  the source.
* An operation returns `none` where the C++ program has no defined behaviour
  (an operand that is not a live object on entry) or where an `assert` fails.
* The payload of an `RtValue` is the 64-bit word of `union Payload`; `asBool`,
  `asInt`, `asVoidPtr` are readings of that word, and a `double` is given by its
  IEEE 754 encoding.
* `Tensor::create`, `Tensor::createRaw`, `Tensor::getDataByteSize` and
  `getElementTypeByteSize` are declared in the header and defined elsewhere; their
  definitions here follow the specification and say so.
* Threads are modelled by interleaving their atomic accesses to the count.
-/

namespace refbackrt

/-- A raw address, `0` being `nullptr`. -/
abbrev Ptr := Nat

/-- Number of values of `std::size_t`. -/
def sizeRange : Nat := 2 ^ 64

/-- Modelled from the spec: the `assert` macro, which comes from `Support.h` and is not
among the sources at hand.  An accessor "asserts the tag matches before returning the
payload; mismatch is a fail-fast contract violation": a failed assertion ends the call
without a result. -/
def assert (c : Bool) : Option Unit :=
  if c then some () else none

/-- Effects on reference-counted objects, as performed by `Ref<T>::incref`
and `Ref<T>::decref`. -/
inductive Event where
  /-- The effect `ptr->refCount += 1`. -/
  | incref (p : Ptr)
  /-- The effect `ptr->refCount.fetch_sub(1)`. -/
  | decref (p : Ptr)
  /-- The effect `ptr->~T()`. -/
  | destroy (p : Ptr)
  /-- The effect `std::free(static_cast<void *>(ptr))`. -/
  | free (p : Ptr)
  deriving DecidableEq, Repr

/-- The reference-counted objects: the `refCount` member of the object at each
address and the effects performed so far, oldest first. -/
structure Heap where
  refCount : Ptr → Nat
  log : List Event

/-- The source's `Ref<T>::incref(T *ptr)`. -/
def Ref.incref (ptr : Ptr) (h : Heap) : Heap :=
  if ptr = 0 then h
  else
    { refCount := Function.update h.refCount ptr ((h.refCount ptr + 1) % sizeRange)
      log := h.log ++ [Event.incref ptr] }

/-- The source's `Ref<T>::decref(T *ptr)`: `fetch_sub(1)` returns the previous
count, and the object is destroyed and released when that was `1`. -/
def Ref.decref (ptr : Ptr) (h : Heap) : Heap :=
  if ptr = 0 then h
  else
    let prev := h.refCount ptr
    let h1 : Heap :=
      { refCount := Function.update h.refCount ptr ((prev + (sizeRange - 1)) % sizeRange)
        log := h.log ++ [Event.decref ptr] }
    if prev = 1 then
      { h1 with log := h1.log ++ [Event.destroy ptr, Event.free ptr] }
    else h1

/-- The source's `enum class Tag`, from `NPCOMP_FORALL_TAGS`. -/
inductive Tag where
  | None
  | Bool
  | Int
  | Double
  | Tensor
  deriving DecidableEq, Repr

/-- The source's `struct RtValue`: the 8-byte `union Payload` as the machine word it
occupies (`asVoidPtr` is that word read as an address) and the tag. -/
structure RtValue where
  payload : Nat
  tag : Tag
  deriving DecidableEq, Repr

namespace RtValue

/-- The source's `isBool`. -/
def isBool (v : RtValue) : Bool := decide (Tag.Bool = v.tag)

/-- The source's `isInt`. -/
def isInt (v : RtValue) : Bool := decide (Tag.Int = v.tag)

/-- The source's `isDouble`. -/
def isDouble (v : RtValue) : Bool := decide (Tag.Double = v.tag)

/-- The source's `isTensor`. -/
def isTensor (v : RtValue) : Bool := decide (Tag.Tensor = v.tag)

/-- The source's `isRef`: `DEFINE_IS_REF` over `NPCOMP_FORALL_REF_TAGS`. -/
def isRef (v : RtValue) : Bool :=
  if v.isTensor then true else false

/-- Body of the copy constructor after the members are initialised:
`DEFINE_INCREF` over `NPCOMP_FORALL_REF_TAGS`, then `assert(false)`. -/
def increfDispatch (v : RtValue) (h : Heap) : Option Heap :=
  if v.isRef then
    if v.isTensor then some (Ref.incref v.payload h)
    else none
  else some h

/-- Body of the destructor: `DEFINE_DECREF` over `NPCOMP_FORALL_REF_TAGS`, then
`assert(false)`. -/
def decrefDispatch (v : RtValue) (h : Heap) : Option Heap :=
  if v.isRef then
    if v.isTensor then some (Ref.decref v.payload h)
    else none
  else some h

end RtValue

/-- The program state: the heap, the `RtValue` objects and the `Ref<Tensor>`
objects (a `Ref` is its `ptr` member).  A slot is `none` after destruction. -/
structure State where
  heap : Heap
  vals : List (Option RtValue)
  refs : List (Option Ptr)

namespace State

/-- The live `RtValue` object in slot `i`. -/
def val (s : State) (i : Nat) : Option RtValue :=
  match s.vals[i]? with
  | some (some v) => some v
  | _ => none

/-- The live `Ref<Tensor>` object in slot `i`. -/
def ref (s : State) (i : Nat) : Option Ptr :=
  match s.refs[i]? with
  | some (some p) => some p
  | _ => none

/-- Store into the `RtValue` slot `i`. -/
def setVal (s : State) (i : Nat) (v : Option RtValue) : State :=
  { s with vals := s.vals.set i v }

/-- Store into the `Ref<Tensor>` slot `i`. -/
def setRef (s : State) (i : Nat) (p : Option Ptr) : State :=
  { s with refs := s.refs.set i p }

/-- A new `RtValue` object; its slot is the one returned. -/
def newVal (s : State) (v : RtValue) : Nat × State :=
  (s.vals.length, { s with vals := s.vals ++ [some v] })

/-- A new `Ref<Tensor>` object; its slot is the one returned. -/
def newRef (s : State) (p : Ptr) : Nat × State :=
  (s.refs.length, { s with refs := s.refs ++ [some p] })

end State

/-! ## `RtValue` member functions -/

/-- The source's `RtValue() : payload{0}, tag(Tag::None)`. -/
def RtValue.ctorDefault (s : State) : Nat × State :=
  s.newVal ⟨0, Tag.None⟩

/-- The source's `RtValue(const RtValue &rhs) : RtValue(rhs.payload, rhs.tag)`
followed by the incref dispatch on the new object. -/
def RtValue.ctorCopy (rhs : Nat) (s : State) : Option (Nat × State) := do
  let r ← s.val rhs
  let (this, s1) := s.newVal ⟨r.payload, r.tag⟩
  let v ← s1.val this
  let h ← v.increfDispatch s1.heap
  some (this, { s1 with heap := h })

/-- The source's `RtValue::swap`: `std::swap(payload, rhs.payload)` then
`std::swap(tag, rhs.tag)`. -/
def RtValue.swap (this rhs : Nat) (s : State) : Option State := do
  let a ← s.val this
  let b ← s.val rhs
  let s1 := (s.setVal this (some { a with payload := b.payload })).setVal rhs
    (some { b with payload := a.payload })
  let a1 ← s1.val this
  let b1 ← s1.val rhs
  some ((s1.setVal this (some { a1 with tag := b1.tag })).setVal rhs
    (some { b1 with tag := a1.tag }))

/-- The source's `RtValue(RtValue &&rhs) noexcept : RtValue() { swap(rhs); }`. -/
def RtValue.ctorMove (rhs : Nat) (s : State) : Option (Nat × State) := do
  let _ ← s.val rhs
  let (this, s1) := RtValue.ctorDefault s
  let s2 ← RtValue.swap this rhs s1
  some (this, s2)

/-- The source's `~RtValue()`: the decref dispatch, after which the object's lifetime
has ended. -/
def RtValue.dtor (this : Nat) (s : State) : Option State := do
  let v ← s.val this
  let h ← v.decrefDispatch s.heap
  some ({ s with heap := h }.setVal this none)

/-- The source's `operator=(RtValue &&rhs)`: `RtValue(std::move(rhs)).swap(*this)`,
the temporary being destroyed at the end of the full expression. -/
def RtValue.assignMove (this rhs : Nat) (s : State) : Option State := do
  let _ ← s.val this
  let _ ← s.val rhs
  let (tmp, s1) ← RtValue.ctorMove rhs s
  let s2 ← RtValue.swap tmp this s1
  RtValue.dtor tmp s2

/-- The source's `operator=(RtValue const &rhs)`: `RtValue(rhs).swap(*this)`, the
temporary being destroyed at the end of the full expression. -/
def RtValue.assignCopy (this rhs : Nat) (s : State) : Option State := do
  let _ ← s.val this
  let _ ← s.val rhs
  let (tmp, s1) ← RtValue.ctorCopy rhs s
  let s2 ← RtValue.swap tmp this s1
  RtValue.dtor tmp s2

/-! ## `Ref<Tensor>` member functions -/

/-- The source's `Ref() { ptr = nullptr; }`. -/
def Ref.ctorDefault (s : State) : Nat × State :=
  s.newRef 0

/-- The source's `Ref(T *rawPtr)`: `assert(rawPtr->refCount >= 0 && ...)`, then
`ptr = rawPtr; incref(ptr);`.  The assertion reads the count through `rawPtr`, so there
is no defined behaviour for a null pointer. -/
def Ref.ctorRaw (rawPtr : Ptr) (s : State) : Option (Nat × State) := do
  if rawPtr = 0 then none
  else
    assert (decide (0 ≤ s.heap.refCount rawPtr))
    let (this, s1) := s.newRef rawPtr
    some (this, { s1 with heap := Ref.incref rawPtr s1.heap })

/-- The source's `Ref(const Ref &other)`: `ptr = other.ptr; incref(ptr);`. -/
def Ref.ctorCopy (other : Nat) (s : State) : Option (Nat × State) := do
  let p ← s.ref other
  let (this, s1) := s.newRef p
  some (this, { s1 with heap := Ref.incref p s1.heap })

/-- The source's `takePtr`: returns `ptr` and leaves `nullptr`. -/
def Ref.takePtr (this : Nat) (s : State) : Option (Ptr × State) := do
  let ret ← s.ref this
  some (ret, s.setRef this (some 0))

/-- The source's `Ref(Ref &&other) { ptr = other.takePtr(); }`. -/
def Ref.ctorMove (other : Nat) (s : State) : Option (Nat × State) := do
  let (p, s1) ← Ref.takePtr other s
  some (s1.newRef p)

/-- The source's `Ref &operator=(const Ref &other)`. -/
def Ref.assignCopy (this other : Nat) (s : State) : Option State := do
  let p ← s.ref this
  let _ ← s.ref other
  if other = this then some s
  else
    let s1 : State := { s with heap := Ref.decref p s.heap }
    let q ← s1.ref other
    let s2 := s1.setRef this (some q)
    some { s2 with heap := Ref.incref q s2.heap }

/-- The source's `Ref &operator=(Ref &&other)`. -/
def Ref.assignMove (this other : Nat) (s : State) : Option State := do
  let p ← s.ref this
  let _ ← s.ref other
  if other = this then some s
  else
    let s1 : State := { s with heap := Ref.decref p s.heap }
    let (q, s2) ← Ref.takePtr other s1
    some (s2.setRef this (some q))

/-- The source's `~Ref() { decref(ptr); }`, after which the object's lifetime has
ended. -/
def Ref.dtor (this : Nat) (s : State) : Option State := do
  let p ← s.ref this
  some ({ s with heap := Ref.decref p s.heap }.setRef this none)

/-! ## Conversions between `Ref<Tensor>` and `RtValue` -/

/-- The source's `RtValue(Ref<Tensor> tensor) : tag(Tag::Tensor)` with body
`payload.asVoidPtr = tensor.takePtr()`; `tensor` is the slot of the by-value
parameter, which the caller has initialised. -/
def RtValue.ctorTensor (tensor : Nat) (s : State) : Option (Nat × State) := do
  let (p, s1) ← Ref.takePtr tensor s
  some (s1.newVal ⟨p, Tag.Tensor⟩)

/-- A call of `RtValue(Ref<Tensor> tensor)` on a parameter object that the caller has
just initialised: the constructor runs, then the parameter is destroyed. -/
def RtValue.callCtorTensor (param : Nat × State) : Option (Nat × State) := do
  let (x, s1) ← RtValue.ctorTensor param.1 param.2
  let s2 ← Ref.dtor param.1 s1
  some (x, s2)

/-- The source's `toTensor`: `assert(isTensor())`, then the handle
`Ref<Tensor>(reinterpret_cast<Tensor *>(payload.asVoidPtr))`. -/
def RtValue.toTensor (this : Nat) (s : State) : Option (Nat × State) := do
  let v ← s.val this
  assert v.isTensor
  Ref.ctorRaw v.payload s

/-- The statement `RtValue x(Ref<Tensor>(rawPtr));` in a program with no other
objects: the object at `rawPtr` is adopted by a handle, which is wrapped. -/
def adoptAndWrap (rawPtr : Ptr) (h : Heap) : Option State :=
  ((Ref.ctorRaw rawPtr ⟨h, [], []⟩).bind RtValue.callCtorTensor).map Prod.snd

/-! ## Programs -/

/-- One statement of a client program over the objects of the store. -/
inductive Op where
  /-- Declares `RtValue x;`. -/
  | valDefault
  /-- Declares `RtValue x(rhs);`. -/
  | valCopy (rhs : Nat)
  /-- Declares `RtValue x(std::move(rhs));`. -/
  | valMove (rhs : Nat)
  /-- Runs `dst = rhs;`. -/
  | valAssignCopy (dst rhs : Nat)
  /-- Runs `dst = std::move(rhs);`. -/
  | valAssignMove (dst rhs : Nat)
  /-- Ends the lifetime of an `RtValue`. -/
  | valDestroy (x : Nat)
  /-- Declares `Ref<Tensor> r;`. -/
  | refDefault
  /-- Declares `Ref<Tensor> r(other);`. -/
  | refCopy (other : Nat)
  /-- Declares `Ref<Tensor> r(std::move(other));`. -/
  | refMove (other : Nat)
  /-- Runs `dst = other;` on handles. -/
  | refAssignCopy (dst other : Nat)
  /-- Runs `dst = std::move(other);` on handles. -/
  | refAssignMove (dst other : Nat)
  /-- Ends the lifetime of a `Ref<Tensor>`. -/
  | refDestroy (r : Nat)
  /-- Declares `RtValue x(std::move(r));` for a handle `r`. -/
  | valOfRefMove (r : Nat)
  /-- Declares `RtValue x(r);` for a handle `r`. -/
  | valOfRefCopy (r : Nat)
  /-- Declares `Ref<Tensor> r = x.toTensor();`. -/
  | valToTensor (x : Nat)
  deriving DecidableEq, Repr

/-- Effect of one statement. -/
def step (o : Op) (s : State) : Option State :=
  match o with
  | Op.valDefault => some (RtValue.ctorDefault s).2
  | Op.valCopy rhs => (RtValue.ctorCopy rhs s).map Prod.snd
  | Op.valMove rhs => (RtValue.ctorMove rhs s).map Prod.snd
  | Op.valAssignCopy dst rhs => RtValue.assignCopy dst rhs s
  | Op.valAssignMove dst rhs => RtValue.assignMove dst rhs s
  | Op.valDestroy x => RtValue.dtor x s
  | Op.refDefault => some (Ref.ctorDefault s).2
  | Op.refCopy other => (Ref.ctorCopy other s).map Prod.snd
  | Op.refMove other => (Ref.ctorMove other s).map Prod.snd
  | Op.refAssignCopy dst other => Ref.assignCopy dst other s
  | Op.refAssignMove dst other => Ref.assignMove dst other s
  | Op.refDestroy r => Ref.dtor r s
  | Op.valOfRefMove r => ((Ref.ctorMove r s).bind RtValue.callCtorTensor).map Prod.snd
  | Op.valOfRefCopy r => ((Ref.ctorCopy r s).bind RtValue.callCtorTensor).map Prod.snd
  | Op.valToTensor x => (RtValue.toTensor x s).map Prod.snd

/-- Effect of a sequence of statements, first statement first. -/
def run : List Op → State → Option State
  | [], s => some s
  | o :: os, s => (step o s).bind (run os)

/-! ## Ownership bookkeeping -/

/-- Heap effect of the copy constructor's dispatch on a value. -/
def RtValue.retain (v : RtValue) (h : Heap) : Heap :=
  if v.tag = Tag.Tensor then Ref.incref v.payload h else h

/-- Heap effect of the destructor's dispatch on a value. -/
def RtValue.release (v : RtValue) (h : Heap) : Heap :=
  if v.tag = Tag.Tensor then Ref.decref v.payload h else h

/-- The slot holds a live Tensor-tagged `RtValue` whose payload is `T`. -/
def ownsVal (T : Ptr) (o : Option RtValue) : Bool :=
  decide (o = some ⟨T, Tag.Tensor⟩)

/-- The slot holds a live `Ref<Tensor>` pointing at `T`. -/
def ownsRef (T : Ptr) (o : Option Ptr) : Bool :=
  decide (o = some T)

/-- Number of live owners of the object at `T`. -/
def owners (T : Ptr) (s : State) : Nat :=
  s.vals.countP (ownsVal T) + s.refs.countP (ownsRef T)

/-- Number of times the block at `T` was passed to `std::free`. -/
def frees (T : Ptr) (h : Heap) : Nat :=
  h.log.count (Event.free T)

/-- Number of times the destructor of the object at `T` ran. -/
def destroys (T : Ptr) (h : Heap) : Nat :=
  h.log.count (Event.destroy T)

/-- Conservation for the object at `T`, which had been released `f` times and destroyed
`d` times before its first owner existed: its count is the number of live owners, and
it has been destroyed and released once more exactly when no owner is left. -/
def Conserved (T : Ptr) (f d : Nat) (s : State) : Prop :=
  s.heap.refCount T = owners T s ∧
  frees T s.heap = f + (if owners T s = 0 then 1 else 0) ∧
  destroys T s.heap = d + (if owners T s = 0 then 1 else 0)

/-! ## Example program used to exercise the theorems -/

/-- A heap in which nothing has happened yet: every count is zero. -/
def demoHeap : Heap := ⟨fun _ => 0, []⟩

/-- The state right after `RtValue v0(Ref<Tensor>(1));` on `demoHeap`. -/
def demoStart : State := ⟨Ref.incref 1 demoHeap, [some ⟨1, Tag.Tensor⟩], [none]⟩

/-- A client program: `v1` copies `v0`, `r1` is `v0.toTensor()`, `r2` copies `r1`,
`v0 = v0` (its temporary takes slot 2), `v3` is moved out of `v1`, `v0` is destroyed,
`r1 = std::move(r2)`. -/
def demoOps : List Op :=
  [Op.valCopy 0, Op.valToTensor 0, Op.refCopy 1, Op.valAssignCopy 0 0, Op.valMove 1,
   Op.valDestroy 0, Op.refAssignMove 1 2]

/-- The state `demoOps` ends in: `v3` and `r1` own the tensor. -/
def demoEnd : State :=
  ⟨Ref.decref 1 (Ref.decref 1 (Ref.decref 1 (Ref.incref 1 (Ref.incref 1 (Ref.incref 1
      (Ref.incref 1 (Ref.incref 1 demoHeap))))))),
    [none, some ⟨0, Tag.None⟩, none, some ⟨1, Tag.Tensor⟩], [none, some 1, some 0]⟩

/-- The state after `v3` is destroyed as well: `r1` is the last owner. -/
def demoLast : State :=
  ⟨Ref.decref 1 demoEnd.heap, [none, some ⟨0, Tag.None⟩, none, none],
    [none, some 1, some 0]⟩

/-- The state after `r1` is destroyed too: no owner is left. -/
def demoGone : State :=
  ⟨Ref.decref 1 demoLast.heap, [none, some ⟨0, Tag.None⟩, none, none],
    [none, none, some 0]⟩

/-- The value is Tensor-tagged and its payload is the non-null address `p`: it holds a
reference to the tensor at `p`. -/
def RtValue.holds (v : RtValue) (p : Ptr) : Bool :=
  decide (v.tag = Tag.Tensor ∧ v.payload = p ∧ p ≠ 0)

/-- Two `RtValue`s `v0`, `v1` that both hold the tensor at 1, whose count is 2. -/
def demoShared : State :=
  ⟨Ref.incref 1 (Ref.incref 1 demoHeap),
    [some ⟨1, Tag.Tensor⟩, some ⟨1, Tag.Tensor⟩], []⟩

/-- Two `RtValue`s: `v0` is the only owner of the tensor at 1, `v1` the only owner of
the tensor at 2. -/
def demoTwo : State :=
  ⟨Ref.incref 2 (Ref.incref 1 demoHeap),
    [some ⟨1, Tag.Tensor⟩, some ⟨2, Tag.Tensor⟩], []⟩

/-- The net effect of `dst = std::move(rhs)` on distinct objects as the specification
words it: the destination has the source's former tag and payload, the source is left
None-tagged, the count of the tensor the source held is unchanged, and the tensor the
destination held has lost one reference, being released if that was its last. -/
def MoveAssignAsStated (s : State) (dst rhs : Nat) : Prop :=
  ∀ a b s', s.val dst = some a → s.val rhs = some b →
    RtValue.assignMove dst rhs s = some s' →
    s'.val dst = some b ∧ (∃ w, s'.val rhs = some w ∧ w.tag = Tag.None) ∧
    (∀ q, b.holds q = true → s'.heap.refCount q = s.heap.refCount q) ∧
    (∀ p, a.holds p = true →
      s'.heap.refCount p + 1 = s.heap.refCount p ∧
      frees p s'.heap = frees p s.heap + (if s.heap.refCount p = 1 then 1 else 0))

/-- The effect `e1` occurs in the sequence, and `e2` occurs after its first
occurrence. -/
def occursBefore (e1 e2 : Event) : List Event → Bool
  | [] => false
  | e :: l => if e = e1 then decide (e2 ∈ l) else occursBefore e1 e2 l

/-- The effects that were performed on the way from heap `h` to heap `h'`. -/
def newEvents (h h' : Heap) : List Event :=
  h'.log.drop h.log.length

/-- The order of `dst = rhs` on `RtValue`s as the specification words it: the
destination's old reference is released, the decrement of the old tensor's count, before
the new payload is adopted, the increment of the new tensor's count. -/
def ReleaseBeforeAdopt (s : State) (dst rhs : Nat) : Prop :=
  ∀ a b s' p q, s.val dst = some a → s.val rhs = some b →
    a.holds p = true → b.holds q = true →
    RtValue.assignCopy dst rhs s = some s' →
    occursBefore (Event.decref p) (Event.incref q) (newEvents s.heap s'.heap) = true

/-- The statement is one of the `RtValue` constructions, assignments and destructions:
default, copy and move construction, copy and move assignment, destruction. -/
def Op.onValues : Op → Bool
  | Op.valDefault => true
  | Op.valCopy _ => true
  | Op.valMove _ => true
  | Op.valAssignCopy _ _ => true
  | Op.valAssignMove _ _ => true
  | Op.valDestroy _ => true
  | _ => false

/-- The start state of a program that has declared three `RtValue x;` and nothing
else, on a heap that holds a tensor at 1 with count 5. -/
def demoNones : State :=
  ⟨⟨fun p => if p = 1 then 5 else 0, []⟩,
    [some ⟨0, Tag.None⟩, some ⟨0, Tag.None⟩, some ⟨0, Tag.None⟩], []⟩

/-- A program on the values of `demoNones`: copies, moves, assignments (one to itself)
and destructions. -/
def demoNoneOps : List Op :=
  [Op.valCopy 0, Op.valMove 1, Op.valAssignCopy 2 3, Op.valAssignMove 0 4,
   Op.valAssignCopy 1 1, Op.valDestroy 2, Op.valDefault, Op.valAssignMove 3 3]

/-! ## Remaining members of `Ref<Tensor>` -/

/-- Conversion of an unsigned count to `int` (32 bits, two's complement), as in
`return ptr->refCount;` of a function returning `int`. -/
def toInt32 (n : Nat) : Int :=
  if n % 2 ^ 32 < 2 ^ 31 then (n % 2 ^ 32 : Nat) else (n % 2 ^ 32 : Nat) - 2 ^ 32

/-- The source's `int debugGetRefCount() { return ptr->refCount; }`; there is no object
to read the count of when `ptr` is null. -/
def Ref.debugGetRefCount (this : Nat) (s : State) : Option Int := do
  let p ← s.ref this
  if p = 0 then none else some (toInt32 (s.heap.refCount p))

/-! ## Scalar constructors and type-checked accessors of `RtValue` -/

/-- The member `asBool` of `union Payload`: the lowest byte of the word. -/
def Payload.asBool (w : Nat) : Bool :=
  decide (w % 256 ≠ 0)

/-- The word after `payload.asBool = b`: only the lowest byte is written. -/
def Payload.setBool (w : Nat) (b : Bool) : Nat :=
  w - w % 256 + (if b then 1 else 0)

/-- The member `asInt` of `union Payload`: the word read as a two's complement
`int64_t`. -/
def Payload.asInt (w : Nat) : Int :=
  if w % 2 ^ 64 < 2 ^ 63 then (w % 2 ^ 64 : Nat) else (w % 2 ^ 64 : Nat) - 2 ^ 64

/-- The word after `payload.asInt = i`. -/
def Payload.setInt (i : Int) : Nat :=
  (i % 2 ^ 64).toNat

/-- The source's `RtValue(bool b) : tag(Tag::Bool) { payload.asBool = b; }`; `w0` is
the content of the payload before the store, which the constructor does not
initialise. -/
def RtValue.ctorBool (b : Bool) (w0 : Nat) : RtValue :=
  ⟨Payload.setBool w0 b, Tag.Bool⟩

/-- The source's `RtValue(std::int64_t i) : tag(Tag::Int) { payload.asInt = i; }`. -/
def RtValue.ctorInt (i : Int) : RtValue :=
  ⟨Payload.setInt i, Tag.Int⟩

/-- The source's `RtValue(std::int32_t i) : RtValue(static_cast<int64_t>(i))`. -/
def RtValue.ctorInt32 (i : Int) : RtValue :=
  RtValue.ctorInt i

/-- The source's `RtValue(double d) : tag(Tag::Double) { payload.asDouble = d; }`, a
`double` being given by its 64-bit IEEE 754 encoding. -/
def RtValue.ctorDouble (bits : Nat) : RtValue :=
  ⟨bits % 2 ^ 64, Tag.Double⟩

/-- The source's `bool toBool() const { assert(isBool()); return payload.asBool; }`. -/
def RtValue.toBool (v : RtValue) : Option Bool := do
  assert v.isBool
  some (Payload.asBool v.payload)

/-- The source's `bool toInt() const { assert(isInt()); return payload.asInt; }`: the
declared result type is `bool`, so the `int64_t` is converted, zero to `false` and
everything else to `true`. -/
def RtValue.toInt (v : RtValue) : Option Bool := do
  assert v.isInt
  some (decide (Payload.asInt v.payload ≠ 0))

/-- The source's `bool toDouble() const { assert(isDouble()); return payload.asDouble; }`:
the declared result type is `bool`, so the `double` is converted, the zeros (all bits
but the sign bit clear) to `false` and everything else to `true`. -/
def RtValue.toDouble (v : RtValue) : Option Bool := do
  assert v.isDouble
  some (decide (v.payload % 2 ^ 63 ≠ 0))

/-- A `bool` read as an integer, as by the usual arithmetic conversions. -/
def boolToInt (b : Bool) : Int :=
  if b then 1 else 0

/-- The IEEE 754 encoding of the `double` 2.5: sign 0, exponent 1024, fraction
`0x4000000000000`. -/
def bitsOfTwoAndAHalf : Nat := 0x4004000000000000

/-- The IEEE 754 encoding of the `double` 1.0, to which `true` converts. -/
def bitsOfOne : Nat := 0x3FF0000000000000

/-- A `bool` read as a `double`, given by its encoding: `true` is 1.0, `false` is 0.0. -/
def boolToDoubleBits (b : Bool) : Nat :=
  if b then bitsOfOne else 0

/-! ## Tensors -/

/-- The source's `enum class ElementType : std::int32_t`. -/
inductive ElementType where
  | F32
  deriving DecidableEq, Repr

/-- Modelled from the spec: `getElementTypeByteSize`, which the header declares and a
file that is not among the sources defines.  The spec: the type has "one member
(32-bit IEEE float)" and "a companion query returns its byte width". -/
def getElementTypeByteSize : ElementType → Int
  | ElementType.F32 => 4

/-- A value as a `std::int32_t`: reduced to 32 bits, two's complement. -/
def wrapInt32 (z : Int) : Int :=
  (z + 2 ^ 31) % 2 ^ 32 - 2 ^ 31

/-- The source's `class Tensor`, apart from the count it inherits from `RefTarget`, which
is kept in the heap: the members `elementType` and `rank`, the bytes of the buffer that
`data` points to, and `tail`, the `std::int32_t` values that the memory holds from the
end of the object on (`this + 1`): those of the object's block first, then whatever
follows. -/
structure Tensor where
  elementType : ElementType
  rank : Int
  data : List Nat
  tail : List Int
  deriving DecidableEq, Repr

namespace Tensor

/-- The source's `getElementType`. -/
def getElementType (t : Tensor) : ElementType := t.elementType

/-- The source's `getRank`. -/
def getRank (t : Tensor) : Int := t.rank

/-- The source's `getData`: the buffer. -/
def getData (t : Tensor) : List Nat := t.data

/-- The source's `getMutableExtents`: the first `rank` values after the object,
`MutableArrayRef<std::int32_t>(tail, rank)`. -/
def getMutableExtents (t : Tensor) : List Int := t.tail.take t.rank.toNat

/-- The source's `getExtents`: the same values as a read-only array. -/
def getExtents (t : Tensor) : List Int := t.getMutableExtents

/-- The source's `getExtent`: `getExtents()[dimension]`, which has no value outside
the array. -/
def getExtent (t : Tensor) (dimension : Int) : Option Int :=
  if dimension < 0 then none else t.getExtents[dimension.toNat]?

/-- Modelled from the spec: `getDataByteSize`, declared in the header and defined in a
file that is not among the sources.  The spec: "`dataByteSize == product(extents) *
sizeOf(elementType)`"; the header declares the result a `std::int32_t`. -/
def getDataByteSize (t : Tensor) : Int :=
  wrapInt32 (t.getExtents.prod * getElementTypeByteSize t.getElementType)

/-- Modelled from the spec: `Tensor::createRaw`, declared in the header and defined in a
file that is not among the sources.  The spec: "compute `size = product(extents) *
sizeOf(elementType)`, allocate header+extents+data as one block, copy the source buffer
into the data region", the block holding "`rank` tail-packed 32-bit extents".  `data`
holds the bytes of the source buffer, `beyond` what the memory holds after the
tail-packed extents. -/
def createRaw (extents : List Int) (elementType : ElementType) (data : List Nat)
    (beyond : List Int) : Tensor :=
  let size := wrapInt32 (extents.prod * getElementTypeByteSize elementType)
  { elementType := elementType
    rank := extents.length
    data := data.take size.toNat
    tail := extents ++ beyond }

/-- Modelled from the spec: `Tensor::create`, declared in the header and defined in a
file that is not among the sources.  The spec: the factory returns "an owning reference
with an initial count of one".  `p` is the address of the new block; the new object's
count starts at zero, `RefTarget() : refCount(0)`, and the handle adopts it by
`Ref(T *rawPtr)`.  The result is the object, the slot of the handle and the state. -/
def create (p : Ptr) (extents : List Int) (elementType : ElementType) (data : List Nat)
    (beyond : List Int) (s : State) : Option (Tensor × Nat × State) :=
  let t := createRaw extents elementType data beyond
  let s0 : State :=
    { s with heap := { s.heap with refCount := Function.update s.heap.refCount p 0 } }
  (Ref.ctorRaw p s0).map fun r => (t, r.1, r.2)

end Tensor

/-- The data byte size of C18 as the specification words it, for one sequence of
extents: the tensor that `Tensor::create` returns has `getDataByteSize()` equal to the
product of the extents times 4. -/
def ByteSizeAsStated (extents : List Int) : Prop :=
  ∀ p data beyond s t r s',
    Tensor.create p extents ElementType.F32 data beyond s = some (t, r, s') →
    t.getDataByteSize = extents.prod * 4

/-! ## Threads sharing one tensor

The count is a `std::atomic<size_t>`: `refCount += 1` and `refCount.fetch_sub(1)` are
single atomic read-modify-write accesses, so a run of several threads is an
interleaving of these accesses and of the destructor run and the release that follow a
`fetch_sub` that read 1. -/

/-- The atomic access of `decref`, `ptr->refCount.fetch_sub(1)`: the value read, and the
heap after the store. -/
def Ref.fetchSub (ptr : Ptr) (h : Heap) : Nat × Heap :=
  (h.refCount ptr,
    { refCount :=
        Function.update h.refCount ptr ((h.refCount ptr + (sizeRange - 1)) % sizeRange)
      log := h.log ++ [Event.decref ptr] })

/-- The second step of a `decref` whose `fetch_sub` read 1: `ptr->~T()`. -/
def Ref.runDestructor (ptr : Ptr) (h : Heap) : Heap :=
  { h with log := h.log ++ [Event.destroy ptr] }

/-- The last step of a `decref` whose `fetch_sub` read 1: `std::free(ptr)`. -/
def Ref.releaseBlock (ptr : Ptr) (h : Heap) : Heap :=
  { h with log := h.log ++ [Event.free ptr] }

/-- A statement of a thread on the handles it owns: copy-construct a handle from one
of them, or destroy one of them. -/
inductive Act where
  | copy
  | drop
  deriving DecidableEq, Repr

/-- Where a thread stands: outside `decref`, or inside a `decref` whose `fetch_sub`
read 1, before the destructor run or before the release. -/
inductive Phase where
  | idle
  | destroying
  | releasing
  deriving DecidableEq, Repr

/-- A thread: the number of live handles to the tensor it owns, where it stands, and
the statements it has yet to run. -/
structure Thread where
  live : Nat
  phase : Phase
  todo : List Act
  deriving DecidableEq, Repr

/-- The shared heap and the threads. -/
structure Conc where
  heap : Heap
  threads : List Thread

/-- The next access of thread `i` to the tensor at `ptr`.  A copy is `Ref(const Ref &)`:
`incref` on the pointer of a live handle of the thread.  A drop is `~Ref()`: the
`fetch_sub`, after which the handle is gone, followed in later steps by the destructor
run and the release when the value read was 1.  There is no step for a thread that has
nothing left to do, or whose next statement needs a handle while it owns none. -/
def Conc.step (ptr : Ptr) (i : Nat) (c : Conc) : Option Conc := do
  let t ← c.threads[i]?
  match t.phase, t.todo with
  | Phase.destroying, _ =>
    some ⟨Ref.runDestructor ptr c.heap, c.threads.set i { t with phase := Phase.releasing }⟩
  | Phase.releasing, _ =>
    some ⟨Ref.releaseBlock ptr c.heap, c.threads.set i { t with phase := Phase.idle }⟩
  | Phase.idle, [] => none
  | Phase.idle, Act.copy :: rest =>
    if t.live = 0 then none
    else some ⟨Ref.incref ptr c.heap,
      c.threads.set i { t with live := t.live + 1, todo := rest }⟩
  | Phase.idle, Act.drop :: rest =>
    if t.live = 0 then none
    else
      let r := Ref.fetchSub ptr c.heap
      some ⟨r.2, c.threads.set i
        { live := t.live - 1
          phase := if r.1 = 1 then Phase.destroying else Phase.idle
          todo := rest }⟩

/-- A run under the schedule that names the thread of each step. -/
def Conc.exec (ptr : Ptr) : List Nat → Conc → Option Conc
  | [], c => some c
  | i :: is, c => (Conc.step ptr i c).bind (Conc.exec ptr is)

/-- Number of live handles to the tensor, over all threads. -/
def Conc.totalLive (c : Conc) : Nat :=
  (c.threads.map Thread.live).sum

/-- The thread is inside a `decref` that has to destroy and release. -/
def Thread.busy (t : Thread) : Bool :=
  decide (t.phase ≠ Phase.idle)

/-- The thread is about to run the destructor. -/
def Thread.aboutToDestroy (t : Thread) : Bool :=
  decide (t.phase = Phase.destroying)

/-- The invariant of a run on the tensor at `p`: the count is the number of live
handles, and exactly when no handle is left the tensor has been released or one thread
is on its way to release it, and likewise for the destructor. -/
def ConcInv (p : Ptr) (c : Conc) : Prop :=
  c.heap.refCount p = c.totalLive ∧
  frees p c.heap + c.threads.countP Thread.busy = (if c.totalLive = 0 then 1 else 0) ∧
  destroys p c.heap + c.threads.countP Thread.aboutToDestroy
    = (if c.totalLive = 0 then 1 else 0)

/-- Three threads that each own one handle to the tensor at 1, each about to copy its
handle and then drop the copy and the original. -/
def demoConc : Conc :=
  ⟨⟨fun p => if p = 1 then 3 else 0, []⟩,
    [⟨1, Phase.idle, [Act.copy, Act.drop, Act.drop]⟩,
     ⟨1, Phase.idle, [Act.copy, Act.drop, Act.drop]⟩,
     ⟨1, Phase.idle, [Act.copy, Act.drop, Act.drop]⟩]⟩

/-- An interleaving of the three threads of `demoConc` that runs every statement:
thread 0 is done before thread 2 starts, and the last `fetch_sub` is by thread 2, which
then destroys and releases. -/
def demoSchedule : List Nat :=
  [0, 0, 1, 0, 2, 1, 2, 1, 2, 2, 2]

/-! ## Basic facts -/

theorem sizeRange_eq : sizeRange = 18446744073709551616 := by
  norm_num [sizeRange]

theorem countP_set_add {α : Type} (p : α → Bool) (l : List α) (i : Nat) (x y : α)
    (h : l[i]? = some y) :
    (l.set i x).countP p + (if p y then 1 else 0) = l.countP p + (if p x then 1 else 0) := by
  induction l generalizing i with
  | nil => simp at h
  | cons a t ih =>
    cases i with
    | zero =>
      simp only [List.getElem?_cons_zero, Option.some.injEq] at h
      subst h
      simp only [List.set_cons_zero, List.countP_cons]
      omega
    | succ k =>
      simp only [List.getElem?_cons_succ] at h
      have := ih k h
      simp only [List.set_cons_succ, List.countP_cons]
      omega

theorem State.val_eq_some {s : State} {i : Nat} {v : RtValue} :
    s.val i = some v ↔ s.vals[i]? = some (some v) := by
  unfold State.val
  split
  · next w hw => simp [hw]
  · next hn =>
    constructor
    · intro h; cases h
    · intro h; exact absurd h (hn v)

theorem State.val_lt {s : State} {i : Nat} {v : RtValue} (h : s.val i = some v) :
    i < s.vals.length := by
  rw [State.val_eq_some] at h
  exact (List.getElem?_eq_some.mp h).1

theorem State.val_setVal (s : State) (i j : Nat) (o : Option RtValue) :
    (s.setVal i o).val j = if i = j ∧ i < s.vals.length then o else s.val j := by
  unfold State.val State.setVal
  simp only [List.getElem?_set]
  by_cases hij : i = j
  · by_cases hl : i < s.vals.length
    · simp only [hij, hl, and_self, if_true]
      subst hij
      simp only [hl, if_true]
      cases o <;> rfl
    · have : s.vals[j]? = none := by
        apply List.getElem?_eq_none; omega
      simp [hij, hl, this]
      subst hij
      simp [hl]
  · simp [hij]

theorem State.val_newVal (s : State) (v : RtValue) (j : Nat) :
    (s.newVal v).2.val j = if j = s.vals.length then some v else s.val j := by
  unfold State.val State.newVal
  simp only [List.getElem?_append]
  by_cases hj : j < s.vals.length
  · have : j ≠ s.vals.length := by omega
    simp [hj, this]
  · by_cases he : j = s.vals.length
    · simp [he]
    · have h1 : s.vals[j]? = none := by apply List.getElem?_eq_none; omega
      have h2 : ([some v] : List (Option RtValue))[j - s.vals.length]? = none := by
        apply List.getElem?_eq_none; simp; omega
      simp [hj, he, h1, h2]

theorem RtValue.isRef_eq (v : RtValue) : v.isRef = v.isTensor := by
  unfold RtValue.isRef; cases v.isTensor <;> rfl

theorem RtValue.increfDispatch_eq (v : RtValue) (h : Heap) :
    v.increfDispatch h = some (v.retain h) := by
  unfold RtValue.increfDispatch RtValue.retain RtValue.isRef RtValue.isTensor
  by_cases ht : v.tag = Tag.Tensor
  · simp [ht]
  · have : ¬ Tag.Tensor = v.tag := fun h => ht h.symm
    simp [ht, this]

theorem RtValue.decrefDispatch_eq (v : RtValue) (h : Heap) :
    v.decrefDispatch h = some (v.release h) := by
  unfold RtValue.decrefDispatch RtValue.release RtValue.isRef RtValue.isTensor
  by_cases ht : v.tag = Tag.Tensor
  · simp [ht]
  · have : ¬ Tag.Tensor = v.tag := fun h => ht h.symm
    simp [ht, this]

/-! ## Closed forms of the `RtValue` member functions -/

theorem RtValue.ctorCopy_eq {s : State} {rhs : Nat} {r : RtValue} (hr : s.val rhs = some r) :
    RtValue.ctorCopy rhs s
      = some (s.vals.length, ⟨r.retain s.heap, s.vals ++ [some r], s.refs⟩) := by
  have hv : (s.newVal ⟨r.payload, r.tag⟩).2.val (s.newVal ⟨r.payload, r.tag⟩).1
      = some ⟨r.payload, r.tag⟩ := by
    rw [State.val_newVal]; simp [State.newVal]
  unfold RtValue.ctorCopy
  simp only [hr, Option.bind_eq_bind, Option.some_bind]
  rw [hv]
  simp only [Option.some_bind, RtValue.increfDispatch_eq]
  rfl

theorem RtValue.swap_eq {s : State} {a b : Nat} {va vb : RtValue}
    (ha : s.val a = some va) (hb : s.val b = some vb) :
    RtValue.swap a b s = some ⟨s.heap, (s.vals.set a (some vb)).set b (some va), s.refs⟩ := by
  have hla := State.val_lt ha
  have hlb := State.val_lt hb
  unfold RtValue.swap
  simp only [ha, hb, Option.bind_eq_bind, Option.some_bind, State.val_setVal]
  by_cases hab : a = b
  · subst hab
    have hvv : va = vb := by rw [ha] at hb; exact Option.some.inj hb
    subst hvv
    simp [State.setVal, hla, List.set_set]
  · have hba : ¬ b = a := fun h => hab h.symm
    simp [State.setVal, hla, hlb, hab, hba, List.set_set]
    apply List.ext_getElem?
    intro n
    simp only [List.getElem?_set, List.length_set]
    by_cases hbn : b = n
    · simp [hbn]
    · by_cases han : a = n
      · simp [hbn, han]
      · simp [hbn, han]

theorem RtValue.ctorMove_eq {s : State} {rhs : Nat} {r : RtValue} (hr : s.val rhs = some r) :
    RtValue.ctorMove rhs s
      = some (s.vals.length,
          ⟨s.heap, s.vals.set rhs (some ⟨0, Tag.None⟩) ++ [some r], s.refs⟩) := by
  have hl := State.val_lt hr
  have h1 : (RtValue.ctorDefault s).2.val (RtValue.ctorDefault s).1 = some ⟨0, Tag.None⟩ := by
    unfold RtValue.ctorDefault; rw [State.val_newVal]; simp [State.newVal]
  have h2 : (RtValue.ctorDefault s).2.val rhs = some r := by
    unfold RtValue.ctorDefault; rw [State.val_newVal]
    have : rhs ≠ s.vals.length := by omega
    simp [this, hr]
  unfold RtValue.ctorMove
  simp only [hr, Option.bind_eq_bind, RtValue.swap_eq h1 h2, Option.some_bind]
  simp only [RtValue.ctorDefault, State.newVal, Option.some.injEq, Prod.mk.injEq, true_and,
    State.mk.injEq]
  rw [List.set_append]
  have : ¬ s.vals.length < s.vals.length := by omega
  simp [this, hl, List.set_append]

theorem RtValue.dtor_eq {s : State} {x : Nat} {v : RtValue} (hv : s.val x = some v) :
    RtValue.dtor x s = some ⟨v.release s.heap, s.vals.set x none, s.refs⟩ := by
  unfold RtValue.dtor
  simp only [hv, Option.bind_eq_bind, Option.some_bind, RtValue.decrefDispatch_eq]
  rfl

theorem RtValue.assignCopy_eq {s : State} {dst rhs : Nat} {a b : RtValue}
    (ha : s.val dst = some a) (hb : s.val rhs = some b) :
    RtValue.assignCopy dst rhs s
      = some ⟨a.release (b.retain s.heap), s.vals.set dst (some b) ++ [none], s.refs⟩ := by
  have hla := State.val_lt ha
  have hnl : ¬ s.vals.length < s.vals.length := by omega
  have h1 : (⟨b.retain s.heap, s.vals ++ [some b], s.refs⟩ : State).val s.vals.length
      = some b := by
    rw [State.val_eq_some]; simp
  have h2 : (⟨b.retain s.heap, s.vals ++ [some b], s.refs⟩ : State).val dst = some a := by
    rw [State.val_eq_some] at ha ⊢
    simp [List.getElem?_append, hla, ha]
  have h3 : (⟨b.retain s.heap, s.vals.set dst (some b) ++ [some a], s.refs⟩ : State).val
      s.vals.length = some a := by
    rw [State.val_eq_some]
    have : (s.vals.set dst (some b)).length ≤ s.vals.length := by simp
    rw [List.getElem?_append_right this]; simp
  unfold RtValue.assignCopy
  simp only [ha, hb, RtValue.ctorCopy_eq hb, Option.bind_eq_bind, Option.some_bind,
    RtValue.swap_eq h1 h2]
  have hl : ((s.vals ++ [some b]).set s.vals.length (some a)).set dst (some b)
      = s.vals.set dst (some b) ++ [some a] := by
    simp [List.set_append, hnl, hla]
  rw [hl, RtValue.dtor_eq h3]
  have hl2 : (s.vals.set dst (some b) ++ [some a]).set s.vals.length none
      = s.vals.set dst (some b) ++ [none] := by
    simp [List.set_append, hnl]
  simp only [hl2]

theorem RtValue.assignMove_eq {s : State} {dst rhs : Nat} {a b : RtValue}
    (ha : s.val dst = some a) (hb : s.val rhs = some b) :
    RtValue.assignMove dst rhs s
      = some ⟨if dst = rhs then s.heap else a.release s.heap,
          (s.vals.set rhs (some ⟨0, Tag.None⟩)).set dst (some b) ++ [none], s.refs⟩ := by
  have hla := State.val_lt ha
  have hlb := State.val_lt hb
  have hnl : ¬ s.vals.length < s.vals.length := by omega
  have h1 : (⟨s.heap, s.vals.set rhs (some ⟨0, Tag.None⟩) ++ [some b], s.refs⟩ : State).val
      s.vals.length = some b := by
    rw [State.val_eq_some]
    have : (s.vals.set rhs (some ⟨0, Tag.None⟩)).length ≤ s.vals.length := by simp
    rw [List.getElem?_append_right this]; simp
  have h2 : (⟨s.heap, s.vals.set rhs (some ⟨0, Tag.None⟩) ++ [some b], s.refs⟩ : State).val
      dst = some (if dst = rhs then ⟨0, Tag.None⟩ else a) := by
    rw [State.val_eq_some] at ha ⊢
    have : dst < (s.vals.set rhs (some ⟨0, Tag.None⟩)).length := by simpa using hla
    rw [List.getElem?_append_left this, List.getElem?_set]
    by_cases e : dst = rhs
    · simp [e, hlb]
    · have e2 : ¬ rhs = dst := fun h => e h.symm
      simp [e, e2, ha]
  have h3 : (⟨s.heap, (s.vals.set rhs (some ⟨0, Tag.None⟩)).set dst (some b)
        ++ [some (if dst = rhs then ⟨0, Tag.None⟩ else a)], s.refs⟩ : State).val
      s.vals.length = some (if dst = rhs then ⟨0, Tag.None⟩ else a) := by
    rw [State.val_eq_some]
    have : ((s.vals.set rhs (some ⟨0, Tag.None⟩)).set dst (some b)).length
        ≤ s.vals.length := by simp
    rw [List.getElem?_append_right this]; simp
  unfold RtValue.assignMove
  simp only [ha, hb, RtValue.ctorMove_eq hb, Option.bind_eq_bind, Option.some_bind,
    RtValue.swap_eq h1 h2]
  have hl : ((s.vals.set rhs (some ⟨0, Tag.None⟩) ++ [some b]).set s.vals.length
        (some (if dst = rhs then ⟨0, Tag.None⟩ else a))).set dst (some b)
      = (s.vals.set rhs (some ⟨0, Tag.None⟩)).set dst (some b)
        ++ [some (if dst = rhs then ⟨0, Tag.None⟩ else a)] := by
    simp [List.set_append, hnl, hla]
  rw [hl, RtValue.dtor_eq h3]
  have hl2 : ((s.vals.set rhs (some ⟨0, Tag.None⟩)).set dst (some b)
        ++ [some (if dst = rhs then ⟨0, Tag.None⟩ else a)]).set s.vals.length none
      = (s.vals.set rhs (some ⟨0, Tag.None⟩)).set dst (some b) ++ [none] := by
    simp [List.set_append, hnl]
  simp only [hl2]
  by_cases e : dst = rhs
  · simp [e, RtValue.release]
  · simp [e]

/-! ## Closed forms of the `Ref<Tensor>` member functions -/

theorem State.ref_eq_some {s : State} {i : Nat} {p : Ptr} :
    s.ref i = some p ↔ s.refs[i]? = some (some p) := by
  unfold State.ref
  split
  · next w hw => simp [hw]
  · next hn =>
    constructor
    · intro h; cases h
    · intro h; exact absurd h (hn p)

theorem State.ref_lt {s : State} {i : Nat} {p : Ptr} (h : s.ref i = some p) :
    i < s.refs.length := by
  rw [State.ref_eq_some] at h
  exact (List.getElem?_eq_some.mp h).1

theorem refCtorCopy_eq {s : State} {other : Nat} {p : Ptr} (hp : s.ref other = some p) :
    Ref.ctorCopy other s
      = some (s.refs.length, ⟨Ref.incref p s.heap, s.vals, s.refs ++ [some p]⟩) := by
  unfold Ref.ctorCopy
  simp only [hp, Option.bind_eq_bind, Option.some_bind]
  rfl

theorem Ref.takePtr_eq {s : State} {x : Nat} {p : Ptr} (hp : s.ref x = some p) :
    Ref.takePtr x s = some (p, ⟨s.heap, s.vals, s.refs.set x (some 0)⟩) := by
  unfold Ref.takePtr
  simp only [hp, Option.bind_eq_bind, Option.some_bind]
  rfl

theorem refCtorMove_eq {s : State} {other : Nat} {p : Ptr} (hp : s.ref other = some p) :
    Ref.ctorMove other s
      = some (s.refs.length, ⟨s.heap, s.vals, s.refs.set other (some 0) ++ [some p]⟩) := by
  unfold Ref.ctorMove
  simp only [Ref.takePtr_eq hp, Option.bind_eq_bind, Option.some_bind, State.newRef,
    List.length_set]

theorem refAssignCopy_eq {s : State} {dst other : Nat} {p q : Ptr}
    (hp : s.ref dst = some p) (hq : s.ref other = some q) :
    Ref.assignCopy dst other s
      = some (if other = dst then s
          else ⟨Ref.incref q (Ref.decref p s.heap), s.vals, s.refs.set dst (some q)⟩) := by
  have hq1 : (⟨Ref.decref p s.heap, s.vals, s.refs⟩ : State).ref other = some q := by
    rw [State.ref_eq_some] at hq ⊢; exact hq
  unfold Ref.assignCopy
  simp only [hp, hq, Option.bind_eq_bind, Option.some_bind]
  by_cases e : other = dst
  · simp [e]
  · simp only [e, if_false, hq1, Option.some_bind]
    rfl

theorem refAssignMove_eq {s : State} {dst other : Nat} {p q : Ptr}
    (hp : s.ref dst = some p) (hq : s.ref other = some q) :
    Ref.assignMove dst other s
      = some (if other = dst then s
          else ⟨Ref.decref p s.heap, s.vals,
            (s.refs.set other (some 0)).set dst (some q)⟩) := by
  have hq1 : (⟨Ref.decref p s.heap, s.vals, s.refs⟩ : State).ref other = some q := by
    rw [State.ref_eq_some] at hq ⊢; exact hq
  unfold Ref.assignMove
  simp only [hp, hq, Option.bind_eq_bind, Option.some_bind]
  by_cases e : other = dst
  · simp [e]
  · simp only [e, if_false, Ref.takePtr_eq hq1, Option.some_bind]
    rfl

theorem refDtor_eq {s : State} {x : Nat} {p : Ptr} (hp : s.ref x = some p) :
    Ref.dtor x s = some ⟨Ref.decref p s.heap, s.vals, s.refs.set x none⟩ := by
  unfold Ref.dtor
  simp only [hp, Option.bind_eq_bind, Option.some_bind]
  rfl

/-! ## Heap effects seen from one object -/

theorem Ref.incref_refCount (p T : Ptr) (h : Heap) :
    (Ref.incref p h).refCount T
      = if p = T ∧ T ≠ 0 then (h.refCount T + 1) % sizeRange else h.refCount T := by
  unfold Ref.incref
  by_cases hp : p = 0
  · have hn : ¬ (p = T ∧ T ≠ 0) := by
      rintro ⟨rfl, h2⟩; exact h2 hp
    rw [if_neg hn]; simp [hp]
  · by_cases e : p = T
    · subst e; simp [hp]
    · have e2 : ¬ T = p := fun h => e h.symm
      simp [hp, e, Function.update, e2]

theorem Ref.incref_frees (p T : Ptr) (h : Heap) :
    frees T (Ref.incref p h) = frees T h := by
  unfold Ref.incref frees
  by_cases hp : p = 0
  · simp [hp]
  · simp [hp, List.count_append, List.count_cons]

theorem Ref.incref_destroys (p T : Ptr) (h : Heap) :
    destroys T (Ref.incref p h) = destroys T h := by
  unfold Ref.incref destroys
  by_cases hp : p = 0
  · simp [hp]
  · simp [hp, List.count_append, List.count_cons]

theorem Ref.decref_refCount (p T : Ptr) (h : Heap) :
    (Ref.decref p h).refCount T
      = if p = T ∧ T ≠ 0 then (h.refCount T + (sizeRange - 1)) % sizeRange
        else h.refCount T := by
  unfold Ref.decref
  by_cases hp : p = 0
  · have hn : ¬ (p = T ∧ T ≠ 0) := by
      rintro ⟨rfl, h2⟩; exact h2 hp
    rw [if_neg hn]; simp [hp]
  · by_cases e : p = T
    · subst e
      by_cases h1 : h.refCount p = 1 <;> simp [hp, h1]
    · have e2 : ¬ T = p := fun h => e h.symm
      by_cases h1 : h.refCount p = 1 <;> simp [hp, e, Function.update, e2, h1]

theorem Ref.decref_frees (p T : Ptr) (h : Heap) :
    frees T (Ref.decref p h)
      = frees T h + (if p = T ∧ T ≠ 0 ∧ h.refCount T = 1 then 1 else 0) := by
  unfold Ref.decref frees
  by_cases hp : p = 0
  · have hn : ¬ (p = T ∧ T ≠ 0 ∧ h.refCount T = 1) := by
      rintro ⟨rfl, h2, _⟩; exact h2 hp
    rw [if_neg hn]; simp [hp]
  · by_cases e : p = T
    · subst e
      by_cases h1 : h.refCount p = 1 <;> simp [hp, h1, List.count_append, List.count_cons]
    · by_cases h1 : h.refCount p = 1 <;>
        simp [hp, e, h1, List.count_append, List.count_cons]

theorem Ref.decref_destroys (p T : Ptr) (h : Heap) :
    destroys T (Ref.decref p h)
      = destroys T h + (if p = T ∧ T ≠ 0 ∧ h.refCount T = 1 then 1 else 0) := by
  unfold Ref.decref destroys
  by_cases hp : p = 0
  · have hn : ¬ (p = T ∧ T ≠ 0 ∧ h.refCount T = 1) := by
      rintro ⟨rfl, h2, _⟩; exact h2 hp
    rw [if_neg hn]; simp [hp]
  · by_cases e : p = T
    · subst e
      by_cases h1 : h.refCount p = 1 <;> simp [hp, h1, List.count_append, List.count_cons]
    · by_cases h1 : h.refCount p = 1 <;>
        simp [hp, e, h1, List.count_append, List.count_cons]

/-! ## The conservation invariant -/

theorem ownsVal_some (T : Ptr) (v : RtValue) :
    ownsVal T (some v) = decide (v.tag = Tag.Tensor ∧ v.payload = T) := by
  unfold ownsVal
  cases v with
  | mk p t =>
    by_cases h1 : t = Tag.Tensor <;> by_cases h2 : p = T <;> simp [h1, h2]

theorem RtValue.retain_refCount (T : Ptr) (hT : T ≠ 0) (v : RtValue) (h : Heap) :
    (v.retain h).refCount T
      = if ownsVal T (some v) then (h.refCount T + 1) % sizeRange else h.refCount T := by
  rw [ownsVal_some]
  unfold RtValue.retain
  by_cases h1 : v.tag = Tag.Tensor
  · simp only [h1, if_true, Ref.incref_refCount, true_and]
    by_cases h2 : v.payload = T <;> simp [h2, hT]
  · simp [h1]

theorem RtValue.retain_frees (T : Ptr) (v : RtValue) (h : Heap) :
    frees T (v.retain h) = frees T h := by
  unfold RtValue.retain
  split
  · exact Ref.incref_frees _ _ _
  · rfl

theorem RtValue.retain_destroys (T : Ptr) (v : RtValue) (h : Heap) :
    destroys T (v.retain h) = destroys T h := by
  unfold RtValue.retain
  split
  · exact Ref.incref_destroys _ _ _
  · rfl

theorem RtValue.release_refCount (T : Ptr) (hT : T ≠ 0) (v : RtValue) (h : Heap) :
    (v.release h).refCount T
      = if ownsVal T (some v) then (h.refCount T + (sizeRange - 1)) % sizeRange
        else h.refCount T := by
  rw [ownsVal_some]
  unfold RtValue.release
  by_cases h1 : v.tag = Tag.Tensor
  · simp only [h1, if_true, Ref.decref_refCount, true_and]
    by_cases h2 : v.payload = T <;> simp [h2, hT]
  · simp [h1]

theorem RtValue.release_frees (T : Ptr) (hT : T ≠ 0) (v : RtValue) (h : Heap) :
    frees T (v.release h)
      = frees T h + (if ownsVal T (some v) = true ∧ h.refCount T = 1 then 1 else 0) := by
  rw [ownsVal_some]
  unfold RtValue.release
  by_cases h1 : v.tag = Tag.Tensor
  · simp only [h1, if_true, Ref.decref_frees, true_and]
    by_cases h2 : v.payload = T <;> simp [h2, hT]
  · simp [h1]

theorem RtValue.release_destroys (T : Ptr) (hT : T ≠ 0) (v : RtValue) (h : Heap) :
    destroys T (v.release h)
      = destroys T h + (if ownsVal T (some v) = true ∧ h.refCount T = 1 then 1 else 0) := by
  rw [ownsVal_some]
  unfold RtValue.release
  by_cases h1 : v.tag = Tag.Tensor
  · simp only [h1, if_true, Ref.decref_destroys, true_and]
    by_cases h2 : v.payload = T <;> simp [h2, hT]
  · simp [h1]

theorem countP_pos_of_getElem? {α : Type} (p : α → Bool) (l : List α) (i : Nat) (y : α)
    (h : l[i]? = some y) (hy : p y = true) : 1 ≤ l.countP p := by
  obtain ⟨hl, he⟩ := List.getElem?_eq_some.mp h
  have hm : y ∈ l := he ▸ List.getElem_mem hl
  exact List.countP_pos_iff.mpr ⟨y, hm, hy⟩

theorem ownsVal_none (T : Ptr) : ownsVal T none = false := by
  simp [ownsVal]

theorem ownsVal_default (T : Ptr) : ownsVal T (some ⟨0, Tag.None⟩) = false := by
  simp [ownsVal]

theorem ownsRef_none (T : Ptr) : ownsRef T none = false := by
  simp [ownsRef]

theorem ownsRef_some (T p : Ptr) : ownsRef T (some p) = decide (p = T) := by
  simp [ownsRef]

theorem owners_le (T : Ptr) (s : State) : owners T s ≤ s.vals.length + s.refs.length := by
  unfold owners
  have h1 := List.countP_le_length (ownsVal T) (l := s.vals)
  have h2 := List.countP_le_length (ownsRef T) (l := s.refs)
  omega

theorem conserved_valCopy {T : Ptr} {f d : Nat} (hT : T ≠ 0) {s : State} {rhs : Nat} {r : RtValue}
    (hr : s.val rhs = some r) (hc : Conserved T f d s)
    (hb : s.vals.length + s.refs.length + 1 < sizeRange) :
    Conserved T f d ⟨r.retain s.heap, s.vals ++ [some r], s.refs⟩ := by
  have hle := owners_le T s
  have hpos : ownsVal T (some r) = true → 1 ≤ s.vals.countP (ownsVal T) :=
    countP_pos_of_getElem? _ _ _ _ (State.val_eq_some.mp hr)
  unfold Conserved owners at *
  simp only [RtValue.retain_refCount T hT, RtValue.retain_frees, RtValue.retain_destroys,
    List.countP_append, List.countP_cons, List.countP_nil]
  rw [sizeRange_eq] at *
  obtain ⟨h1, h2, h3⟩ := hc
  cases hB : ownsVal T (some r)
  · simp only [hB, Bool.false_eq_true, if_false] at *
    simp only [zero_add, add_zero] at *
    exact ⟨h1, h2, h3⟩
  · simp only [hB, if_true] at *
    have := hpos trivial
    refine ⟨by omega, ?_, ?_⟩ <;> simp only [h2, h3] <;> split_ifs <;> omega

theorem conserved_valDefault {T : Ptr} {f d : Nat} {s : State} (hc : Conserved T f d s) :
    Conserved T f d ⟨s.heap, s.vals ++ [some ⟨0, Tag.None⟩], s.refs⟩ := by
  unfold Conserved owners at *
  simp only [List.countP_append, List.countP_cons, List.countP_nil, ownsVal_default,
    Bool.false_eq_true, if_false, add_zero]
  exact hc

theorem conserved_valMove {T : Ptr} {f d : Nat} {s : State} {rhs : Nat} {r : RtValue}
    (hr : s.val rhs = some r) (hc : Conserved T f d s) :
    Conserved T f d ⟨s.heap, s.vals.set rhs (some ⟨0, Tag.None⟩) ++ [some r], s.refs⟩ := by
  have hset := countP_set_add (ownsVal T) s.vals rhs (some ⟨0, Tag.None⟩) (some r)
    (State.val_eq_some.mp hr)
  rw [ownsVal_default] at hset
  have ho : owners T ⟨s.heap, s.vals.set rhs (some ⟨0, Tag.None⟩) ++ [some r], s.refs⟩
      = owners T s := by
    unfold owners
    simp only [List.countP_append, List.countP_cons, List.countP_nil]
    simp only [Bool.false_eq_true, if_false] at hset
    omega
  unfold Conserved at *
  rw [ho]
  exact hc

theorem conserved_valAssignCopy {T : Ptr} {f d : Nat} (hT : T ≠ 0) {s : State} {dst rhs : Nat}
    {a b : RtValue} (ha : s.val dst = some a) (hb : s.val rhs = some b)
    (hc : Conserved T f d s) (hbd : s.vals.length + s.refs.length + 1 < sizeRange) :
    Conserved T f d
      ⟨a.release (b.retain s.heap), s.vals.set dst (some b) ++ [none], s.refs⟩ := by
  have hle := owners_le T s
  have hposa : ownsVal T (some a) = true → 1 ≤ s.vals.countP (ownsVal T) :=
    countP_pos_of_getElem? _ _ _ _ (State.val_eq_some.mp ha)
  have hposb : ownsVal T (some b) = true → 1 ≤ s.vals.countP (ownsVal T) :=
    countP_pos_of_getElem? _ _ _ _ (State.val_eq_some.mp hb)
  have hset := countP_set_add (ownsVal T) s.vals dst (some b) (some a)
    (State.val_eq_some.mp ha)
  unfold Conserved owners at *
  simp only [RtValue.retain_refCount T hT, RtValue.retain_frees, RtValue.retain_destroys,
    RtValue.release_refCount T hT, RtValue.release_frees T hT, RtValue.release_destroys T hT,
    List.countP_append, List.countP_cons, List.countP_nil, ownsVal_none]
  rw [sizeRange_eq] at *
  obtain ⟨h1, h2, h3⟩ := hc
  cases hA : ownsVal T (some a) <;> cases hB : ownsVal T (some b) <;>
    simp only [hA, hB, Bool.false_eq_true, if_false, if_true, true_and, false_and,
      add_zero, zero_add] at * <;>
    (try have hpa := hposa trivial) <;> (try have hpb := hposb trivial) <;>
    refine ⟨by omega, ?_, ?_⟩ <;> simp only [h2, h3] <;> split_ifs <;> omega

theorem conserved_valAssignMove {T : Ptr} {f d : Nat} (hT : T ≠ 0) {s : State} {dst rhs : Nat}
    {a b : RtValue} (ha : s.val dst = some a) (hb : s.val rhs = some b)
    (hc : Conserved T f d s) (hbd : s.vals.length + s.refs.length + 1 < sizeRange) :
    Conserved T f d ⟨if dst = rhs then s.heap else a.release s.heap,
      (s.vals.set rhs (some ⟨0, Tag.None⟩)).set dst (some b) ++ [none], s.refs⟩ := by
  have hle := owners_le T s
  have hposa : ownsVal T (some a) = true → 1 ≤ s.vals.countP (ownsVal T) :=
    countP_pos_of_getElem? _ _ _ _ (State.val_eq_some.mp ha)
  have hlb := State.val_lt hb
  by_cases e : dst = rhs
  · subst e
    have hab : a = b := by rw [ha] at hb; exact Option.some.inj hb
    subst hab
    have hset := countP_set_add (ownsVal T) s.vals dst (some a) (some a)
      (State.val_eq_some.mp ha)
    unfold Conserved owners at *
    simp only [if_true, List.set_set, List.countP_append, List.countP_cons, List.countP_nil,
      ownsVal_none, Bool.false_eq_true, if_false, add_zero]
    have : (s.vals.set dst (some a)).countP (ownsVal T) = s.vals.countP (ownsVal T) := by
      omega
    rw [this]
    exact hc
  · have e2 : ¬ rhs = dst := fun h => e h.symm
    have hset1 := countP_set_add (ownsVal T) s.vals rhs (some ⟨0, Tag.None⟩) (some b)
      (State.val_eq_some.mp hb)
    have hd : (s.vals.set rhs (some ⟨0, Tag.None⟩))[dst]? = some (some a) := by
      rw [List.getElem?_set_ne e2]; exact State.val_eq_some.mp ha
    have hset2 := countP_set_add (ownsVal T) (s.vals.set rhs (some ⟨0, Tag.None⟩)) dst
      (some b) (some a) hd
    rw [ownsVal_default] at hset1
    unfold Conserved owners at *
    simp only [e, if_false, RtValue.release_refCount T hT, RtValue.release_frees T hT,
      RtValue.release_destroys T hT, List.countP_append, List.countP_cons, List.countP_nil,
      ownsVal_none]
    rw [sizeRange_eq] at *
    obtain ⟨h1, h2, h3⟩ := hc
    cases hA : ownsVal T (some a) <;> cases hB : ownsVal T (some b) <;>
      simp only [hA, hB, Bool.false_eq_true, if_false, if_true, true_and, false_and,
        add_zero, zero_add] at * <;>
      (try have hpa := hposa trivial) <;>
      refine ⟨by omega, ?_, ?_⟩ <;> simp only [h2, h3] <;> split_ifs <;> omega

theorem conserved_valDestroy {T : Ptr} {f d : Nat} (hT : T ≠ 0) {s : State} {x : Nat}
    {v : RtValue} (hv : s.val x = some v) (hc : Conserved T f d s)
    (hbd : s.vals.length + s.refs.length + 1 < sizeRange) :
    Conserved T f d ⟨v.release s.heap, s.vals.set x none, s.refs⟩ := by
  have hle := owners_le T s
  have hposa : ownsVal T (some v) = true → 1 ≤ s.vals.countP (ownsVal T) :=
    countP_pos_of_getElem? _ _ _ _ (State.val_eq_some.mp hv)
  have hset := countP_set_add (ownsVal T) s.vals x none (some v) (State.val_eq_some.mp hv)
  rw [ownsVal_none] at hset
  unfold Conserved owners at *
  simp only [RtValue.release_refCount T hT, RtValue.release_frees T hT,
    RtValue.release_destroys T hT]
  rw [sizeRange_eq] at *
  obtain ⟨h1, h2, h3⟩ := hc
  cases hA : ownsVal T (some v) <;>
    simp only [hA, Bool.false_eq_true, if_false, if_true, true_and, false_and,
      add_zero, zero_add] at * <;>
    (try have hpa := hposa trivial) <;>
    refine ⟨by omega, ?_, ?_⟩ <;> simp only [h2, h3] <;> split_ifs <;> omega

theorem Ref.incref_refCount_owns (T : Ptr) (hT : T ≠ 0) (p : Ptr) (h : Heap) :
    (Ref.incref p h).refCount T
      = if ownsRef T (some p) then (h.refCount T + 1) % sizeRange else h.refCount T := by
  rw [Ref.incref_refCount, ownsRef_some]
  by_cases e : p = T <;> simp [e, hT]

theorem Ref.decref_refCount_owns (T : Ptr) (hT : T ≠ 0) (p : Ptr) (h : Heap) :
    (Ref.decref p h).refCount T
      = if ownsRef T (some p) then (h.refCount T + (sizeRange - 1)) % sizeRange
        else h.refCount T := by
  rw [Ref.decref_refCount, ownsRef_some]
  by_cases e : p = T <;> simp [e, hT]

theorem Ref.decref_frees_owns (T : Ptr) (hT : T ≠ 0) (p : Ptr) (h : Heap) :
    frees T (Ref.decref p h)
      = frees T h + (if ownsRef T (some p) = true ∧ h.refCount T = 1 then 1 else 0) := by
  rw [Ref.decref_frees, ownsRef_some]
  by_cases e : p = T <;> simp [e, hT]

theorem Ref.decref_destroys_owns (T : Ptr) (hT : T ≠ 0) (p : Ptr) (h : Heap) :
    destroys T (Ref.decref p h)
      = destroys T h + (if ownsRef T (some p) = true ∧ h.refCount T = 1 then 1 else 0) := by
  rw [Ref.decref_destroys, ownsRef_some]
  by_cases e : p = T <;> simp [e, hT]

theorem ownsRef_null (T : Ptr) (hT : T ≠ 0) : ownsRef T (some 0) = false := by
  rw [ownsRef_some]; simp [Ne.symm hT]

theorem conserved_refDefault {T : Ptr} {f d : Nat} (hT : T ≠ 0) {s : State}
    (hc : Conserved T f d s) :
    Conserved T f d ⟨s.heap, s.vals, s.refs ++ [some 0]⟩ := by
  unfold Conserved owners at *
  simp only [List.countP_append, List.countP_cons, List.countP_nil, ownsRef_null T hT,
    Bool.false_eq_true, if_false, add_zero]
  exact hc

theorem conserved_refCopy {T : Ptr} {f d : Nat} (hT : T ≠ 0) {s : State} {other : Nat} {p : Ptr}
    (hp : s.ref other = some p) (hc : Conserved T f d s)
    (hbd : s.vals.length + s.refs.length + 1 < sizeRange) :
    Conserved T f d ⟨Ref.incref p s.heap, s.vals, s.refs ++ [some p]⟩ := by
  have hle := owners_le T s
  have hposa : ownsRef T (some p) = true → 1 ≤ s.refs.countP (ownsRef T) :=
    countP_pos_of_getElem? _ _ _ _ (State.ref_eq_some.mp hp)
  unfold Conserved owners at *
  simp only [Ref.incref_refCount_owns T hT, Ref.incref_frees, Ref.incref_destroys,
    List.countP_append, List.countP_cons, List.countP_nil]
  rw [sizeRange_eq] at *
  obtain ⟨h1, h2, h3⟩ := hc
  cases hA : ownsRef T (some p) <;>
    simp only [hA, Bool.false_eq_true, if_false, if_true, true_and, false_and,
      add_zero, zero_add] at * <;>
    (try have hpa := hposa trivial) <;>
    refine ⟨by omega, ?_, ?_⟩ <;> simp only [h2, h3] <;> split_ifs <;> omega

theorem conserved_refMove {T : Ptr} {f d : Nat} (hT : T ≠ 0) {s : State} {other : Nat} {p : Ptr}
    (hp : s.ref other = some p) (hc : Conserved T f d s) :
    Conserved T f d ⟨s.heap, s.vals, s.refs.set other (some 0) ++ [some p]⟩ := by
  have hset := countP_set_add (ownsRef T) s.refs other (some 0) (some p)
    (State.ref_eq_some.mp hp)
  rw [ownsRef_null T hT] at hset
  have ho : owners T ⟨s.heap, s.vals, s.refs.set other (some 0) ++ [some p]⟩
      = owners T s := by
    unfold owners
    simp only [List.countP_append, List.countP_cons, List.countP_nil]
    simp only [Bool.false_eq_true, if_false] at hset
    omega
  unfold Conserved at *
  rw [ho]
  exact hc

theorem conserved_refAssignCopy {T : Ptr} {f d : Nat} (hT : T ≠ 0) {s : State} {dst other : Nat}
    {p q : Ptr} (hp : s.ref dst = some p) (hq : s.ref other = some q) (hne : other ≠ dst)
    (hc : Conserved T f d s) (hbd : s.vals.length + s.refs.length + 1 < sizeRange) :
    Conserved T f d ⟨Ref.incref q (Ref.decref p s.heap), s.vals, s.refs.set dst (some q)⟩ := by
  have hle := owners_le T s
  have hset := countP_set_add (ownsRef T) s.refs dst (some q) (some p)
    (State.ref_eq_some.mp hp)
  have hset0 := countP_set_add (ownsRef T) s.refs dst none (some p)
    (State.ref_eq_some.mp hp)
  have hq0 : (s.refs.set dst none)[other]? = some (some q) := by
    rw [List.getElem?_set_ne (Ne.symm hne)]; exact State.ref_eq_some.mp hq
  have hposq : ownsRef T (some q) = true → 1 ≤ (s.refs.set dst none).countP (ownsRef T) :=
    countP_pos_of_getElem? _ _ _ _ hq0
  rw [ownsRef_none] at hset0
  unfold Conserved owners at *
  simp only [Ref.incref_refCount_owns T hT, Ref.incref_frees, Ref.incref_destroys,
    Ref.decref_refCount_owns T hT, Ref.decref_frees_owns T hT, Ref.decref_destroys_owns T hT]
  rw [sizeRange_eq] at *
  obtain ⟨h1, h2, h3⟩ := hc
  cases hA : ownsRef T (some p) <;> cases hB : ownsRef T (some q) <;>
    simp only [hA, hB, Bool.false_eq_true, if_false, if_true, true_and, false_and,
      add_zero, zero_add] at * <;>
    (try have hpq := hposq trivial) <;>
    refine ⟨by omega, ?_, ?_⟩ <;> simp only [h2, h3] <;> split_ifs <;> omega

theorem conserved_refAssignMove {T : Ptr} {f d : Nat} (hT : T ≠ 0) {s : State} {dst other : Nat}
    {p q : Ptr} (hp : s.ref dst = some p) (hq : s.ref other = some q) (hne : other ≠ dst)
    (hc : Conserved T f d s) (hbd : s.vals.length + s.refs.length + 1 < sizeRange) :
    Conserved T f d ⟨Ref.decref p s.heap, s.vals,
      (s.refs.set other (some 0)).set dst (some q)⟩ := by
  have hle := owners_le T s
  have hposa : ownsRef T (some p) = true → 1 ≤ s.refs.countP (ownsRef T) :=
    countP_pos_of_getElem? _ _ _ _ (State.ref_eq_some.mp hp)
  have hset1 := countP_set_add (ownsRef T) s.refs other (some 0) (some q)
    (State.ref_eq_some.mp hq)
  have hd : (s.refs.set other (some 0))[dst]? = some (some p) := by
    rw [List.getElem?_set_ne hne]; exact State.ref_eq_some.mp hp
  have hset2 := countP_set_add (ownsRef T) (s.refs.set other (some 0)) dst
    (some q) (some p) hd
  rw [ownsRef_null T hT] at hset1
  unfold Conserved owners at *
  simp only [Ref.decref_refCount_owns T hT, Ref.decref_frees_owns T hT,
    Ref.decref_destroys_owns T hT]
  rw [sizeRange_eq] at *
  obtain ⟨h1, h2, h3⟩ := hc
  cases hA : ownsRef T (some p) <;> cases hB : ownsRef T (some q) <;>
    simp only [hA, hB, Bool.false_eq_true, if_false, if_true, true_and, false_and,
      add_zero, zero_add] at * <;>
    (try have hpa := hposa trivial) <;>
    refine ⟨by omega, ?_, ?_⟩ <;> simp only [h2, h3] <;> split_ifs <;> omega

theorem conserved_refDestroy {T : Ptr} {f d : Nat} (hT : T ≠ 0) {s : State} {x : Nat} {p : Ptr}
    (hp : s.ref x = some p) (hc : Conserved T f d s)
    (hbd : s.vals.length + s.refs.length + 1 < sizeRange) :
    Conserved T f d ⟨Ref.decref p s.heap, s.vals, s.refs.set x none⟩ := by
  have hle := owners_le T s
  have hposa : ownsRef T (some p) = true → 1 ≤ s.refs.countP (ownsRef T) :=
    countP_pos_of_getElem? _ _ _ _ (State.ref_eq_some.mp hp)
  have hset := countP_set_add (ownsRef T) s.refs x none (some p) (State.ref_eq_some.mp hp)
  rw [ownsRef_none] at hset
  unfold Conserved owners at *
  simp only [Ref.decref_refCount_owns T hT, Ref.decref_frees_owns T hT,
    Ref.decref_destroys_owns T hT]
  rw [sizeRange_eq] at *
  obtain ⟨h1, h2, h3⟩ := hc
  cases hA : ownsRef T (some p) <;>
    simp only [hA, Bool.false_eq_true, if_false, if_true, true_and, false_and,
      add_zero, zero_add] at * <;>
    (try have hpa := hposa trivial) <;>
    refine ⟨by omega, ?_, ?_⟩ <;> simp only [h2, h3] <;> split_ifs <;> omega

/-! ## Closed forms of the conversions -/

theorem Ref.decref_null (h : Heap) : Ref.decref 0 h = h := by
  simp [Ref.decref]

theorem RtValue.callCtorTensor_eq {h : Heap} {vals : List (Option RtValue)}
    {refs : List (Option Ptr)} {p : Ptr} :
    RtValue.callCtorTensor (refs.length, ⟨h, vals, refs ++ [some p]⟩)
      = some (vals.length, ⟨h, vals ++ [some ⟨p, Tag.Tensor⟩], refs ++ [none]⟩) := by
  have hnl : ¬ refs.length < refs.length := by omega
  have h1 : (⟨h, vals, refs ++ [some p]⟩ : State).ref refs.length = some p := by
    rw [State.ref_eq_some]; simp
  have h2 : (⟨h, vals ++ [some ⟨p, Tag.Tensor⟩],
      (refs ++ [some p]).set refs.length (some 0)⟩ : State).ref refs.length = some 0 := by
    rw [State.ref_eq_some]; simp [List.set_append, hnl]
  unfold RtValue.callCtorTensor RtValue.ctorTensor
  simp only [Ref.takePtr_eq h1, Option.bind_eq_bind, Option.some_bind, State.newVal]
  rw [refDtor_eq h2]
  simp [List.set_append, hnl, Ref.decref_null]

theorem assert_eq_some (c : Bool) : assert c = some () ↔ c = true := by
  cases c <;> simp [assert]

theorem Ref.ctorRaw_eq {p : Ptr} (s : State) (hp : p ≠ 0) :
    Ref.ctorRaw p s
      = some (s.refs.length, ⟨Ref.incref p s.heap, s.vals, s.refs ++ [some p]⟩) := by
  unfold Ref.ctorRaw
  simp [hp, assert, State.newRef]

theorem Ref.ctorRaw_null (s : State) : Ref.ctorRaw 0 s = none := by
  simp [Ref.ctorRaw]

theorem adoptAndWrap_eq (T : Ptr) (h : Heap) (hT : T ≠ 0) :
    adoptAndWrap T h = some ⟨Ref.incref T h, [some ⟨T, Tag.Tensor⟩], [none]⟩ := by
  unfold adoptAndWrap
  rw [Ref.ctorRaw_eq _ hT]
  have := @RtValue.callCtorTensor_eq (Ref.incref T h) [] [] T
  simp only [List.length_nil, List.nil_append] at this
  simp only [List.length_nil, List.nil_append, Option.some_bind, this, Option.map_some']

theorem step_valOfRefMove_eq {s : State} {r : Nat} {p : Ptr} (hp : s.ref r = some p) :
    step (Op.valOfRefMove r) s
      = some ⟨s.heap, s.vals ++ [some ⟨p, Tag.Tensor⟩],
          s.refs.set r (some 0) ++ [none]⟩ := by
  have := @RtValue.callCtorTensor_eq s.heap s.vals (s.refs.set r (some 0)) p
  simp only [List.length_set] at this
  simp only [step, refCtorMove_eq hp, Option.some_bind, this, Option.map_some']

theorem step_valOfRefCopy_eq {s : State} {r : Nat} {p : Ptr} (hp : s.ref r = some p) :
    step (Op.valOfRefCopy r) s
      = some ⟨Ref.incref p s.heap, s.vals ++ [some ⟨p, Tag.Tensor⟩], s.refs ++ [none]⟩ := by
  have := @RtValue.callCtorTensor_eq (Ref.incref p s.heap) s.vals s.refs p
  simp only [step, refCtorCopy_eq hp, Option.some_bind, this, Option.map_some']

theorem RtValue.toTensor_eq {s : State} {x : Nat} {v : RtValue} (hv : s.val x = some v)
    (ht : v.tag = Tag.Tensor) (hp : v.payload ≠ 0) :
    RtValue.toTensor x s
      = some (s.refs.length,
          ⟨Ref.incref v.payload s.heap, s.vals, s.refs ++ [some v.payload]⟩) := by
  unfold RtValue.toTensor
  simp [hv, RtValue.isTensor, ht, assert, Ref.ctorRaw_eq _ hp]

theorem RtValue.toTensor_none {s : State} {x : Nat} {v : RtValue} (hv : s.val x = some v)
    (ht : v.tag ≠ Tag.Tensor) : RtValue.toTensor x s = none := by
  unfold RtValue.toTensor
  have : ¬ Tag.Tensor = v.tag := fun h => ht h.symm
  simp [hv, RtValue.isTensor, this, assert]

theorem RtValue.toTensor_null {s : State} {x : Nat} {v : RtValue} (hv : s.val x = some v)
    (hp : v.payload = 0) : RtValue.toTensor x s = none := by
  unfold RtValue.toTensor
  cases h : assert v.isTensor <;> simp [hv, h, hp, Ref.ctorRaw_null]

theorem ownsVal_tensor (T p : Ptr) : ownsVal T (some ⟨p, Tag.Tensor⟩) = ownsRef T (some p) := by
  rw [ownsVal_some, ownsRef_some]; simp

theorem conserved_valOfRefMove {T : Ptr} {f d : Nat} (hT : T ≠ 0) {s : State} {r : Nat}
    {p : Ptr} (hp : s.ref r = some p) (hc : Conserved T f d s) :
    Conserved T f d
      ⟨s.heap, s.vals ++ [some ⟨p, Tag.Tensor⟩], s.refs.set r (some 0) ++ [none]⟩ := by
  have hset := countP_set_add (ownsRef T) s.refs r (some 0) (some p)
    (State.ref_eq_some.mp hp)
  rw [ownsRef_null T hT] at hset
  have ho : owners T
      ⟨s.heap, s.vals ++ [some ⟨p, Tag.Tensor⟩], s.refs.set r (some 0) ++ [none]⟩
      = owners T s := by
    unfold owners
    simp only [List.countP_append, List.countP_cons, List.countP_nil, ownsVal_tensor,
      ownsRef_none]
    simp only [Bool.false_eq_true, if_false] at hset ⊢
    omega
  unfold Conserved at *
  rw [ho]
  exact hc

theorem conserved_valOfRefCopy {T : Ptr} {f d : Nat} (hT : T ≠ 0) {s : State} {r : Nat}
    {p : Ptr} (hp : s.ref r = some p) (hc : Conserved T f d s)
    (hbd : s.vals.length + s.refs.length + 1 < sizeRange) :
    Conserved T f d
      ⟨Ref.incref p s.heap, s.vals ++ [some ⟨p, Tag.Tensor⟩], s.refs ++ [none]⟩ := by
  have hle := owners_le T s
  have hposa : ownsRef T (some p) = true → 1 ≤ s.refs.countP (ownsRef T) :=
    countP_pos_of_getElem? _ _ _ _ (State.ref_eq_some.mp hp)
  unfold Conserved owners at *
  simp only [Ref.incref_refCount_owns T hT, Ref.incref_frees, Ref.incref_destroys,
    List.countP_append, List.countP_cons, List.countP_nil, ownsVal_tensor, ownsRef_none]
  rw [sizeRange_eq] at *
  obtain ⟨h1, h2, h3⟩ := hc
  cases hA : ownsRef T (some p) <;>
    simp only [hA, Bool.false_eq_true, if_false, if_true, true_and, false_and,
      add_zero, zero_add] at * <;>
    (try have hpa := hposa trivial) <;>
    refine ⟨by omega, ?_, ?_⟩ <;> simp only [h2, h3] <;> split_ifs <;> omega

theorem conserved_valToTensor {T : Ptr} {f d : Nat} (hT : T ≠ 0) {s : State} {x : Nat}
    {v : RtValue} (hv : s.val x = some v) (ht : v.tag = Tag.Tensor)
    (hc : Conserved T f d s) (hbd : s.vals.length + s.refs.length + 1 < sizeRange) :
    Conserved T f d ⟨Ref.incref v.payload s.heap, s.vals, s.refs ++ [some v.payload]⟩ := by
  have hle := owners_le T s
  have hvt : v = ⟨v.payload, Tag.Tensor⟩ := by
    cases v with
    | mk p t => simp at ht; subst ht; rfl
  have hposa : ownsRef T (some v.payload) = true → 1 ≤ s.vals.countP (ownsVal T) := by
    intro h
    rw [← ownsVal_tensor, ← hvt] at h
    exact countP_pos_of_getElem? _ _ _ _ (State.val_eq_some.mp hv) h
  unfold Conserved owners at *
  simp only [Ref.incref_refCount_owns T hT, Ref.incref_frees, Ref.incref_destroys,
    List.countP_append, List.countP_cons, List.countP_nil]
  rw [sizeRange_eq] at *
  obtain ⟨h1, h2, h3⟩ := hc
  cases hA : ownsRef T (some v.payload) <;>
    simp only [hA, Bool.false_eq_true, if_false, if_true, true_and, false_and,
      add_zero, zero_add] at * <;>
    (try have hpa := hposa trivial) <;>
    refine ⟨by omega, ?_, ?_⟩ <;> simp only [h2, h3] <;> split_ifs <;> omega

theorem step_conserved {T : Ptr} {f d : Nat} (hT : T ≠ 0) {o : Op} {s s' : State}
    (hs : step o s = some s') (hc : Conserved T f d s)
    (hbd : s.vals.length + s.refs.length + 1 < sizeRange) :
    Conserved T f d s' ∧
      s'.vals.length + s'.refs.length ≤ s.vals.length + s.refs.length + 2 := by
  cases o with
  | valDefault =>
    simp only [step, RtValue.ctorDefault, State.newVal, Option.some.injEq] at hs
    subst hs
    exact ⟨conserved_valDefault hc, by
      simp only [List.length_append, List.length_set, List.length_singleton]; omega⟩
  | valCopy rhs =>
    cases hr : s.val rhs with
    | none => simp [step, RtValue.ctorCopy, hr] at hs
    | some r =>
      simp only [step, RtValue.ctorCopy_eq hr, Option.map_some', Option.some.injEq] at hs
      subst hs
      exact ⟨conserved_valCopy hT hr hc hbd, by
        simp only [List.length_append, List.length_set, List.length_singleton]; omega⟩
  | valMove rhs =>
    cases hr : s.val rhs with
    | none => simp [step, RtValue.ctorMove, hr] at hs
    | some r =>
      simp only [step, RtValue.ctorMove_eq hr, Option.map_some', Option.some.injEq] at hs
      subst hs
      exact ⟨conserved_valMove hr hc, by
        simp only [List.length_append, List.length_set, List.length_singleton]; omega⟩
  | valAssignCopy dst rhs =>
    cases ha : s.val dst with
    | none => simp [step, RtValue.assignCopy, ha] at hs
    | some a =>
      cases hb : s.val rhs with
      | none => simp [step, RtValue.assignCopy, ha, hb] at hs
      | some b =>
        simp only [step, RtValue.assignCopy_eq ha hb, Option.some.injEq] at hs
        subst hs
        exact ⟨conserved_valAssignCopy hT ha hb hc hbd, by
        simp only [List.length_append, List.length_set, List.length_singleton]; omega⟩
  | valAssignMove dst rhs =>
    cases ha : s.val dst with
    | none => simp [step, RtValue.assignMove, ha] at hs
    | some a =>
      cases hb : s.val rhs with
      | none => simp [step, RtValue.assignMove, ha, hb] at hs
      | some b =>
        simp only [step, RtValue.assignMove_eq ha hb, Option.some.injEq] at hs
        subst hs
        exact ⟨conserved_valAssignMove hT ha hb hc hbd, by
        simp only [List.length_append, List.length_set, List.length_singleton]; omega⟩
  | valDestroy x =>
    cases hv : s.val x with
    | none => simp [step, RtValue.dtor, hv] at hs
    | some v =>
      simp only [step, RtValue.dtor_eq hv, Option.some.injEq] at hs
      subst hs
      exact ⟨conserved_valDestroy hT hv hc hbd, by
        simp only [List.length_append, List.length_set, List.length_singleton]; omega⟩
  | refDefault =>
    simp only [step, Ref.ctorDefault, State.newRef, Option.some.injEq] at hs
    subst hs
    exact ⟨conserved_refDefault hT hc, by
        simp only [List.length_append, List.length_set, List.length_singleton]; omega⟩
  | refCopy other =>
    cases hp : s.ref other with
    | none => simp [step, Ref.ctorCopy, hp] at hs
    | some p =>
      simp only [step, refCtorCopy_eq hp, Option.map_some', Option.some.injEq] at hs
      subst hs
      exact ⟨conserved_refCopy hT hp hc hbd, by
        simp only [List.length_append, List.length_set, List.length_singleton]; omega⟩
  | refMove other =>
    cases hp : s.ref other with
    | none => simp [step, Ref.ctorMove, Ref.takePtr, hp] at hs
    | some p =>
      simp only [step, refCtorMove_eq hp, Option.map_some', Option.some.injEq] at hs
      subst hs
      exact ⟨conserved_refMove hT hp hc, by
        simp only [List.length_append, List.length_set, List.length_singleton]; omega⟩
  | refAssignCopy dst other =>
    cases hp : s.ref dst with
    | none => simp [step, Ref.assignCopy, hp] at hs
    | some p =>
      cases hq : s.ref other with
      | none => simp [step, Ref.assignCopy, hp, hq] at hs
      | some q =>
        simp only [step, refAssignCopy_eq hp hq, Option.some.injEq] at hs
        subst hs
        by_cases e : other = dst
        · simp only [e, if_true]
          exact ⟨hc, by omega⟩
        · simp only [e, if_false]
          exact ⟨conserved_refAssignCopy hT hp hq e hc hbd, by
        simp only [List.length_append, List.length_set, List.length_singleton]; omega⟩
  | refAssignMove dst other =>
    cases hp : s.ref dst with
    | none => simp [step, Ref.assignMove, hp] at hs
    | some p =>
      cases hq : s.ref other with
      | none => simp [step, Ref.assignMove, hp, hq] at hs
      | some q =>
        simp only [step, refAssignMove_eq hp hq, Option.some.injEq] at hs
        subst hs
        by_cases e : other = dst
        · simp only [e, if_true]
          exact ⟨hc, by omega⟩
        · simp only [e, if_false]
          exact ⟨conserved_refAssignMove hT hp hq e hc hbd, by
        simp only [List.length_append, List.length_set, List.length_singleton]; omega⟩
  | refDestroy x =>
    cases hp : s.ref x with
    | none => simp [step, Ref.dtor, hp] at hs
    | some p =>
      simp only [step, refDtor_eq hp, Option.some.injEq] at hs
      subst hs
      exact ⟨conserved_refDestroy hT hp hc hbd, by
        simp only [List.length_append, List.length_set, List.length_singleton]; omega⟩
  | valOfRefMove r =>
    cases hp : s.ref r with
    | none => simp [step, Ref.ctorMove, Ref.takePtr, hp] at hs
    | some p =>
      simp only [step_valOfRefMove_eq hp, Option.some.injEq] at hs
      subst hs
      exact ⟨conserved_valOfRefMove hT hp hc, by
        simp only [List.length_append, List.length_set, List.length_singleton]; omega⟩
  | valOfRefCopy r =>
    cases hp : s.ref r with
    | none => simp [step, Ref.ctorCopy, hp] at hs
    | some p =>
      simp only [step_valOfRefCopy_eq hp, Option.some.injEq] at hs
      subst hs
      exact ⟨conserved_valOfRefCopy hT hp hc hbd, by
        simp only [List.length_append, List.length_set, List.length_singleton]; omega⟩
  | valToTensor x =>
    cases hv : s.val x with
    | none => simp [step, RtValue.toTensor, hv] at hs
    | some v =>
      by_cases ht : v.tag = Tag.Tensor
      · by_cases hpl : v.payload = 0
        · simp [step, RtValue.toTensor_null hv hpl] at hs
        simp only [step, RtValue.toTensor_eq hv ht hpl, Option.map_some',
          Option.some.injEq] at hs
        subst hs
        exact ⟨conserved_valToTensor hT hv ht hc hbd, by
        simp only [List.length_append, List.length_set, List.length_singleton]; omega⟩
      · simp [step, RtValue.toTensor_none hv ht] at hs

theorem run_conserved {T : Ptr} {f d : Nat} (hT : T ≠ 0) (ops : List Op) {s s' : State}
    (hs : run ops s = some s') (hc : Conserved T f d s)
    (hbd : s.vals.length + s.refs.length + 2 * ops.length < sizeRange) :
    Conserved T f d s' ∧
      s'.vals.length + s'.refs.length ≤ s.vals.length + s.refs.length + 2 * ops.length := by
  induction ops generalizing s with
  | nil =>
    simp only [run, Option.some.injEq] at hs
    subst hs; exact ⟨hc, by omega⟩
  | cons o os ih =>
    simp only [run] at hs
    cases h1 : step o s with
    | none => simp [h1] at hs
    | some s1 =>
      simp only [h1, Option.some_bind] at hs
      simp only [List.length_cons] at hbd ⊢
      have h2 := step_conserved hT h1 hc (by omega)
      have h3 := ih hs h2.1 (by omega)
      exact ⟨h3.1, by omega⟩

theorem countP_set_le {α : Type} (p : α → Bool) (l : List α) (i : Nat) (x : α) :
    l.countP p ≤ (l.set i x).countP p + 1 := by
  cases h : l[i]? with
  | none =>
    have : l.length ≤ i := by
      by_contra hc
      have hlt : i < l.length := by omega
      rw [List.getElem?_eq_getElem hlt] at h
      cases h
    rw [List.set_eq_of_length_le this]; omega
  | some y =>
    have := countP_set_add p l i x y h
    split_ifs at this <;> omega

theorem step_owners_drop (T : Ptr) {o : Op} {s s' : State} (hs : step o s = some s') :
    owners T s ≤ owners T s' + 1 := by
  cases o with
  | valDefault =>
    simp only [step, RtValue.ctorDefault, State.newVal, Option.some.injEq] at hs
    subst hs
    simp only [owners, List.countP_append]; omega
  | valCopy rhs =>
    cases hr : s.val rhs with
    | none => simp [step, RtValue.ctorCopy, hr] at hs
    | some r =>
      simp only [step, RtValue.ctorCopy_eq hr, Option.map_some', Option.some.injEq] at hs
      subst hs
      simp only [owners, List.countP_append]; omega
  | valMove rhs =>
    cases hr : s.val rhs with
    | none => simp [step, RtValue.ctorMove, hr] at hs
    | some r =>
      simp only [step, RtValue.ctorMove_eq hr, Option.map_some', Option.some.injEq] at hs
      subst hs
      have := countP_set_le (ownsVal T) s.vals rhs (some ⟨0, Tag.None⟩)
      simp only [owners, List.countP_append]; omega
  | valAssignCopy dst rhs =>
    cases ha : s.val dst with
    | none => simp [step, RtValue.assignCopy, ha] at hs
    | some a =>
      cases hb : s.val rhs with
      | none => simp [step, RtValue.assignCopy, ha, hb] at hs
      | some b =>
        simp only [step, RtValue.assignCopy_eq ha hb, Option.some.injEq] at hs
        subst hs
        have := countP_set_le (ownsVal T) s.vals dst (some b)
        simp only [owners, List.countP_append]; omega
  | valAssignMove dst rhs =>
    cases ha : s.val dst with
    | none => simp [step, RtValue.assignMove, ha] at hs
    | some a =>
      cases hb : s.val rhs with
      | none => simp [step, RtValue.assignMove, ha, hb] at hs
      | some b =>
        simp only [step, RtValue.assignMove_eq ha hb, Option.some.injEq] at hs
        subst hs
        simp only [owners, List.countP_append]
        by_cases e : dst = rhs
        · subst e
          have hab : a = b := by rw [ha] at hb; exact Option.some.inj hb
          subst hab
          have hset := countP_set_add (ownsVal T) s.vals dst (some a) (some a)
            (State.val_eq_some.mp ha)
          simp only [List.set_set]
          omega
        · have e2 : ¬ rhs = dst := fun h => e h.symm
          have hset1 := countP_set_add (ownsVal T) s.vals rhs (some ⟨0, Tag.None⟩) (some b)
            (State.val_eq_some.mp hb)
          have hd : (s.vals.set rhs (some ⟨0, Tag.None⟩))[dst]? = some (some a) := by
            rw [List.getElem?_set_ne e2]; exact State.val_eq_some.mp ha
          have hset2 := countP_set_add (ownsVal T) (s.vals.set rhs (some ⟨0, Tag.None⟩)) dst
            (some b) (some a) hd
          rw [ownsVal_default] at hset1
          split_ifs at hset1 hset2 <;> omega
  | valDestroy x =>
    cases hv : s.val x with
    | none => simp [step, RtValue.dtor, hv] at hs
    | some v =>
      simp only [step, RtValue.dtor_eq hv, Option.some.injEq] at hs
      subst hs
      have := countP_set_le (ownsVal T) s.vals x none
      simp only [owners]; omega
  | refDefault =>
    simp only [step, Ref.ctorDefault, State.newRef, Option.some.injEq] at hs
    subst hs
    simp only [owners, List.countP_append]; omega
  | refCopy other =>
    cases hp : s.ref other with
    | none => simp [step, Ref.ctorCopy, hp] at hs
    | some p =>
      simp only [step, refCtorCopy_eq hp, Option.map_some', Option.some.injEq] at hs
      subst hs
      simp only [owners, List.countP_append]; omega
  | refMove other =>
    cases hp : s.ref other with
    | none => simp [step, Ref.ctorMove, Ref.takePtr, hp] at hs
    | some p =>
      simp only [step, refCtorMove_eq hp, Option.map_some', Option.some.injEq] at hs
      subst hs
      have := countP_set_le (ownsRef T) s.refs other (some 0)
      simp only [owners, List.countP_append]; omega
  | refAssignCopy dst other =>
    cases hp : s.ref dst with
    | none => simp [step, Ref.assignCopy, hp] at hs
    | some p =>
      cases hq : s.ref other with
      | none => simp [step, Ref.assignCopy, hp, hq] at hs
      | some q =>
        simp only [step, refAssignCopy_eq hp hq, Option.some.injEq] at hs
        subst hs
        by_cases e : other = dst
        · simp only [e, if_true]; omega
        · simp only [e, if_false]
          have := countP_set_le (ownsRef T) s.refs dst (some q)
          simp only [owners]; omega
  | refAssignMove dst other =>
    cases hp : s.ref dst with
    | none => simp [step, Ref.assignMove, hp] at hs
    | some p =>
      cases hq : s.ref other with
      | none => simp [step, Ref.assignMove, hp, hq] at hs
      | some q =>
        simp only [step, refAssignMove_eq hp hq, Option.some.injEq] at hs
        subst hs
        by_cases e : other = dst
        · simp only [e, if_true]; omega
        · simp only [e, if_false]
          have hset1 := countP_set_add (ownsRef T) s.refs other (some 0) (some q)
            (State.ref_eq_some.mp hq)
          have hd : (s.refs.set other (some 0))[dst]? = some (some p) := by
            rw [List.getElem?_set_ne e]; exact State.ref_eq_some.mp hp
          have hset2 := countP_set_add (ownsRef T) (s.refs.set other (some 0)) dst
            (some q) (some p) hd
          simp only [owners]
          by_cases hT : T = 0
          · subst hT
            simp only [ownsRef_some] at hset1 hset2
            split_ifs at hset1 hset2 <;> simp_all <;> omega
          · rw [ownsRef_null T hT] at hset1
            split_ifs at hset1 hset2 <;> omega
  | refDestroy x =>
    cases hp : s.ref x with
    | none => simp [step, Ref.dtor, hp] at hs
    | some p =>
      simp only [step, refDtor_eq hp, Option.some.injEq] at hs
      subst hs
      have := countP_set_le (ownsRef T) s.refs x none
      simp only [owners]; omega
  | valOfRefMove r =>
    cases hp : s.ref r with
    | none => simp [step, Ref.ctorMove, Ref.takePtr, hp] at hs
    | some p =>
      simp only [step_valOfRefMove_eq hp, Option.some.injEq] at hs
      subst hs
      have := countP_set_le (ownsRef T) s.refs r (some 0)
      simp only [owners, List.countP_append]; omega
  | valOfRefCopy r =>
    cases hp : s.ref r with
    | none => simp [step, Ref.ctorCopy, hp] at hs
    | some p =>
      simp only [step_valOfRefCopy_eq hp, Option.some.injEq] at hs
      subst hs
      simp only [owners, List.countP_append]; omega
  | valToTensor x =>
    cases hv : s.val x with
    | none => simp [step, RtValue.toTensor, hv] at hs
    | some v =>
      by_cases ht : v.tag = Tag.Tensor
      · by_cases hpl : v.payload = 0
        · simp [step, RtValue.toTensor_null hv hpl] at hs
        simp only [step, RtValue.toTensor_eq hv ht hpl, Option.map_some',
          Option.some.injEq] at hs
        subst hs
        simp only [owners, List.countP_append]; omega
      · simp [step, RtValue.toTensor_none hv ht] at hs

theorem RtValue.release_frees_le (T : Ptr) (v : RtValue) (h : Heap) :
    frees T h ≤ frees T (v.release h) := by
  unfold RtValue.release
  split
  · rw [Ref.decref_frees]; omega
  · exact Nat.le_refl _

theorem Ref.decref_frees_le (T p : Ptr) (h : Heap) :
    frees T h ≤ frees T (Ref.decref p h) := by
  rw [Ref.decref_frees]; omega

theorem step_frees_mono (T : Ptr) {o : Op} {s s' : State} (hs : step o s = some s') :
    frees T s.heap ≤ frees T s'.heap := by
  cases o with
  | valDefault =>
    simp only [step, RtValue.ctorDefault, State.newVal, Option.some.injEq] at hs
    subst hs; exact Nat.le_refl _
  | valCopy rhs =>
    cases hr : s.val rhs with
    | none => simp [step, RtValue.ctorCopy, hr] at hs
    | some r =>
      simp only [step, RtValue.ctorCopy_eq hr, Option.map_some', Option.some.injEq] at hs
      subst hs
      simp only [RtValue.retain_frees]; exact Nat.le_refl _
  | valMove rhs =>
    cases hr : s.val rhs with
    | none => simp [step, RtValue.ctorMove, hr] at hs
    | some r =>
      simp only [step, RtValue.ctorMove_eq hr, Option.map_some', Option.some.injEq] at hs
      subst hs; exact Nat.le_refl _
  | valAssignCopy dst rhs =>
    cases ha : s.val dst with
    | none => simp [step, RtValue.assignCopy, ha] at hs
    | some a =>
      cases hb : s.val rhs with
      | none => simp [step, RtValue.assignCopy, ha, hb] at hs
      | some b =>
        simp only [step, RtValue.assignCopy_eq ha hb, Option.some.injEq] at hs
        subst hs
        have := RtValue.release_frees_le T a (b.retain s.heap)
        rw [RtValue.retain_frees] at this
        exact this
  | valAssignMove dst rhs =>
    cases ha : s.val dst with
    | none => simp [step, RtValue.assignMove, ha] at hs
    | some a =>
      cases hb : s.val rhs with
      | none => simp [step, RtValue.assignMove, ha, hb] at hs
      | some b =>
        simp only [step, RtValue.assignMove_eq ha hb, Option.some.injEq] at hs
        subst hs
        by_cases e : dst = rhs
        · simp only [e, if_true]; exact Nat.le_refl _
        · simp only [e, if_false]; exact RtValue.release_frees_le T a s.heap
  | valDestroy x =>
    cases hv : s.val x with
    | none => simp [step, RtValue.dtor, hv] at hs
    | some v =>
      simp only [step, RtValue.dtor_eq hv, Option.some.injEq] at hs
      subst hs
      exact RtValue.release_frees_le T v s.heap
  | refDefault =>
    simp only [step, Ref.ctorDefault, State.newRef, Option.some.injEq] at hs
    subst hs; exact Nat.le_refl _
  | refCopy other =>
    cases hp : s.ref other with
    | none => simp [step, Ref.ctorCopy, hp] at hs
    | some p =>
      simp only [step, refCtorCopy_eq hp, Option.map_some', Option.some.injEq] at hs
      subst hs
      simp only [Ref.incref_frees]; exact Nat.le_refl _
  | refMove other =>
    cases hp : s.ref other with
    | none => simp [step, Ref.ctorMove, Ref.takePtr, hp] at hs
    | some p =>
      simp only [step, refCtorMove_eq hp, Option.map_some', Option.some.injEq] at hs
      subst hs; exact Nat.le_refl _
  | refAssignCopy dst other =>
    cases hp : s.ref dst with
    | none => simp [step, Ref.assignCopy, hp] at hs
    | some p =>
      cases hq : s.ref other with
      | none => simp [step, Ref.assignCopy, hp, hq] at hs
      | some q =>
        simp only [step, refAssignCopy_eq hp hq, Option.some.injEq] at hs
        subst hs
        by_cases e : other = dst
        · simp only [e, if_true]; exact Nat.le_refl _
        · simp only [e, if_false, Ref.incref_frees]
          exact Ref.decref_frees_le T p s.heap
  | refAssignMove dst other =>
    cases hp : s.ref dst with
    | none => simp [step, Ref.assignMove, hp] at hs
    | some p =>
      cases hq : s.ref other with
      | none => simp [step, Ref.assignMove, hp, hq] at hs
      | some q =>
        simp only [step, refAssignMove_eq hp hq, Option.some.injEq] at hs
        subst hs
        by_cases e : other = dst
        · simp only [e, if_true]; exact Nat.le_refl _
        · simp only [e, if_false]
          exact Ref.decref_frees_le T p s.heap
  | refDestroy x =>
    cases hp : s.ref x with
    | none => simp [step, Ref.dtor, hp] at hs
    | some p =>
      simp only [step, refDtor_eq hp, Option.some.injEq] at hs
      subst hs
      exact Ref.decref_frees_le T p s.heap
  | valOfRefMove r =>
    cases hp : s.ref r with
    | none => simp [step, Ref.ctorMove, Ref.takePtr, hp] at hs
    | some p =>
      simp only [step_valOfRefMove_eq hp, Option.some.injEq] at hs
      subst hs; exact Nat.le_refl _
  | valOfRefCopy r =>
    cases hp : s.ref r with
    | none => simp [step, Ref.ctorCopy, hp] at hs
    | some p =>
      simp only [step_valOfRefCopy_eq hp, Option.some.injEq] at hs
      subst hs
      simp only [Ref.incref_frees]; exact Nat.le_refl _
  | valToTensor x =>
    cases hv : s.val x with
    | none => simp [step, RtValue.toTensor, hv] at hs
    | some v =>
      by_cases ht : v.tag = Tag.Tensor
      · by_cases hpl : v.payload = 0
        · simp [step, RtValue.toTensor_null hv hpl] at hs
        simp only [step, RtValue.toTensor_eq hv ht hpl, Option.map_some',
          Option.some.injEq] at hs
        subst hs
        simp only [Ref.incref_frees]; exact Nat.le_refl _
      · simp [step, RtValue.toTensor_none hv ht] at hs

/-! ## Reading the store, and heap effects in terms of `holds` -/

theorem State.val_join (s : State) (i : Nat) : s.val i = (s.vals[i]?).join := by
  unfold State.val
  split
  · next w hw => simp [hw]
  · next hn =>
    cases h : s.vals[i]? with
    | none => rfl
    | some o =>
      cases o with
      | none => rfl
      | some v => exact absurd h (hn v)

theorem RtValue.holds_iff (v : RtValue) (p : Ptr) :
    v.holds p = true ↔ v.tag = Tag.Tensor ∧ v.payload = p ∧ p ≠ 0 := by
  simp [RtValue.holds]

theorem RtValue.retain_refCount_holds (v : RtValue) (h : Heap) (T : Ptr) :
    (v.retain h).refCount T
      = if v.holds T then (h.refCount T + 1) % sizeRange else h.refCount T := by
  unfold RtValue.retain RtValue.holds
  by_cases h1 : v.tag = Tag.Tensor
  · simp only [h1, if_true, Ref.incref_refCount, true_and, decide_eq_true_eq]
  · simp [h1]

theorem RtValue.release_refCount_holds (v : RtValue) (h : Heap) (T : Ptr) :
    (v.release h).refCount T
      = if v.holds T then (h.refCount T + (sizeRange - 1)) % sizeRange
        else h.refCount T := by
  unfold RtValue.release RtValue.holds
  by_cases h1 : v.tag = Tag.Tensor
  · simp only [h1, if_true, Ref.decref_refCount, true_and, decide_eq_true_eq]
  · simp [h1]

theorem RtValue.release_frees_holds (v : RtValue) (h : Heap) (T : Ptr) :
    frees T (v.release h)
      = frees T h + (if v.holds T = true ∧ h.refCount T = 1 then 1 else 0) := by
  unfold RtValue.release RtValue.holds
  by_cases h1 : v.tag = Tag.Tensor
  · simp only [h1, if_true, Ref.decref_frees, true_and, decide_eq_true_eq, and_assoc]
  · simp [h1]

theorem RtValue.release_destroys_holds (v : RtValue) (h : Heap) (T : Ptr) :
    destroys T (v.release h)
      = destroys T h + (if v.holds T = true ∧ h.refCount T = 1 then 1 else 0) := by
  unfold RtValue.release RtValue.holds
  by_cases h1 : v.tag = Tag.Tensor
  · simp only [h1, if_true, Ref.decref_destroys, true_and, decide_eq_true_eq, and_assoc]
  · simp [h1]

theorem RtValue.retain_of_not_tensor {v : RtValue} (h : Heap)
    (hv : v.tag ≠ Tag.Tensor ∨ v.payload = 0) : v.retain h = h := by
  unfold RtValue.retain
  rcases hv with hv | hv
  · simp [hv]
  · simp [hv, Ref.incref]

theorem RtValue.release_of_not_tensor {v : RtValue} (h : Heap)
    (hv : v.tag ≠ Tag.Tensor ∨ v.payload = 0) : v.release h = h := by
  unfold RtValue.release
  rcases hv with hv | hv
  · simp [hv]
  · simp [hv, Ref.decref]

theorem RtValue.retain_log {v : RtValue} (h : Heap) (ht : v.tag = Tag.Tensor)
    (hp : v.payload ≠ 0) : (v.retain h).log = h.log ++ [Event.incref v.payload] := by
  simp [RtValue.retain, ht, Ref.incref, hp]

theorem RtValue.release_log {v : RtValue} (h : Heap) (ht : v.tag = Tag.Tensor)
    (hp : v.payload ≠ 0) :
    (v.release h).log = h.log ++ Event.decref v.payload ::
      (if h.refCount v.payload = 1 then [Event.destroy v.payload, Event.free v.payload]
       else []) := by
  by_cases h1 : h.refCount v.payload = 1 <;> simp [RtValue.release, ht, Ref.decref, hp, h1]

theorem State.val_mk_set_append (h : Heap) (l : List (Option RtValue))
    (r : List (Option Ptr)) (i j : Nat) (o : Option RtValue) (t : List (Option RtValue))
    (hj : j < l.length) :
    (⟨h, l.set i o ++ t, r⟩ : State).val j
      = if i = j then o else (⟨h, l, r⟩ : State).val j := by
  have hj' : j < (l.set i o).length := by rw [List.length_set]; exact hj
  simp only [State.val_join, List.getElem?_append_left hj', List.getElem?_set]
  by_cases e : i = j
  · subst e; simp [hj]
  · simp [e]

theorem State.val_mk_append_last (h : Heap) (l : List (Option RtValue))
    (r : List (Option Ptr)) (o : Option RtValue) (n : Nat) (hn : n = l.length) :
    (⟨h, l ++ [o], r⟩ : State).val n = o := by
  subst hn
  simp [State.val_join]

theorem State.val_mk_heap (h h' : Heap) (l : List (Option RtValue))
    (r : List (Option Ptr)) (j : Nat) :
    (⟨h, l, r⟩ : State).val j = (⟨h', l, r⟩ : State).val j := rfl

/-! ## Claims -/

/-- C1, refcount conservation: a tensor whose count is 0 is adopted by a handle that is
wrapped in an `RtValue`; after every finite sequence of `RtValue` and `Ref` copy
constructions, move constructions, copy assignments, move assignments and destructions
(and of default constructions and conversions between the two) that the program can
run, the tensor's `refCount` is the number of live owners: Tensor-tagged `RtValue`s
with that payload plus `Ref`s pointing at it.  The sequence is short enough for the
number of objects to fit `size_t`. -/
theorem refcount_conservation (T : Ptr) (h0 : Heap) (ops : List Op) (s0 s : State)
    (hT : T ≠ 0) (hzero : h0.refCount T = 0)
    (hinit : adoptAndWrap T h0 = some s0)
    (hlen : 2 * ops.length + 2 < sizeRange)
    (hrun : run ops s0 = some s) :
    s.heap.refCount T = owners T s := by
  rw [adoptAndWrap_eq T h0 hT] at hinit
  simp only [Option.some.injEq] at hinit
  subst hinit
  have hc : Conserved T (frees T h0) (destroys T h0)
      ⟨Ref.incref T h0, [some ⟨T, Tag.Tensor⟩], [none]⟩ := by
    unfold Conserved owners
    simp only [Ref.incref_refCount_owns T hT, Ref.incref_frees, Ref.incref_destroys, hzero,
      ownsRef_some, ownsVal_tensor, ownsRef_none, List.countP_cons, List.countP_nil,
      sizeRange_eq]
    simp
  have hb : (⟨Ref.incref T h0, [some ⟨T, Tag.Tensor⟩], [none]⟩ : State).vals.length
      + (⟨Ref.incref T h0, [some ⟨T, Tag.Tensor⟩], [none]⟩ : State).refs.length
      + 2 * ops.length < sizeRange := by
    simp only [List.length_singleton]; omega
  exact (run_conserved hT ops hrun hc hb).1.1

/-- C1 at the example program: it runs, and ends with count 2 and the two owners
`v3` and `r1`. -/
theorem refcount_conservation_witness :
    adoptAndWrap 1 demoHeap = some demoStart ∧ run demoOps demoStart = some demoEnd ∧
      demoEnd.heap.refCount 1 = owners 1 demoEnd ∧ owners 1 demoEnd = 2 :=
  ⟨rfl, rfl,
    refcount_conservation 1 demoHeap demoOps demoStart demoEnd (by decide) rfl rfl
      (by decide) rfl,
    by decide⟩

/-- C2, exactly-once free: after every sequence `ops` of operations on the owners of a
fresh tensor, the tensor has been released exactly once if no owner is left and not at
all while one is live (so never a second time), and its destructor ran as often as it
was released; a further operation `o` releases it exactly when `o` drops the last live
owner, and the count then goes from one to zero. -/
theorem freed_exactly_once (T : Ptr) (h0 : Heap) (ops : List Op) (o : Op)
    (s0 s s' : State) (hT : T ≠ 0) (hzero : h0.refCount T = 0)
    (hfree : frees T h0 = 0) (hdestroy : destroys T h0 = 0)
    (hinit : adoptAndWrap T h0 = some s0)
    (hlen : 2 * ops.length + 4 < sizeRange)
    (hrun : run ops s0 = some s) (hstep : step o s = some s') :
    frees T s.heap = (if owners T s = 0 then 1 else 0) ∧
    destroys T s.heap = frees T s.heap ∧
    frees T s'.heap
      = frees T s.heap + (if 0 < owners T s ∧ owners T s' = 0 then 1 else 0) ∧
    (0 < owners T s → owners T s' = 0 →
      s.heap.refCount T = 1 ∧ s'.heap.refCount T = 0) := by
  rw [adoptAndWrap_eq T h0 hT] at hinit
  simp only [Option.some.injEq] at hinit
  subst hinit
  have hc : Conserved T 0 0 ⟨Ref.incref T h0, [some ⟨T, Tag.Tensor⟩], [none]⟩ := by
    unfold Conserved owners
    simp only [Ref.incref_refCount_owns T hT, Ref.incref_frees, Ref.incref_destroys, hzero,
      ownsRef_some, ownsVal_tensor, ownsRef_none, List.countP_cons, List.countP_nil,
      sizeRange_eq, hfree, hdestroy]
    simp
  have hb : (⟨Ref.incref T h0, [some ⟨T, Tag.Tensor⟩], [none]⟩ : State).vals.length
      + (⟨Ref.incref T h0, [some ⟨T, Tag.Tensor⟩], [none]⟩ : State).refs.length
      + 2 * ops.length < sizeRange := by
    simp only [List.length_singleton]; omega
  obtain ⟨⟨c1, c2, c3⟩, hl⟩ := run_conserved hT ops hrun hc hb
  simp only [List.length_singleton] at hl
  obtain ⟨⟨d1, d2, d3⟩, _⟩ := step_conserved hT hstep ⟨c1, c2, c3⟩ (by omega)
  have hdrop := step_owners_drop T hstep
  have hmono := step_frees_mono T hstep
  rw [c1, c2, c3, d1, d2]
  rw [c2, d2] at hmono
  refine ⟨by omega, by omega, ?_, ?_⟩
  · split_ifs at hmono ⊢ <;> omega
  · intro h1 h2; omega

/-- C2 at the example program followed by the destruction of `v3`: `r1` is then the
only owner, nothing has been released, and destroying `r1` takes the count from one to
zero and releases the tensor, once. -/
theorem freed_exactly_once_witness :
    run (demoOps ++ [Op.valDestroy 3]) demoStart = some demoLast ∧
      step (Op.refDestroy 1) demoLast = some demoGone ∧
      owners 1 demoLast = 1 ∧ owners 1 demoGone = 0 ∧
      frees 1 demoLast.heap = 0 ∧ frees 1 demoGone.heap = 1 ∧
      destroys 1 demoGone.heap = 1 ∧
      demoLast.heap.refCount 1 = 1 ∧ demoGone.heap.refCount 1 = 0 :=
  have h := freed_exactly_once 1 demoHeap (demoOps ++ [Op.valDestroy 3]) (Op.refDestroy 1)
    demoStart demoLast demoGone (by decide) rfl rfl rfl rfl (by decide) rfl rfl
  ⟨rfl, rfl, by decide, by decide, h.1.trans (by decide), h.2.2.1.trans (by decide),
    by decide, (h.2.2.2 (by decide) (by decide)).1, (h.2.2.2 (by decide) (by decide)).2⟩

/-- C3, copy construction: copying the live `RtValue` `v` in slot `rhs` succeeds; the
new object has `v`'s tag and payload, `v` and every other object are unchanged; when
`v` is Tensor-tagged (payload not null) the referenced tensor's count goes up by exactly
one (modulo `2 ^ 64`, so by one whenever the result fits `size_t`), that increment is
the only effect and no other count changes; when `v` is None, Bool, Int or Double
the heap is unchanged: no count changes. -/
theorem copy_construction (s : State) (rhs : Nat) (v : RtValue) (hv : s.val rhs = some v) :
    ∃ s', RtValue.ctorCopy rhs s = some (s.vals.length, s') ∧
      s'.val s.vals.length = some v ∧ s'.val rhs = some v ∧
      (∀ j, j ≠ s.vals.length → s'.val j = s.val j) ∧ s'.refs = s.refs ∧
      (v.tag = Tag.Tensor → v.payload ≠ 0 →
        s'.heap.refCount v.payload = (s.heap.refCount v.payload + 1) % sizeRange ∧
        (s.heap.refCount v.payload + 1 < sizeRange →
          s'.heap.refCount v.payload = s.heap.refCount v.payload + 1) ∧
        (∀ q, q ≠ v.payload → s'.heap.refCount q = s.heap.refCount q) ∧
        s'.heap.log = s.heap.log ++ [Event.incref v.payload]) ∧
      (v.tag ≠ Tag.Tensor → s'.heap = s.heap) := by
  have hl := State.val_lt hv
  have hne : rhs ≠ s.vals.length := by omega
  refine ⟨_, RtValue.ctorCopy_eq hv, ?_, ?_, ?_, rfl, ?_, ?_⟩
  · simp [State.val_join]
  · rw [State.val_join] at hv ⊢
    simp only [List.getElem?_append_left hl]
    exact hv
  · intro j hj
    simp only [State.val_join]
    by_cases hjl : j < s.vals.length
    · simp only [List.getElem?_append_left hjl]
    · have h1 : s.vals.length ≤ j := by omega
      have h2 : s.vals[j]? = none := List.getElem?_eq_none h1
      have h3 : ([some v] : List (Option RtValue))[j - s.vals.length]? = none := by
        apply List.getElem?_eq_none; simp; omega
      rw [List.getElem?_append_right h1, h2, h3]
  · intro ht hp
    have hh : v.holds v.payload = true := (RtValue.holds_iff _ _).mpr ⟨ht, rfl, hp⟩
    refine ⟨?_, ?_, ?_, RtValue.retain_log _ ht hp⟩
    · simp only [RtValue.retain_refCount_holds, hh, if_true]
    · intro hfit
      simp only [RtValue.retain_refCount_holds, hh, if_true]
      exact Nat.mod_eq_of_lt hfit
    · intro q hq
      have hq' : v.holds q = false := by
        simp only [RtValue.holds, decide_eq_false_iff_not]
        intro hc; exact hq hc.2.1.symm
      simp only [RtValue.retain_refCount_holds, hq', Bool.false_eq_true, if_false]
  · intro ht
    exact RtValue.retain_of_not_tensor _ (Or.inl ht)

/-- C3 on the example start state: copying `v0`, which holds the tensor at 1 with
count 1, gives a second Tensor-tagged value with payload 1 and count 2. -/
theorem copy_construction_witness :
    demoStart.val 0 = some ⟨1, Tag.Tensor⟩ ∧
      ∃ s', RtValue.ctorCopy 0 demoStart = some (1, s') ∧
        s'.val 1 = some ⟨1, Tag.Tensor⟩ ∧ s'.val 0 = some ⟨1, Tag.Tensor⟩ ∧
        s'.heap.refCount 1 = 2 :=
  ⟨rfl, (copy_construction demoStart 0 ⟨1, Tag.Tensor⟩ rfl).imp fun _ h =>
    ⟨h.1, h.2.1, h.2.2.1, (h.2.2.2.2.2.1 rfl (by decide)).2.1 (by decide)⟩⟩

/-- C4, move construction: move-constructing from the live `RtValue` `v` in slot `rhs`
succeeds; the new object has `v`'s former tag and payload, the source is left
default-constructed (tag None), every other object and the whole heap are unchanged (no
count changes, also when `v` was Tensor-tagged), and destroying the moved-from source
afterwards succeeds and leaves the heap unchanged too. -/
theorem move_construction (s : State) (rhs : Nat) (v : RtValue) (hv : s.val rhs = some v) :
    ∃ s', RtValue.ctorMove rhs s = some (s.vals.length, s') ∧
      s'.val s.vals.length = some v ∧ s'.val rhs = some ⟨0, Tag.None⟩ ∧
      (∀ j, j ≠ s.vals.length → j ≠ rhs → s'.val j = s.val j) ∧ s'.refs = s.refs ∧
      s'.heap = s.heap ∧
      ∃ s'', RtValue.dtor rhs s' = some s'' ∧ s''.heap = s'.heap ∧ s''.val rhs = none := by
  have hl := State.val_lt hv
  have hne : rhs ≠ s.vals.length := by omega
  have hls : rhs < (s.vals.set rhs (some ⟨0, Tag.None⟩)).length := by
    rw [List.length_set]; exact hl
  have hrhs : (⟨s.heap, s.vals.set rhs (some ⟨0, Tag.None⟩) ++ [some v], s.refs⟩
      : State).val rhs = some ⟨0, Tag.None⟩ := by
    rw [State.val_join]
    simp only [List.getElem?_append_left hls, List.getElem?_set_self hl, Option.join]
    rfl
  refine ⟨_, RtValue.ctorMove_eq hv, ?_, hrhs, ?_, rfl, rfl, ?_⟩
  · rw [State.val_join]
    have : (s.vals.set rhs (some ⟨0, Tag.None⟩)).length ≤ s.vals.length := by simp
    rw [List.getElem?_append_right this]
    simp
  · intro j hj hjr
    simp only [State.val_join]
    by_cases hjl : j < s.vals.length
    · have hjl' : j < (s.vals.set rhs (some ⟨0, Tag.None⟩)).length := by
        rw [List.length_set]; exact hjl
      rw [List.getElem?_append_left hjl', List.getElem?_set_ne (Ne.symm hjr)]
    · have h1 : (s.vals.set rhs (some ⟨0, Tag.None⟩)).length ≤ j := by
        rw [List.length_set]; omega
      have h2 : s.vals[j]? = none := List.getElem?_eq_none (by omega)
      have h3 : ([some v] : List (Option RtValue))[j
          - (s.vals.set rhs (some ⟨0, Tag.None⟩)).length]? = none := by
        apply List.getElem?_eq_none; simp; omega
      rw [List.getElem?_append_right h1, h2, h3]
  · refine ⟨_, RtValue.dtor_eq hrhs, ?_, ?_⟩
    · exact RtValue.release_of_not_tensor (v := ⟨0, Tag.None⟩) _ (Or.inl (by decide))
    · rw [State.val_join]
      have hls2 : rhs < (s.vals.set rhs (some ⟨0, Tag.None⟩) ++ [some v]).length := by
        simp; omega
      simp only [List.getElem?_set_self hls2]
      rfl

/-- C4 on the example start state: moving out of `v0`, the only owner of the tensor at
1, leaves the count at 1, `v0` None-tagged and the new object Tensor-tagged. -/
theorem move_construction_witness :
    demoStart.val 0 = some ⟨1, Tag.Tensor⟩ ∧
      ∃ s', RtValue.ctorMove 0 demoStart = some (1, s') ∧
        s'.val 1 = some ⟨1, Tag.Tensor⟩ ∧ s'.val 0 = some ⟨0, Tag.None⟩ ∧
        s'.heap.refCount 1 = 1 :=
  ⟨rfl, (move_construction demoStart 0 ⟨1, Tag.Tensor⟩ rfl).imp fun _ h =>
    ⟨h.1, h.2.1, h.2.2.1, (congrArg (fun k => k.refCount 1) h.2.2.2.2.2.1).trans rfl⟩⟩

/-- C5, destruction: destroying the live `RtValue` `v` in slot `x` succeeds and ends
that object's lifetime only.  When `v` is Tensor-tagged (payload not null) and the
referenced tensor's count is `c`, the count becomes `c - 1` modulo `2 ^ 64` (so `c - 1`
for every count `1 ≤ c < 2 ^ 64`), no other count changes, and the tensor is destroyed
and released, once, exactly when `c` was one; nothing else is released.  When `v` is
None, Bool, Int or Double the heap is unchanged: no count changes, nothing is freed. -/
theorem destruction (s : State) (x : Nat) (v : RtValue) (hv : s.val x = some v) :
    ∃ s', RtValue.dtor x s = some s' ∧ s'.val x = none ∧
      (∀ j, j ≠ x → s'.val j = s.val j) ∧ s'.refs = s.refs ∧
      (v.tag = Tag.Tensor → v.payload ≠ 0 →
        s'.heap.refCount v.payload
          = (s.heap.refCount v.payload + (sizeRange - 1)) % sizeRange ∧
        (1 ≤ s.heap.refCount v.payload → s.heap.refCount v.payload < sizeRange →
          s'.heap.refCount v.payload = s.heap.refCount v.payload - 1) ∧
        (∀ q, q ≠ v.payload → s'.heap.refCount q = s.heap.refCount q) ∧
        frees v.payload s'.heap
          = frees v.payload s.heap + (if s.heap.refCount v.payload = 1 then 1 else 0) ∧
        destroys v.payload s'.heap
          = destroys v.payload s.heap + (if s.heap.refCount v.payload = 1 then 1 else 0) ∧
        (∀ q, q ≠ v.payload → frees q s'.heap = frees q s.heap) ∧
        s'.heap.log = s.heap.log ++ Event.decref v.payload ::
          (if s.heap.refCount v.payload = 1
            then [Event.destroy v.payload, Event.free v.payload] else [])) ∧
      (v.tag ≠ Tag.Tensor → s'.heap = s.heap) := by
  have hl := State.val_lt hv
  refine ⟨_, RtValue.dtor_eq hv, ?_, ?_, rfl, ?_, ?_⟩
  · rw [State.val_join]
    simp only [List.getElem?_set_self hl]
    rfl
  · intro j hj
    simp only [State.val_join, List.getElem?_set_ne (Ne.symm hj)]
  · intro ht hp
    have hh : v.holds v.payload = true := (RtValue.holds_iff _ _).mpr ⟨ht, rfl, hp⟩
    have hq' : ∀ q, q ≠ v.payload → v.holds q = false := by
      intro q hq
      simp only [RtValue.holds, decide_eq_false_iff_not]
      intro hc; exact hq hc.2.1.symm
    refine ⟨?_, ?_, ?_, ?_, ?_, ?_, RtValue.release_log _ ht hp⟩
    · simp only [RtValue.release_refCount_holds, hh, if_true]
    · intro h1 h2
      simp only [RtValue.release_refCount_holds, hh, if_true]
      rw [sizeRange_eq] at *
      omega
    · intro q hq
      simp only [RtValue.release_refCount_holds, hq' q hq, Bool.false_eq_true, if_false]
    · simp only [RtValue.release_frees_holds, hh, true_and]
    · simp only [RtValue.release_destroys_holds, hh, true_and]
    · intro q hq
      simp only [RtValue.release_frees_holds, hq' q hq, Bool.false_eq_true, false_and,
        if_false, add_zero]
  · intro ht
    exact RtValue.release_of_not_tensor _ (Or.inl ht)

/-- C5 on the example start state: destroying `v0`, the only owner of the tensor at 1,
takes the count from 1 to 0 and releases the tensor. -/
theorem destruction_witness :
    demoStart.val 0 = some ⟨1, Tag.Tensor⟩ ∧
      ∃ s', RtValue.dtor 0 demoStart = some s' ∧ s'.val 0 = none ∧
        s'.heap.refCount 1 = 0 ∧ frees 1 s'.heap = 1 :=
  ⟨rfl, (destruction demoStart 0 ⟨1, Tag.Tensor⟩ rfl).imp fun _ h =>
    ⟨h.1, h.2.1, (h.2.2.2.2.1 rfl (by decide)).2.1 (by decide) (by decide),
      (h.2.2.2.2.1 rfl (by decide)).2.2.2.1⟩⟩

/-- C6, self-assignment: for every live `RtValue` `v` in slot `x`, `x = std::move(x)`
succeeds, leaves `v`'s tag and payload and the whole heap unchanged; `x = x` succeeds
and leaves `v`'s tag and payload unchanged, and when the count of the tensor `v`
references is a `size_t` value of at least one (as it is for an owner) every count is
unchanged and nothing is destroyed or released, also when that count is one.  For every
live `Ref` `r`, copy- and move-assigning `r` to itself leave the whole state
unchanged. -/
theorem self_assignment (s : State) :
    (∀ x v, s.val x = some v →
      (∃ s', RtValue.assignMove x x s = some s' ∧ s'.val x = some v ∧
        (∀ j, j < s.vals.length → s'.val j = s.val j) ∧ s'.refs = s.refs ∧
        s'.heap = s.heap) ∧
      (∃ s', RtValue.assignCopy x x s = some s' ∧ s'.val x = some v ∧
        (∀ j, j < s.vals.length → s'.val j = s.val j) ∧ s'.refs = s.refs ∧
        ((v.holds v.payload = true →
            1 ≤ s.heap.refCount v.payload ∧ s.heap.refCount v.payload < sizeRange) →
          s'.heap.refCount = s.heap.refCount ∧
          ∀ q, frees q s'.heap = frees q s.heap ∧
            destroys q s'.heap = destroys q s.heap))) ∧
    (∀ r p, s.ref r = some p →
      Ref.assignCopy r r s = some s ∧ Ref.assignMove r r s = some s) := by
  refine ⟨?_, ?_⟩
  · intro x v hv
    have hl := State.val_lt hv
    have hsame : ∀ j, j < s.vals.length →
        (if x = j then some v else (⟨s.heap, s.vals, s.refs⟩ : State).val j) = s.val j := by
      intro j _
      by_cases e : x = j
      · subst e; simp [hv]
      · simp [e]
    refine ⟨⟨_, RtValue.assignMove_eq hv hv, ?_, ?_, rfl, ?_⟩,
      ⟨_, RtValue.assignCopy_eq hv hv, ?_, ?_, rfl, ?_⟩⟩
    · rw [List.set_set, State.val_mk_set_append _ _ _ _ _ _ _ hl]; simp
    · intro j hj
      rw [List.set_set, State.val_mk_set_append _ _ _ _ _ _ _ hj]
      exact hsame j hj
    · simp
    · rw [State.val_mk_set_append _ _ _ _ _ _ _ hl]; simp
    · intro j hj
      rw [State.val_mk_set_append _ _ _ _ _ _ _ hj]
      exact hsame j hj
    · intro hown
      refine ⟨?_, ?_⟩
      · funext q
        simp only [RtValue.release_refCount_holds, RtValue.retain_refCount_holds]
        by_cases hq : v.holds q = true
        · have hqp : v.payload = q := ((RtValue.holds_iff _ _).mp hq).2.1
          subst hqp
          have := hown hq
          simp only [hq, if_true]
          rw [sizeRange_eq] at *
          omega
        · simp [hq]
      · intro q
        simp only [RtValue.release_frees_holds, RtValue.release_destroys_holds,
          RtValue.retain_frees, RtValue.retain_destroys, RtValue.retain_refCount_holds]
        by_cases hq : v.holds q = true
        · have hqp : v.payload = q := ((RtValue.holds_iff _ _).mp hq).2.1
          subst hqp
          have := hown hq
          have hne : ¬ (s.heap.refCount v.payload + 1) % sizeRange = 1 := by
            rw [sizeRange_eq] at *
            omega
          simp [hq, hne]
        · simp [hq]
  · intro r p hp
    exact ⟨by rw [refAssignCopy_eq hp hp]; simp, by rw [refAssignMove_eq hp hp]; simp⟩

/-- C6 on the example start state, where `v0` is the only owner of the tensor at 1:
`v0 = v0` leaves `v0` Tensor-tagged with payload 1, the count at 1, and releases
nothing. -/
theorem self_assignment_witness :
    demoStart.val 0 = some ⟨1, Tag.Tensor⟩ ∧ demoStart.heap.refCount 1 = 1 ∧
      ∃ s', RtValue.assignCopy 0 0 demoStart = some s' ∧
        s'.val 0 = some ⟨1, Tag.Tensor⟩ ∧ s'.heap.refCount 1 = 1 ∧ frees 1 s'.heap = 0 :=
  ⟨rfl, rfl, ((self_assignment demoStart).1 0 ⟨1, Tag.Tensor⟩ rfl).2.imp fun _ h =>
    ⟨h.1, h.2.1,
      (congrFun (h.2.2.2.2 (fun _ => ⟨by decide, by decide⟩)).1 1).trans rfl,
      ((h.2.2.2.2 (fun _ => ⟨by decide, by decide⟩)).2 1).1.trans (by decide)⟩⟩

/-- C7, copy assignment: for live `RtValue`s `a` in slot `dst` and `b` in slot `rhs`,
`dst = rhs` succeeds; afterwards the destination has `b`'s tag and payload, `b` and
every other object are unchanged; a tensor that `a` held and `b` does not has lost
exactly one reference (count `c - 1` for a count `1 ≤ c < 2 ^ 64`) and is destroyed and
released exactly when that was its last; a tensor that `b` holds and `a` did not has
gained exactly one reference (when the result fits `size_t`); a tensor that both held
keeps its count and is not released; nothing else changes or is released. -/
theorem copy_assignment (s : State) (dst rhs : Nat) (a b : RtValue)
    (ha : s.val dst = some a) (hb : s.val rhs = some b) :
    ∃ s', RtValue.assignCopy dst rhs s = some s' ∧
      s'.val dst = some b ∧ s'.val rhs = some b ∧
      (∀ j, j < s.vals.length → j ≠ dst → s'.val j = s.val j) ∧ s'.refs = s.refs ∧
      (∀ p, a.holds p = true → b.holds p = false →
        1 ≤ s.heap.refCount p → s.heap.refCount p < sizeRange →
        s'.heap.refCount p = s.heap.refCount p - 1 ∧
        frees p s'.heap = frees p s.heap + (if s.heap.refCount p = 1 then 1 else 0) ∧
        destroys p s'.heap
          = destroys p s.heap + (if s.heap.refCount p = 1 then 1 else 0)) ∧
      (∀ q, b.holds q = true → a.holds q = false → s.heap.refCount q + 1 < sizeRange →
        s'.heap.refCount q = s.heap.refCount q + 1 ∧
        frees q s'.heap = frees q s.heap ∧ destroys q s'.heap = destroys q s.heap) ∧
      (∀ p, a.holds p = true → b.holds p = true →
        1 ≤ s.heap.refCount p → s.heap.refCount p < sizeRange →
        s'.heap.refCount p = s.heap.refCount p ∧
        frees p s'.heap = frees p s.heap ∧ destroys p s'.heap = destroys p s.heap) ∧
      (∀ t, a.holds t = false → b.holds t = false →
        s'.heap.refCount t = s.heap.refCount t ∧
        frees t s'.heap = frees t s.heap ∧ destroys t s'.heap = destroys t s.heap) := by
  have hla := State.val_lt ha
  have hlb := State.val_lt hb
  refine ⟨_, RtValue.assignCopy_eq ha hb, ?_, ?_, ?_, rfl, ?_, ?_, ?_, ?_⟩
  · rw [State.val_mk_set_append _ _ _ _ _ _ _ hla]; simp
  · rw [State.val_mk_set_append _ _ _ _ _ _ _ hlb]
    by_cases e : dst = rhs
    · simp [e]
    · simp only [e, if_false]; exact hb
  · intro j hj hjd
    rw [State.val_mk_set_append _ _ _ _ _ _ _ hj]
    simp only [Ne.symm hjd, if_false]
    rfl
  · intro p hap hbp h1 h2
    refine ⟨?_, ?_, ?_⟩ <;>
      simp only [RtValue.release_refCount_holds, RtValue.release_frees_holds,
        RtValue.release_destroys_holds, RtValue.retain_refCount_holds, RtValue.retain_frees,
        RtValue.retain_destroys, hap, hbp, Bool.false_eq_true, if_false, if_true, true_and]
    rw [sizeRange_eq] at *
    omega
  · intro q hbq haq h1
    refine ⟨?_, ?_, ?_⟩ <;>
      simp only [RtValue.release_refCount_holds, RtValue.release_frees_holds,
        RtValue.release_destroys_holds, RtValue.retain_refCount_holds, RtValue.retain_frees,
        RtValue.retain_destroys, haq, hbq, Bool.false_eq_true, if_false, if_true, false_and,
        add_zero]
    exact Nat.mod_eq_of_lt h1
  · intro p hap hbp h1 h2
    have hne : ¬ (s.heap.refCount p + 1) % sizeRange = 1 := by
      rw [sizeRange_eq] at *; omega
    refine ⟨?_, ?_, ?_⟩ <;>
      simp only [RtValue.release_refCount_holds, RtValue.release_frees_holds,
        RtValue.release_destroys_holds, RtValue.retain_refCount_holds, RtValue.retain_frees,
        RtValue.retain_destroys, hap, hbp, if_true, true_and, hne, if_false, add_zero]
    rw [sizeRange_eq] at *
    omega
  · intro t hat hbt
    refine ⟨?_, ?_, ?_⟩ <;>
      simp only [RtValue.release_refCount_holds, RtValue.release_frees_holds,
        RtValue.release_destroys_holds, RtValue.retain_refCount_holds, RtValue.retain_frees,
        RtValue.retain_destroys, hat, hbt, Bool.false_eq_true, if_false, false_and, add_zero]

/-- C7 on `demoTwo`: after `v0 = v1` both values hold the tensor at 2, whose count went
from 1 to 2; the tensor at 1 lost its last reference, count 0, and was released. -/
theorem copy_assignment_witness :
    demoTwo.val 0 = some ⟨1, Tag.Tensor⟩ ∧ demoTwo.val 1 = some ⟨2, Tag.Tensor⟩ ∧
      ∃ s', RtValue.assignCopy 0 1 demoTwo = some s' ∧
        s'.val 0 = some ⟨2, Tag.Tensor⟩ ∧ s'.val 1 = some ⟨2, Tag.Tensor⟩ ∧
        s'.heap.refCount 1 = 0 ∧ frees 1 s'.heap = 1 ∧ s'.heap.refCount 2 = 2 :=
  ⟨rfl, rfl, (copy_assignment demoTwo 0 1 ⟨1, Tag.Tensor⟩ ⟨2, Tag.Tensor⟩ rfl rfl).imp
    fun _ h =>
      ⟨h.1, h.2.1, h.2.2.1,
        (h.2.2.2.2.2.1 1 (by decide) (by decide) (by decide) (by decide)).1,
        (h.2.2.2.2.2.1 1 (by decide) (by decide) (by decide) (by decide)).2.1,
        (h.2.2.2.2.2.2.1 2 (by decide) (by decide) (by decide)).1⟩⟩

/-- C8 as stated fails on `demoShared`, where `v0` and `v1` hold the same tensor with
count 2: after `v0 = std::move(v1)` the count of the tensor `v1` held is 1, not 2. -/
theorem move_assignment_counterexample : ¬ MoveAssignAsStated demoShared 0 1 := by
  intro h
  have h1 := (h ⟨1, Tag.Tensor⟩ ⟨1, Tag.Tensor⟩ _ rfl rfl
    (@RtValue.assignMove_eq demoShared 0 1 _ _ rfl rfl)).2.2.1 1
    (by decide)
  revert h1
  decide

/-- C8 as amended, move assignment: for live `RtValue`s `a` in slot `dst` and `b` in
another slot `rhs`, `dst = std::move(rhs)` succeeds; afterwards the destination has
`b`'s former tag and payload, the source is default-constructed (None-tagged), every
other object is unchanged; a tensor that `a` held has lost exactly one reference (count
`c - 1` for a count `1 ≤ c < 2 ^ 64`) and is destroyed and released exactly when that
was its last, also when it is the tensor `b` held; every tensor that `a` did not hold,
the one `b` held included, keeps its count and is not released. -/
theorem move_assignment (s : State) (dst rhs : Nat) (a b : RtValue) (hne : dst ≠ rhs)
    (ha : s.val dst = some a) (hb : s.val rhs = some b) :
    ∃ s', RtValue.assignMove dst rhs s = some s' ∧
      s'.val dst = some b ∧ s'.val rhs = some ⟨0, Tag.None⟩ ∧
      (∀ j, j < s.vals.length → j ≠ dst → j ≠ rhs → s'.val j = s.val j) ∧
      s'.refs = s.refs ∧
      (∀ p, a.holds p = true → 1 ≤ s.heap.refCount p → s.heap.refCount p < sizeRange →
        s'.heap.refCount p = s.heap.refCount p - 1 ∧
        frees p s'.heap = frees p s.heap + (if s.heap.refCount p = 1 then 1 else 0) ∧
        destroys p s'.heap
          = destroys p s.heap + (if s.heap.refCount p = 1 then 1 else 0)) ∧
      (∀ q, a.holds q = false →
        s'.heap.refCount q = s.heap.refCount q ∧
        frees q s'.heap = frees q s.heap ∧ destroys q s'.heap = destroys q s.heap) := by
  have hla := State.val_lt ha
  have hlb := State.val_lt hb
  have hla' : dst < (s.vals.set rhs (some ⟨0, Tag.None⟩)).length := by
    rw [List.length_set]; exact hla
  have hlb' : rhs < (s.vals.set rhs (some ⟨0, Tag.None⟩)).length := by
    rw [List.length_set]; exact hlb
  refine ⟨_, RtValue.assignMove_eq ha hb, ?_, ?_, ?_, rfl, ?_, ?_⟩
  · rw [State.val_mk_set_append _ _ _ _ _ _ _ hla']; simp
  · rw [State.val_mk_set_append _ _ _ _ _ _ _ hlb']
    simp only [hne, if_false]
    have := State.val_setVal ⟨if dst = rhs then s.heap else a.release s.heap, s.vals, s.refs⟩
      rhs rhs (some ⟨0, Tag.None⟩)
    simp only [State.setVal, true_and, hlb, if_true] at this
    exact this
  · intro j hj hjd hjr
    have hj' : j < (s.vals.set rhs (some ⟨0, Tag.None⟩)).length := by
      rw [List.length_set]; exact hj
    rw [State.val_mk_set_append _ _ _ _ _ _ _ hj']
    simp only [Ne.symm hjd, if_false]
    have := State.val_setVal ⟨if dst = rhs then s.heap else a.release s.heap, s.vals, s.refs⟩
      rhs j (some ⟨0, Tag.None⟩)
    simp only [State.setVal, Ne.symm hjr, false_and, if_false] at this
    exact this
  · intro p hap h1 h2
    refine ⟨?_, ?_, ?_⟩ <;>
      simp only [hne, if_false, RtValue.release_refCount_holds, RtValue.release_frees_holds,
        RtValue.release_destroys_holds, hap, if_true, true_and]
    rw [sizeRange_eq] at *
    omega
  · intro q haq
    refine ⟨?_, ?_, ?_⟩ <;>
      simp only [hne, if_false, RtValue.release_refCount_holds, RtValue.release_frees_holds,
        RtValue.release_destroys_holds, haq, Bool.false_eq_true, false_and, add_zero]

/-- C8 as amended on `demoTwo`: after `v0 = std::move(v1)` the destination holds the
tensor at 2, whose count is still 1, `v1` is None-tagged, and the tensor at 1 lost its
last reference and was released. -/
theorem move_assignment_witness :
    (0 : Nat) ≠ 1 ∧ demoTwo.val 0 = some ⟨1, Tag.Tensor⟩ ∧
      demoTwo.val 1 = some ⟨2, Tag.Tensor⟩ ∧
      ∃ s', RtValue.assignMove 0 1 demoTwo = some s' ∧
        s'.val 0 = some ⟨2, Tag.Tensor⟩ ∧ s'.val 1 = some ⟨0, Tag.None⟩ ∧
        s'.heap.refCount 2 = 1 ∧ s'.heap.refCount 1 = 0 ∧ frees 1 s'.heap = 1 :=
  ⟨by decide, rfl, rfl,
    (move_assignment demoTwo 0 1 ⟨1, Tag.Tensor⟩ ⟨2, Tag.Tensor⟩ (by decide) rfl rfl).imp
      fun _ h =>
        ⟨h.1, h.2.1, h.2.2.1, (h.2.2.2.2.2.2 2 (by decide)).1,
          (h.2.2.2.2.2.1 1 (by decide) (by decide) (by decide)).1,
          (h.2.2.2.2.2.1 1 (by decide) (by decide) (by decide)).2.1⟩⟩

/-- C9 as stated fails on `demoTwo`: in `v0 = v1` the count of the new tensor at 2 is
incremented first, and the old tensor at 1 is decremented (and released) afterwards. -/
theorem release_before_adopt_counterexample : ¬ ReleaseBeforeAdopt demoTwo 0 1 := by
  intro h
  have h1 := h ⟨1, Tag.Tensor⟩ ⟨2, Tag.Tensor⟩ _ 1 2 rfl rfl (by decide) (by decide)
    (@RtValue.assignCopy_eq demoTwo 0 1 _ _ rfl rfl)
  revert h1
  decide

/-- C9 as amended, adopt before release: `dst = rhs` and `dst = std::move(rhs)` on live
`RtValue`s `a` (destination) and `b` (source) run in three steps.  First a temporary
takes the new payload (on copy the new tensor's count is incremented here; on move the
heap is untouched) while the destination still has its old payload; then the swap
overwrites the destination with the new payload and puts the old one in the temporary,
the heap untouched; only then the temporary's destructor releases the reference the
destination owned.  So on copy the increment of the new tensor comes before the
decrement of the old one. -/
theorem adopt_before_release (s : State) (dst rhs : Nat) (a b : RtValue)
    (ha : s.val dst = some a) (hb : s.val rhs = some b) :
    (∃ s1 s2 s3, RtValue.ctorCopy rhs s = some (s.vals.length, s1) ∧
      RtValue.swap s.vals.length dst s1 = some s2 ∧
      RtValue.dtor s.vals.length s2 = some s3 ∧
      RtValue.assignCopy dst rhs s = some s3 ∧
      s1.heap = b.retain s.heap ∧ s1.val dst = some a ∧
      s2.heap = s1.heap ∧ s2.val dst = some b ∧ s2.val s.vals.length = some a ∧
      s3.heap = a.release s2.heap ∧
      (∀ p q, a.holds p = true → b.holds q = true →
        newEvents s.heap s3.heap = Event.incref q :: Event.decref p ::
          (if s1.heap.refCount p = 1 then [Event.destroy p, Event.free p] else []))) ∧
    (dst ≠ rhs → ∃ s1 s2 s3, RtValue.ctorMove rhs s = some (s.vals.length, s1) ∧
      RtValue.swap s.vals.length dst s1 = some s2 ∧
      RtValue.dtor s.vals.length s2 = some s3 ∧
      RtValue.assignMove dst rhs s = some s3 ∧
      s1.heap = s.heap ∧ s1.val dst = some a ∧
      s2.heap = s.heap ∧ s2.val dst = some b ∧ s2.val s.vals.length = some a ∧
      s3.heap = a.release s.heap) := by
  have hla := State.val_lt ha
  have hlb := State.val_lt hb
  have hnl : ¬ s.vals.length < s.vals.length := by omega
  constructor
  · have h1 : (⟨b.retain s.heap, s.vals ++ [some b], s.refs⟩ : State).val s.vals.length
        = some b := State.val_mk_append_last _ _ _ _ _ rfl
    have h2 : (⟨b.retain s.heap, s.vals ++ [some b], s.refs⟩ : State).val dst = some a := by
      rw [State.val_join] at ha ⊢
      simp only [List.getElem?_append_left hla]; exact ha
    have hsw := RtValue.swap_eq h1 h2
    have hl : ((s.vals ++ [some b]).set s.vals.length (some a)).set dst (some b)
        = s.vals.set dst (some b) ++ [some a] := by
      simp [List.set_append, hnl, hla]
    simp only [hl] at hsw
    have h3 : (⟨b.retain s.heap, s.vals.set dst (some b) ++ [some a], s.refs⟩ : State).val
        s.vals.length = some a :=
      State.val_mk_append_last _ _ _ _ _ (by rw [List.length_set])
    have h4 : (⟨b.retain s.heap, s.vals.set dst (some b) ++ [some a], s.refs⟩ : State).val
        dst = some b := by
      rw [State.val_mk_set_append _ _ _ _ _ _ _ hla]; simp
    refine ⟨_, _, _, RtValue.ctorCopy_eq hb, hsw, RtValue.dtor_eq h3, ?_, rfl, h2, rfl, h4, h3,
      rfl, ?_⟩
    · rw [RtValue.assignCopy_eq ha hb]
      simp [List.set_append, hnl]
    · intro p q hp hq
      obtain ⟨hpt, hpp, hp0⟩ := (RtValue.holds_iff _ _).mp hp
      obtain ⟨hqt, hqp, hq0⟩ := (RtValue.holds_iff _ _).mp hq
      subst hpp; subst hqp
      simp only [newEvents, RtValue.release_log _ hpt hp0, RtValue.retain_log _ hqt hq0,
        List.append_assoc, List.drop_left, List.singleton_append]
  · intro hne
    have hla' : dst < (s.vals.set rhs (some ⟨0, Tag.None⟩)).length := by
      rw [List.length_set]; exact hla
    have h1 : (⟨s.heap, s.vals.set rhs (some ⟨0, Tag.None⟩) ++ [some b], s.refs⟩
        : State).val s.vals.length = some b :=
      State.val_mk_append_last _ _ _ _ _ (by rw [List.length_set])
    have h2 : (⟨s.heap, s.vals.set rhs (some ⟨0, Tag.None⟩) ++ [some b], s.refs⟩
        : State).val dst = some a := by
      rw [State.val_join] at ha ⊢
      rw [List.getElem?_append_left hla', List.getElem?_set_ne (Ne.symm hne)]; exact ha
    have hsw := RtValue.swap_eq h1 h2
    have hl : ((s.vals.set rhs (some ⟨0, Tag.None⟩) ++ [some b]).set s.vals.length
          (some a)).set dst (some b)
        = (s.vals.set rhs (some ⟨0, Tag.None⟩)).set dst (some b) ++ [some a] := by
      simp [List.set_append, hnl, hla]
    simp only [hl] at hsw
    have h3 : (⟨s.heap, (s.vals.set rhs (some ⟨0, Tag.None⟩)).set dst (some b) ++ [some a],
        s.refs⟩ : State).val s.vals.length = some a :=
      State.val_mk_append_last _ _ _ _ _ (by rw [List.length_set, List.length_set])
    have h4 : (⟨s.heap, (s.vals.set rhs (some ⟨0, Tag.None⟩)).set dst (some b) ++ [some a],
        s.refs⟩ : State).val dst = some b := by
      rw [State.val_mk_set_append _ _ _ _ _ _ _ hla']; simp
    refine ⟨_, _, _, RtValue.ctorMove_eq hb, hsw, RtValue.dtor_eq h3, ?_, rfl, h2, rfl, h4, h3,
      rfl⟩
    rw [RtValue.assignMove_eq ha hb]
    simp [List.set_append, hnl, hne]

/-- C9 as amended on `demoTwo`: `v0 = v1` first increments the tensor at 2, then
decrements, destroys and releases the tensor at 1. -/
theorem adopt_before_release_witness :
    demoTwo.val 0 = some ⟨1, Tag.Tensor⟩ ∧ demoTwo.val 1 = some ⟨2, Tag.Tensor⟩ ∧
      ∃ s', RtValue.assignCopy 0 1 demoTwo = some s' ∧
        newEvents demoTwo.heap s'.heap
          = [Event.incref 2, Event.decref 1, Event.destroy 1, Event.free 1] :=
  ⟨rfl, rfl,
    match (adopt_before_release demoTwo 0 1 ⟨1, Tag.Tensor⟩ ⟨2, Tag.Tensor⟩ rfl rfl).1 with
    | ⟨s1, _, s3, _, _, _, h4, h5, _, _, _, _, _, h11⟩ =>
      ⟨s3, h4, (h11 1 2 (by decide) (by decide)).trans (by rw [h5]; decide)⟩⟩

theorem allNone_iff (s : State) (P : RtValue → Prop) :
    (∀ i v, s.val i = some v → P v) ↔ ∀ v, some v ∈ s.vals → P v := by
  constructor
  · intro h v hv
    obtain ⟨i, hi, he⟩ := List.getElem_of_mem hv
    apply h i v
    rw [State.val_eq_some, List.getElem?_eq_getElem hi, he]
  · intro h i v hv
    rw [State.val_eq_some] at hv
    obtain ⟨hl, he⟩ := List.getElem?_eq_some.mp hv
    exact h v (he ▸ List.getElem_mem hl)

theorem mem_set_cases {α : Type} {l : List α} {i : Nat} {x y : α} (h : y ∈ l.set i x) :
    y ∈ l ∨ y = x := by
  obtain ⟨j, hj, he⟩ := List.getElem_of_mem h
  rw [List.getElem_set] at he
  split at he
  · exact Or.inr he.symm
  · exact Or.inl (he ▸ List.getElem_mem _)

theorem step_none {o : Op} {s s' : State} (ho : o.onValues = true)
    (hn : ∀ v, some v ∈ s.vals → v.tag = Tag.None) (hs : step o s = some s') :
    (∀ v, some v ∈ s'.vals → v.tag = Tag.None) ∧ s'.heap = s.heap ∧ s'.refs = s.refs := by
  have hval : ∀ i v, s.val i = some v → v.tag = Tag.None := (allNone_iff s _).mpr hn
  have hnt : ∀ i v, s.val i = some v → v.tag ≠ Tag.Tensor ∨ v.payload = 0 := by
    intro i v hv
    left; rw [hval i v hv]; decide
  cases o with
  | valDefault =>
    simp only [step, RtValue.ctorDefault, State.newVal, Option.some.injEq] at hs
    subst hs
    refine ⟨?_, rfl, rfl⟩
    intro v hv
    rcases List.mem_append.mp hv with h | h
    · exact hn v h
    · simp only [List.mem_singleton, Option.some.injEq] at h
      subst h; rfl
  | valCopy rhs =>
    cases hr : s.val rhs with
    | none => simp [step, RtValue.ctorCopy, hr] at hs
    | some r =>
      simp only [step, RtValue.ctorCopy_eq hr, Option.map_some', Option.some.injEq] at hs
      subst hs
      refine ⟨?_, RtValue.retain_of_not_tensor _ (hnt _ _ hr), rfl⟩
      intro v hv
      rcases List.mem_append.mp hv with h | h
      · exact hn v h
      · simp only [List.mem_singleton, Option.some.injEq] at h
        subst h; exact hval _ _ hr
  | valMove rhs =>
    cases hr : s.val rhs with
    | none => simp [step, RtValue.ctorMove, hr] at hs
    | some r =>
      simp only [step, RtValue.ctorMove_eq hr, Option.map_some', Option.some.injEq] at hs
      subst hs
      refine ⟨?_, rfl, rfl⟩
      intro v hv
      rcases List.mem_append.mp hv with h | h
      · rcases mem_set_cases h with h | h
        · exact hn v h
        · simp only [Option.some.injEq] at h
          subst h; rfl
      · simp only [List.mem_singleton, Option.some.injEq] at h
        subst h; exact hval _ _ hr
  | valAssignCopy dst rhs =>
    cases ha : s.val dst with
    | none => simp [step, RtValue.assignCopy, ha] at hs
    | some a =>
      cases hb : s.val rhs with
      | none => simp [step, RtValue.assignCopy, ha, hb] at hs
      | some b =>
        simp only [step, RtValue.assignCopy_eq ha hb, Option.some.injEq] at hs
        subst hs
        refine ⟨?_, ?_, rfl⟩
        · intro v hv
          rcases List.mem_append.mp hv with h | h
          · rcases mem_set_cases h with h | h
            · exact hn v h
            · simp only [Option.some.injEq] at h
              subst h; exact hval _ _ hb
          · simp at h
        · show a.release (b.retain s.heap) = s.heap
          rw [RtValue.retain_of_not_tensor _ (hnt _ _ hb),
            RtValue.release_of_not_tensor _ (hnt _ _ ha)]
  | valAssignMove dst rhs =>
    cases ha : s.val dst with
    | none => simp [step, RtValue.assignMove, ha] at hs
    | some a =>
      cases hb : s.val rhs with
      | none => simp [step, RtValue.assignMove, ha, hb] at hs
      | some b =>
        simp only [step, RtValue.assignMove_eq ha hb, Option.some.injEq] at hs
        subst hs
        refine ⟨?_, ?_, rfl⟩
        · intro v hv
          rcases List.mem_append.mp hv with h | h
          · rcases mem_set_cases h with h | h
            · rcases mem_set_cases h with h | h
              · exact hn v h
              · simp only [Option.some.injEq] at h
                subst h; rfl
            · simp only [Option.some.injEq] at h
              subst h; exact hval _ _ hb
          · simp at h
        · show (if dst = rhs then s.heap else a.release s.heap) = s.heap
          rw [RtValue.release_of_not_tensor _ (hnt _ _ ha)]
          simp
  | valDestroy x =>
    cases hv : s.val x with
    | none => simp [step, RtValue.dtor, hv] at hs
    | some w =>
      simp only [step, RtValue.dtor_eq hv, Option.some.injEq] at hs
      subst hs
      refine ⟨?_, RtValue.release_of_not_tensor _ (hnt _ _ hv), rfl⟩
      intro v hv'
      rcases mem_set_cases hv' with h | h
      · exact hn v h
      · cases h
  | refDefault => simp [Op.onValues] at ho
  | refCopy other => simp [Op.onValues] at ho
  | refMove other => simp [Op.onValues] at ho
  | refAssignCopy dst other => simp [Op.onValues] at ho
  | refAssignMove dst other => simp [Op.onValues] at ho
  | refDestroy x => simp [Op.onValues] at ho
  | valOfRefMove r => simp [Op.onValues] at ho
  | valOfRefCopy r => simp [Op.onValues] at ho
  | valToTensor x => simp [Op.onValues] at ho

/-- C10, None neutrality: from a state all of whose live `RtValue`s are None-tagged
(default-constructed ones are), every sequence of default, copy and move
constructions, copy and move assignments and destructions of `RtValue`s that the
program can run ends in a state all of whose live `RtValue`s are None-tagged, with the
heap exactly as it was: no count of any object was changed, no increment or decrement
was performed at all, and no handle was touched. -/
theorem none_neutrality (s0 s : State) (ops : List Op)
    (hnone : ∀ i v, s0.val i = some v → v.tag = Tag.None)
    (hops : ∀ o, o ∈ ops → o.onValues = true)
    (hrun : run ops s0 = some s) :
    (∀ i v, s.val i = some v → v.tag = Tag.None) ∧ s.heap = s0.heap ∧ s.refs = s0.refs := by
  rw [allNone_iff] at hnone ⊢
  induction ops generalizing s0 with
  | nil =>
    simp only [run, Option.some.injEq] at hrun
    subst hrun
    exact ⟨hnone, rfl, rfl⟩
  | cons o os ih =>
    simp only [run] at hrun
    cases h1 : step o s0 with
    | none => simp [h1] at hrun
    | some s1 =>
      simp only [h1, Option.some_bind] at hrun
      obtain ⟨k1, k2, k3⟩ := step_none (hops o (List.mem_cons_self _ _)) hnone h1
      obtain ⟨m1, m2, m3⟩ := ih s1 k1 (fun o' ho' => hops o' (List.mem_cons_of_mem _ ho')) hrun
      exact ⟨m1, m2.trans k2, m3.trans k3⟩

/-- C10 on the example program over three default-constructed values: it runs, the
five values alive at the end are None-tagged, and the heap, with the count 5 of the
tensor at 1, is as it was. -/
theorem none_neutrality_witness :
    (∀ i v, demoNones.val i = some v → v.tag = Tag.None) ∧
    (∀ o, o ∈ demoNoneOps → o.onValues = true) ∧
    ∃ s, run demoNoneOps demoNones = some s ∧
      s.vals = [some ⟨0, Tag.None⟩, some ⟨0, Tag.None⟩, none, some ⟨0, Tag.None⟩,
        some ⟨0, Tag.None⟩, none, none, none, some ⟨0, Tag.None⟩, none] ∧
      (∀ i v, s.val i = some v → v.tag = Tag.None) ∧ s.heap = demoNones.heap ∧
      s.heap.refCount 1 = 5 ∧ s.heap.log = [] :=
  have h1 : ∀ i v, demoNones.val i = some v → v.tag = Tag.None :=
    (allNone_iff demoNones _).mpr (by
      intro v hv
      simp only [demoNones, List.mem_cons, Option.some.injEq, List.mem_nil_iff,
        or_false, or_self] at hv
      subst hv; rfl)
  have h2 : ∀ o, o ∈ demoNoneOps → o.onValues = true := by decide
  ⟨h1, h2, _, rfl, rfl, (none_neutrality demoNones _ demoNoneOps h1 h2 rfl).1,
    (none_neutrality demoNones _ demoNoneOps h1 h2 rfl).2.1, rfl, rfl⟩

/-! ## Claims on the handle -/

theorem State.ref_join (s : State) (i : Nat) : s.ref i = (s.refs[i]?).join := by
  unfold State.ref
  split
  · next w hw => simp [hw]
  · next hn =>
    cases h : s.refs[i]? with
    | none => rfl
    | some o =>
      cases o with
      | none => rfl
      | some v => exact absurd h (hn v)

theorem State.ref_mk_append_last (h : Heap) (l : List (Option RtValue))
    (r : List (Option Ptr)) (o : Option Ptr) (n : Nat) (hn : n = r.length) :
    (⟨h, l, r ++ [o]⟩ : State).ref n = o := by
  subst hn
  simp [State.ref_join]

theorem State.ref_mk_append_left (h : Heap) (l : List (Option RtValue))
    (r t : List (Option Ptr)) (j : Nat) (hj : j < r.length) :
    (⟨h, l, r ++ t⟩ : State).ref j = (⟨h, l, r⟩ : State).ref j := by
  simp only [State.ref_join, List.getElem?_append_left hj]

theorem State.ref_mk_set (h : Heap) (l : List (Option RtValue))
    (r : List (Option Ptr)) (i j : Nat) (o : Option Ptr) (hj : j < r.length) :
    (⟨h, l, r.set i o⟩ : State).ref j = if i = j then o else (⟨h, l, r⟩ : State).ref j := by
  simp only [State.ref_join, List.getElem?_set]
  by_cases e : i = j
  · subst e; simp [hj]
  · simp [e]

theorem Ref.incref_log {p : Ptr} (h : Heap) (hp : p ≠ 0) :
    (Ref.incref p h).log = h.log ++ [Event.incref p] := by
  simp [Ref.incref, hp]

theorem Ref.decref_log {p : Ptr} (h : Heap) (hp : p ≠ 0) :
    (Ref.decref p h).log = h.log ++ Event.decref p ::
      (if h.refCount p = 1 then [Event.destroy p, Event.free p] else []) := by
  by_cases h1 : h.refCount p = 1 <;> simp [Ref.decref, hp, h1]

/-- C11, adopting a raw pointer: constructing a `Ref` from the raw pointer `p` to an
object whose count is `c` succeeds and gives a live handle that points at `p`, leaves
every other object and count alone and makes the count `c + 1` (modulo `2 ^ 64`, so
`c + 1` whenever that fits `size_t`); for a fresh object, count zero, the count is
exactly one afterwards and `debugGetRefCount` returns 1. -/
theorem adopt_raw_pointer (s : State) (p : Ptr) (hp : p ≠ 0) :
    ∃ s', Ref.ctorRaw p s = some (s.refs.length, s') ∧
      s'.ref s.refs.length = some p ∧
      (∀ j, j < s.refs.length → s'.ref j = s.ref j) ∧
      s'.vals = s.vals ∧
      s'.heap.refCount p = (s.heap.refCount p + 1) % sizeRange ∧
      (s.heap.refCount p + 1 < sizeRange →
        s'.heap.refCount p = s.heap.refCount p + 1) ∧
      (∀ q, q ≠ p → s'.heap.refCount q = s.heap.refCount q) ∧
      s'.heap.log = s.heap.log ++ [Event.incref p] ∧
      (s.heap.refCount p = 0 →
        s'.heap.refCount p = 1 ∧ Ref.debugGetRefCount s.refs.length s' = some 1) := by
  have hself : (Ref.incref p s.heap).refCount p = (s.heap.refCount p + 1) % sizeRange := by
    rw [Ref.incref_refCount]; simp [hp]
  have hlast : (⟨Ref.incref p s.heap, s.vals, s.refs ++ [some p]⟩ : State).ref s.refs.length
      = some p := State.ref_mk_append_last _ _ _ _ _ rfl
  refine ⟨_, Ref.ctorRaw_eq s hp, hlast, ?_, rfl, hself, ?_, ?_, Ref.incref_log _ hp, ?_⟩
  · intro j hj
    exact State.ref_mk_append_left _ _ _ _ _ hj
  · intro hfit
    exact hself.trans (Nat.mod_eq_of_lt hfit)
  · intro q hq
    show (Ref.incref p s.heap).refCount q = s.heap.refCount q
    rw [Ref.incref_refCount]; simp [Ne.symm hq]
  · intro hz
    have h1 : (Ref.incref p s.heap).refCount p = 1 := by
      rw [hself, hz, sizeRange_eq]
    refine ⟨h1, ?_⟩
    unfold Ref.debugGetRefCount
    rw [hlast]
    simp only [Option.bind_eq_bind, Option.some_bind, hp, if_false]
    show some (toInt32 ((Ref.incref p s.heap).refCount p)) = some 1
    rw [h1]
    rfl

/-- C11 on the empty program state: adopting the fresh object at 1 gives handle `r0`
pointing at 1, count 1, and `debugGetRefCount` returns 1. -/
theorem adopt_raw_pointer_witness :
    (1 : Ptr) ≠ 0 ∧ (⟨demoHeap, [], []⟩ : State).heap.refCount 1 = 0 ∧
      ∃ s', Ref.ctorRaw 1 ⟨demoHeap, [], []⟩ = some (0, s') ∧
        s'.ref 0 = some 1 ∧ s'.heap.refCount 1 = 1 ∧
        Ref.debugGetRefCount 0 s' = some 1 :=
  ⟨by decide, rfl,
    (adopt_raw_pointer ⟨demoHeap, [], []⟩ 1 (by decide)).imp fun _ h =>
      ⟨h.1, h.2.1, (h.2.2.2.2.2.2.2.2 rfl).1, (h.2.2.2.2.2.2.2.2 rfl).2⟩⟩

/-- C12, copy versus move of a handle: for a live `Ref` in slot `r` that points at the
object `p` with count `c`, copy construction succeeds, yields a handle to `p`, leaves
`r` pointing at `p` and makes the count `c + 1` (when that fits `size_t`), other counts
untouched; `takePtr` returns `p` and leaves `r` null with the heap untouched; move
construction succeeds, yields a handle to `p`, leaves `r` null and the heap untouched
(the count stays `c`), and destroying the moved-from `r` afterwards succeeds and
leaves the heap untouched as well. -/
theorem ref_copy_versus_move (s : State) (r : Nat) (p : Ptr) (hr : s.ref r = some p)
    (hp : p ≠ 0) :
    (∃ s', Ref.ctorCopy r s = some (s.refs.length, s') ∧
      s'.ref s.refs.length = some p ∧ s'.ref r = some p ∧ s'.vals = s.vals ∧
      (∀ j, j < s.refs.length → s'.ref j = s.ref j) ∧
      s'.heap.refCount p = (s.heap.refCount p + 1) % sizeRange ∧
      (s.heap.refCount p + 1 < sizeRange →
        s'.heap.refCount p = s.heap.refCount p + 1) ∧
      (∀ q, q ≠ p → s'.heap.refCount q = s.heap.refCount q)) ∧
    (∃ s', Ref.takePtr r s = some (p, s') ∧ s'.ref r = some 0 ∧ s'.heap = s.heap ∧
      s'.vals = s.vals ∧ (∀ j, j ≠ r → s'.ref j = s.ref j)) ∧
    (∃ s', Ref.ctorMove r s = some (s.refs.length, s') ∧
      s'.ref s.refs.length = some p ∧ s'.ref r = some 0 ∧ s'.vals = s.vals ∧
      (∀ j, j < s.refs.length → j ≠ r → s'.ref j = s.ref j) ∧
      s'.heap = s.heap ∧
      ∃ s'', Ref.dtor r s' = some s'' ∧ s''.heap = s'.heap ∧ s''.ref r = none) := by
  have hl := State.ref_lt hr
  have hself : (Ref.incref p s.heap).refCount p = (s.heap.refCount p + 1) % sizeRange := by
    rw [Ref.incref_refCount]; simp [hp]
  have hls : r < (s.refs.set r (some 0)).length := by rw [List.length_set]; exact hl
  have hnull : (⟨s.heap, s.vals, s.refs.set r (some 0) ++ [some p]⟩ : State).ref r
      = some 0 := by
    rw [State.ref_mk_append_left _ _ _ _ _ hls, State.ref_mk_set _ _ _ _ _ _ hl]
    simp
  refine ⟨⟨_, refCtorCopy_eq hr, ?_, ?_, rfl, ?_, hself, ?_, ?_⟩,
    ⟨_, Ref.takePtr_eq hr, ?_, rfl, rfl, ?_⟩,
    ⟨_, refCtorMove_eq hr, ?_, hnull, rfl, ?_, rfl, ?_⟩⟩
  · exact State.ref_mk_append_last _ _ _ _ _ rfl
  · rw [State.ref_mk_append_left _ _ _ _ _ hl]; exact hr
  · intro j hj
    exact State.ref_mk_append_left _ _ _ _ _ hj
  · intro hfit
    exact hself.trans (Nat.mod_eq_of_lt hfit)
  · intro q hq
    rw [Ref.incref_refCount]; simp [Ne.symm hq]
  · rw [State.ref_mk_set _ _ _ _ _ _ hl]; simp
  · intro j hj
    simp only [State.ref_join, List.getElem?_set_ne (Ne.symm hj)]
  · exact State.ref_mk_append_last _ _ _ _ _ (by rw [List.length_set])
  · intro j hj hjr
    have hj' : j < (s.refs.set r (some 0)).length := by rw [List.length_set]; exact hj
    rw [State.ref_mk_append_left _ _ _ _ _ hj', State.ref_mk_set _ _ _ _ _ _ hj]
    simp [Ne.symm hjr]
  · refine ⟨_, refDtor_eq hnull, Ref.decref_null _, ?_⟩
    have hls2 : r < (s.refs.set r (some 0) ++ [some p]).length := by
      rw [List.length_append]; omega
    rw [State.ref_mk_set _ _ _ _ _ _ hls2]; simp

/-- C12 on the state the example program ends in, where `r1` points at the tensor at 1
with count 2: the copy makes the count 3, the move leaves it at 2 and `r1` null. -/
theorem ref_copy_versus_move_witness :
    demoEnd.ref 1 = some 1 ∧ demoEnd.heap.refCount 1 = 2 ∧
      (∃ s', Ref.ctorCopy 1 demoEnd = some (3, s') ∧ s'.ref 3 = some 1 ∧
        s'.ref 1 = some 1 ∧ s'.heap.refCount 1 = 3) ∧
      (∃ s', Ref.ctorMove 1 demoEnd = some (3, s') ∧ s'.ref 3 = some 1 ∧
        s'.ref 1 = some 0 ∧ s'.heap.refCount 1 = 2) :=
  have h := ref_copy_versus_move demoEnd 1 1 rfl (by decide)
  ⟨rfl, rfl,
    h.1.imp fun _ k => ⟨k.1, k.2.1, k.2.2.1, k.2.2.2.2.2.2.1 (by decide)⟩,
    h.2.2.imp fun _ k =>
      ⟨k.1, k.2.1, k.2.2.1, (congrArg (fun x => x.refCount 1) k.2.2.2.2.2.1).trans rfl⟩⟩

/-- C13, free decision of `decref`: dropping a live `Ref` whose target `p` has a count
`n` with `1 ≤ n < 2 ^ 64` succeeds and leaves the count at `n - 1`, other counts
untouched; the effects are the `fetch_sub`, followed, exactly when the value read was
`n = 1`, by the destructor run and then the release of the block, in this order; when
`n > 1` nothing is destroyed or released.  Dropping a null `Ref` leaves the heap as it
was. -/
theorem decref_free_decision (s : State) (r : Nat) (p : Ptr) (hr : s.ref r = some p) :
    ∃ s', Ref.dtor r s = some s' ∧ s'.ref r = none ∧ s'.vals = s.vals ∧
      (∀ j, j ≠ r → s'.ref j = s.ref j) ∧
      s'.heap = Ref.decref p s.heap ∧
      (p = 0 → s'.heap = s.heap) ∧
      (p ≠ 0 → 1 ≤ s.heap.refCount p → s.heap.refCount p < sizeRange →
        s'.heap.refCount p = s.heap.refCount p - 1 ∧
        (∀ q, q ≠ p → s'.heap.refCount q = s.heap.refCount q) ∧
        newEvents s.heap s'.heap = Event.decref p ::
          (if s.heap.refCount p = 1 then [Event.destroy p, Event.free p] else []) ∧
        frees p s'.heap = frees p s.heap + (if s.heap.refCount p = 1 then 1 else 0) ∧
        destroys p s'.heap
          = destroys p s.heap + (if s.heap.refCount p = 1 then 1 else 0) ∧
        (∀ q, q ≠ p → frees q s'.heap = frees q s.heap ∧
          destroys q s'.heap = destroys q s.heap)) := by
  have hl := State.ref_lt hr
  refine ⟨_, refDtor_eq hr, ?_, rfl, ?_, rfl, ?_, ?_⟩
  · rw [State.ref_mk_set _ _ _ _ _ _ hl]; simp
  · intro j hj
    simp only [State.ref_join, List.getElem?_set_ne (Ne.symm hj)]
  · intro hp
    show Ref.decref p s.heap = s.heap
    rw [hp]; exact Ref.decref_null _
  · intro hp h1 h2
    refine ⟨?_, ?_, ?_, ?_, ?_, ?_⟩
    · show (Ref.decref p s.heap).refCount p = s.heap.refCount p - 1
      rw [Ref.decref_refCount]
      simp only [hp, ne_eq, not_false_eq_true, and_self, if_true]
      rw [sizeRange_eq] at *
      omega
    · intro q hq
      show (Ref.decref p s.heap).refCount q = s.heap.refCount q
      rw [Ref.decref_refCount]; simp [Ne.symm hq]
    · show newEvents s.heap (Ref.decref p s.heap) = _
      simp only [newEvents, Ref.decref_log _ hp, List.drop_left]
    · show frees p (Ref.decref p s.heap) = _
      rw [Ref.decref_frees]; simp [hp]
    · show destroys p (Ref.decref p s.heap) = _
      rw [Ref.decref_destroys]; simp [hp]
    · intro q hq
      refine ⟨?_, ?_⟩
      · show frees q (Ref.decref p s.heap) = _
        rw [Ref.decref_frees]; simp [Ne.symm hq]
      · show destroys q (Ref.decref p s.heap) = _
        rw [Ref.decref_destroys]; simp [Ne.symm hq]

/-- C13 on the example states: dropping `r1` at count 2 (`demoEnd`) only decrements;
dropping it at count 1 (`demoLast`) decrements, then destroys, then releases. -/
theorem decref_free_decision_witness :
    demoEnd.ref 1 = some 1 ∧ demoEnd.heap.refCount 1 = 2 ∧
      demoLast.ref 1 = some 1 ∧ demoLast.heap.refCount 1 = 1 ∧
      (∃ s', Ref.dtor 1 demoEnd = some s' ∧ s'.heap.refCount 1 = 1 ∧
        newEvents demoEnd.heap s'.heap = [Event.decref 1]) ∧
      (∃ s', Ref.dtor 1 demoLast = some s' ∧ s'.heap.refCount 1 = 0 ∧
        newEvents demoLast.heap s'.heap
          = [Event.decref 1, Event.destroy 1, Event.free 1]) :=
  ⟨rfl, rfl, rfl, rfl,
    (decref_free_decision demoEnd 1 1 rfl).imp fun _ k =>
      ⟨k.1, (k.2.2.2.2.2.2 (by decide) (by decide) (by decide)).1,
        (k.2.2.2.2.2.2 (by decide) (by decide) (by decide)).2.2.1⟩,
    (decref_free_decision demoLast 1 1 rfl).imp fun _ k =>
      ⟨k.1, (k.2.2.2.2.2.2 (by decide) (by decide) (by decide)).1,
        (k.2.2.2.2.2.2 (by decide) (by decide) (by decide)).2.2.1⟩⟩

theorem RtValue.ctorTensor_eq {s : State} {t : Nat} {p : Ptr} (ht : s.ref t = some p) :
    RtValue.ctorTensor t s
      = some (s.vals.length,
          ⟨s.heap, s.vals ++ [some ⟨p, Tag.Tensor⟩], s.refs.set t (some 0)⟩) := by
  unfold RtValue.ctorTensor
  simp only [Ref.takePtr_eq ht, Option.bind_eq_bind, Option.some_bind, State.newVal]

/-- C20, wrapping and unwrapping a handle: let the constructor parameter in slot `t` be
a live `Ref` to the tensor `p`, whose count `c` is at least one and below the largest
`size_t`.  `RtValue(Ref<Tensor>)` succeeds and yields a Tensor-tagged value with payload
`p`; the parameter is left null and the heap is untouched, so the count stays `c`: the
reference is transferred.  `toTensor()` on that value succeeds, returns a handle to
`p`, leaves the value as it is and makes the count `c + 1`.  Dropping the returned
handle succeeds, brings the count back to `c` and neither destroys nor releases the
tensor. -/
theorem wrap_unwrap (s : State) (t : Nat) (p : Ptr) (ht : s.ref t = some p) (hp : p ≠ 0)
    (h1 : 1 ≤ s.heap.refCount p) (h2 : s.heap.refCount p + 1 < sizeRange) :
    ∃ s1 s2 s3,
      RtValue.ctorTensor t s = some (s.vals.length, s1) ∧
      s1.val s.vals.length = some ⟨p, Tag.Tensor⟩ ∧ s1.ref t = some 0 ∧
      s1.heap = s.heap ∧
      RtValue.toTensor s.vals.length s1 = some (s.refs.length, s2) ∧
      s2.ref s.refs.length = some p ∧ s2.val s.vals.length = some ⟨p, Tag.Tensor⟩ ∧
      s2.vals = s1.vals ∧
      s2.heap.refCount p = s.heap.refCount p + 1 ∧
      Ref.dtor s.refs.length s2 = some s3 ∧
      s3.val s.vals.length = some ⟨p, Tag.Tensor⟩ ∧
      s3.heap.refCount p = s.heap.refCount p ∧
      frees p s3.heap = frees p s.heap ∧ destroys p s3.heap = destroys p s.heap := by
  have hl := State.ref_lt ht
  have hv1 : (⟨s.heap, s.vals ++ [some ⟨p, Tag.Tensor⟩], s.refs.set t (some 0)⟩ : State).val
      s.vals.length = some ⟨p, Tag.Tensor⟩ := State.val_mk_append_last _ _ _ _ _ rfl
  have hto := RtValue.toTensor_eq hv1 rfl hp
  simp only [List.length_set] at hto
  have hr2 : (⟨Ref.incref p s.heap, s.vals ++ [some ⟨p, Tag.Tensor⟩],
      s.refs.set t (some 0) ++ [some p]⟩ : State).ref s.refs.length = some p :=
    State.ref_mk_append_last _ _ _ _ _ (by rw [List.length_set])
  have hc2 : (Ref.incref p s.heap).refCount p = s.heap.refCount p + 1 := by
    rw [Ref.incref_refCount]
    simp only [hp, ne_eq, not_false_eq_true, and_self, if_true]
    exact Nat.mod_eq_of_lt h2
  refine ⟨_, _, _, RtValue.ctorTensor_eq ht, hv1, ?_, rfl, hto, hr2, hv1, rfl, hc2,
    refDtor_eq hr2, hv1, ?_, ?_, ?_⟩
  · rw [State.ref_mk_set _ _ _ _ _ _ hl]; simp
  · show (Ref.decref p (Ref.incref p s.heap)).refCount p = s.heap.refCount p
    rw [Ref.decref_refCount, hc2]
    simp only [hp, ne_eq, not_false_eq_true, and_self, if_true]
    rw [sizeRange_eq] at *
    omega
  · show frees p (Ref.decref p (Ref.incref p s.heap)) = frees p s.heap
    rw [Ref.decref_frees, hc2, Ref.incref_frees]
    have : ¬ s.heap.refCount p + 1 = 1 := by omega
    simp [this]
  · show destroys p (Ref.decref p (Ref.incref p s.heap)) = destroys p s.heap
    rw [Ref.decref_destroys, hc2, Ref.incref_destroys]
    have : ¬ s.heap.refCount p + 1 = 1 := by omega
    simp [this]

/-- C20 on the state the example program ends in, with `r1`, which points at the
tensor at 1 with count 2, as the constructor parameter: wrapping leaves the count at 2,
`toTensor()` makes it 3, dropping the returned handle makes it 2 again. -/
theorem wrap_unwrap_witness :
    demoEnd.ref 1 = some 1 ∧ demoEnd.heap.refCount 1 = 2 ∧
      ∃ s1 s2 s3, RtValue.ctorTensor 1 demoEnd = some (4, s1) ∧
        s1.val 4 = some ⟨1, Tag.Tensor⟩ ∧ s1.heap.refCount 1 = 2 ∧
        RtValue.toTensor 4 s1 = some (3, s2) ∧ s2.ref 3 = some 1 ∧
        s2.heap.refCount 1 = 3 ∧
        Ref.dtor 3 s2 = some s3 ∧ s3.heap.refCount 1 = 2 ∧ frees 1 s3.heap = 0 :=
  match wrap_unwrap demoEnd 1 1 rfl (by decide) (by decide) (by decide) with
  | ⟨s1, s2, s3, k1, k2, _, k4, k5, k6, _, _, k9, k10, _, k12, k13, _⟩ =>
    ⟨rfl, rfl, s1, s2, s3, k1, k2, (congrArg (fun x => x.refCount 1) k4).trans rfl, k5, k6,
      k9, k10, k12, k13.trans (by decide)⟩

/-! ## Claims on the scalar constructors and accessors -/

theorem Payload.asInt_setInt (i : Int) (hlo : -2 ^ 63 ≤ i) (hhi : i < 2 ^ 63) :
    Payload.asInt (Payload.setInt i) = i := by
  unfold Payload.asInt Payload.setInt
  have hmod : (0 : Int) ≤ i % 2 ^ 64 := Int.emod_nonneg _ (by norm_num)
  have hlt : i % 2 ^ 64 < 2 ^ 64 := Int.emod_lt_of_pos _ (by norm_num)
  have hcast : (((i % 2 ^ 64).toNat : Nat) : Int) = i % 2 ^ 64 := Int.toNat_of_nonneg hmod
  have hn : (i % 2 ^ 64).toNat < 2 ^ 64 := by
    have : (((i % 2 ^ 64).toNat : Nat) : Int) < ((2 ^ 64 : Nat) : Int) := by
      rw [hcast]; exact_mod_cast hlt
    exact_mod_cast this
  rw [Nat.mod_eq_of_lt hn]
  by_cases hneg : i < 0
  · have he : i % 2 ^ 64 = i + 2 ^ 64 := by
      rw [Int.emod_def]
      have : i / 2 ^ 64 = -1 := by omega
      rw [this]; ring
    have hge : ¬ (i % 2 ^ 64).toNat < 2 ^ 63 := by
      intro hc
      have : (((i % 2 ^ 64).toNat : Nat) : Int) < ((2 ^ 63 : Nat) : Int) := by
        exact_mod_cast hc
      rw [hcast, he] at this
      norm_num at this
      omega
    rw [if_neg hge, hcast, he]; ring
  · have he : i % 2 ^ 64 = i := Int.emod_eq_of_lt (by omega) (by omega)
    have hlt2 : (i % 2 ^ 64).toNat < 2 ^ 63 := by
      have : (((i % 2 ^ 64).toNat : Nat) : Int) < ((2 ^ 63 : Nat) : Int) := by
        rw [hcast, he]; exact_mod_cast hhi
      exact_mod_cast this
    rw [if_pos hlt2, hcast, he]

/-- What `toInt` does on every stored `int64_t`: the value is Int-tagged, the payload
reads back as `i`, and the accessor returns whether `i` is nonzero. -/
theorem RtValue.toInt_ctorInt (i : Int) (hlo : -2 ^ 63 ≤ i) (hhi : i < 2 ^ 63) :
    (RtValue.ctorInt i).tag = Tag.Int ∧ Payload.asInt (RtValue.ctorInt i).payload = i ∧
      (RtValue.ctorInt i).toInt = some (decide (i ≠ 0)) := by
  have h := Payload.asInt_setInt i hlo hhi
  refine ⟨rfl, h, ?_⟩
  unfold RtValue.toInt
  have : (RtValue.ctorInt i).isInt = true := by simp [RtValue.isInt, RtValue.ctorInt]
  simp only [this, assert, if_true, Option.bind_eq_bind, Option.some_bind]
  show some (decide (Payload.asInt (Payload.setInt i) ≠ 0)) = _
  rw [h]

/-- C14 at the spec's example `RtValue(5).toInt()`: the value built from 5 is
Int-tagged and its payload reads back as 5, but the accessor, whose result type is
`bool`, returns `true`, which is 1 and not 5 as an integer. -/
theorem toInt_returns_bool :
    (RtValue.ctorInt 5).tag = Tag.Int ∧ Payload.asInt (RtValue.ctorInt 5).payload = 5 ∧
      (RtValue.ctorInt 5).toInt = some true ∧
      (RtValue.ctorInt 5).toInt.map boolToInt = some 1 ∧
      (RtValue.ctorInt 5).toInt.map boolToInt ≠ some 5 := by
  have h := RtValue.toInt_ctorInt 5 (by norm_num) (by norm_num)
  refine ⟨h.1, h.2.1, h.2.2, ?_, ?_⟩
  · rw [h.2.2]; rfl
  · rw [h.2.2]; decide

/-- C15 at the spec's example `RtValue(2.5).toDouble()`: the value built from 2.5 is
Double-tagged and its payload is the encoding of 2.5, but the accessor, whose result
type is `bool`, returns `true`, which is 1.0 and not 2.5 as a `double`. -/
theorem toDouble_returns_bool :
    (RtValue.ctorDouble bitsOfTwoAndAHalf).tag = Tag.Double ∧
      (RtValue.ctorDouble bitsOfTwoAndAHalf).payload = bitsOfTwoAndAHalf ∧
      (RtValue.ctorDouble bitsOfTwoAndAHalf).toDouble = some true ∧
      (RtValue.ctorDouble bitsOfTwoAndAHalf).toDouble.map boolToDoubleBits
        = some bitsOfOne ∧
      (RtValue.ctorDouble bitsOfTwoAndAHalf).toDouble.map boolToDoubleBits
        ≠ some bitsOfTwoAndAHalf := by
  decide

/-- C16, type-checked access: for every `RtValue` `v`, the tag assertion of each of
`toBool`, `toInt`, `toDouble` and `toTensor` passes exactly when `v` carries the
matching tag; on every other tag, None included, the accessor fails without returning
a payload; with the matching tag `toBool`, `toInt` and `toDouble` return a result, and
so does `toTensor` unless the payload is null, where the assertion of the handle
constructor it calls has no object to read a count of.  The values built by the Bool,
Int, Double and Tensor constructors carry the tags Bool, Int, Double and Tensor, and
at most one of `isBool`, `isInt`, `isDouble`, `isTensor` is true of `v`. -/
theorem type_checked_access (v : RtValue) :
    (assert v.isBool ≠ none ↔ v.tag = Tag.Bool) ∧
    (assert v.isInt ≠ none ↔ v.tag = Tag.Int) ∧
    (assert v.isDouble ≠ none ↔ v.tag = Tag.Double) ∧
    (assert v.isTensor ≠ none ↔ v.tag = Tag.Tensor) ∧
    (v.toBool ≠ none ↔ v.tag = Tag.Bool) ∧
    (v.toInt ≠ none ↔ v.tag = Tag.Int) ∧
    (v.toDouble ≠ none ↔ v.tag = Tag.Double) ∧
    (∀ s x, s.val x = some v →
      (v.tag ≠ Tag.Tensor → RtValue.toTensor x s = none) ∧
      (RtValue.toTensor x s ≠ none ↔ v.tag = Tag.Tensor ∧ v.payload ≠ 0)) ∧
    (v.tag = Tag.None → v.toBool = none ∧ v.toInt = none ∧ v.toDouble = none ∧
      ∀ s x, s.val x = some v → RtValue.toTensor x s = none) ∧
    (∀ b w0, (RtValue.ctorBool b w0).tag = Tag.Bool ∧
      (RtValue.ctorBool b w0).toBool = some b) ∧
    (∀ i, (RtValue.ctorInt i).tag = Tag.Int ∧ (RtValue.ctorInt32 i).tag = Tag.Int) ∧
    (∀ bits, (RtValue.ctorDouble bits).tag = Tag.Double) ∧
    (∀ s t p, s.ref t = some p → ∃ s1, RtValue.ctorTensor t s = some (s.vals.length, s1) ∧
      s1.val s.vals.length = some ⟨p, Tag.Tensor⟩) ∧
    [v.isBool, v.isInt, v.isDouble, v.isTensor].count true ≤ 1 := by
  have hten : ∀ (s : State) (x : Nat), s.val x = some v →
      (v.tag ≠ Tag.Tensor → RtValue.toTensor x s = none) ∧
      (RtValue.toTensor x s ≠ none ↔ v.tag = Tag.Tensor ∧ v.payload ≠ 0) := by
    intro s x hv
    refine ⟨fun ht => RtValue.toTensor_none hv ht, ?_⟩
    by_cases ht : v.tag = Tag.Tensor
    · by_cases hp : v.payload = 0
      · simp [RtValue.toTensor_null hv hp, hp]
      · simp [RtValue.toTensor_eq hv ht hp, ht, hp]
    · simp [RtValue.toTensor_none hv ht, ht]
  refine ⟨?_, ?_, ?_, ?_, ?_, ?_, ?_, hten, ?_, ?_, ?_, ?_, ?_, ?_⟩
  · cases v with
    | mk p t => cases t <;> simp [RtValue.isBool, assert]
  · cases v with
    | mk p t => cases t <;> simp [RtValue.isInt, assert]
  · cases v with
    | mk p t => cases t <;> simp [RtValue.isDouble, assert]
  · cases v with
    | mk p t => cases t <;> simp [RtValue.isTensor, assert]
  · cases v with
    | mk p t => cases t <;> simp [RtValue.toBool, RtValue.isBool, assert]
  · cases v with
    | mk p t => cases t <;> simp [RtValue.toInt, RtValue.isInt, assert]
  · cases v with
    | mk p t => cases t <;> simp [RtValue.toDouble, RtValue.isDouble, assert]
  · intro hn
    refine ⟨?_, ?_, ?_, ?_⟩
    · simp [RtValue.toBool, RtValue.isBool, assert, hn]
    · simp [RtValue.toInt, RtValue.isInt, assert, hn]
    · simp [RtValue.toDouble, RtValue.isDouble, assert, hn]
    · intro s x hv
      exact RtValue.toTensor_none hv (by rw [hn]; decide)
  · intro b w0
    refine ⟨rfl, ?_⟩
    have h256 : (w0 - w0 % 256) % 256 = 0 := by omega
    cases b
    · simp [RtValue.toBool, RtValue.isBool, assert, RtValue.ctorBool, Payload.asBool,
        Payload.setBool, h256]
    · have : (w0 - w0 % 256 + 1) % 256 = 1 := by omega
      simp [RtValue.toBool, RtValue.isBool, assert, RtValue.ctorBool, Payload.asBool,
        Payload.setBool, this]
  · intro i; exact ⟨rfl, rfl⟩
  · intro bits; rfl
  · intro s t p ht
    exact ⟨_, RtValue.ctorTensor_eq ht, State.val_mk_append_last _ _ _ _ _ rfl⟩
  · cases v with
    | mk p t =>
      cases t <;> simp [RtValue.isBool, RtValue.isInt, RtValue.isDouble, RtValue.isTensor]

/-- C17, lock-step of the reference-tag registrations: for every `RtValue` `v`, `isRef`
is true exactly when `v` is Tensor-tagged; when it is true the copy constructor's
dispatch performs the increment and the destructor's dispatch the decrement on the
payload, and when it is false both leave the heap alone; so neither dispatch reaches
the `Unsupported RtValue type` assertion for any tag, and copy construction and
destruction of a live value never fail. -/
theorem ref_tags_in_lock_step (v : RtValue) (h : Heap) :
    (v.isRef = true ↔ v.tag = Tag.Tensor) ∧
    (v.isRef = true →
      v.increfDispatch h = some (Ref.incref v.payload h) ∧
      v.decrefDispatch h = some (Ref.decref v.payload h)) ∧
    (v.isRef = false → v.increfDispatch h = some h ∧ v.decrefDispatch h = some h) ∧
    v.increfDispatch h ≠ none ∧ v.decrefDispatch h ≠ none ∧
    (∀ s x, s.val x = some v →
      RtValue.ctorCopy x s ≠ none ∧ RtValue.dtor x s ≠ none) := by
  refine ⟨?_, ?_, ?_, ?_, ?_, ?_⟩
  · cases v with
    | mk p t => cases t <;> simp [RtValue.isRef, RtValue.isTensor]
  · intro hr
    have ht : v.isTensor = true := by rw [← RtValue.isRef_eq]; exact hr
    simp [RtValue.increfDispatch, RtValue.decrefDispatch, hr, ht]
  · intro hr
    simp [RtValue.increfDispatch, RtValue.decrefDispatch, hr]
  · rw [RtValue.increfDispatch_eq]; simp
  · rw [RtValue.decrefDispatch_eq]; simp
  · intro s x hv
    rw [RtValue.ctorCopy_eq hv, RtValue.dtor_eq hv]
    simp

/-! ## Claim on tensor construction -/

theorem wrapInt32_of_fits (z : Int) (hlo : -2 ^ 31 ≤ z) (hhi : z < 2 ^ 31) :
    wrapInt32 z = z := by
  unfold wrapInt32
  have : (z + 2 ^ 31) % 2 ^ 32 = z + 2 ^ 31 := Int.emod_eq_of_lt (by omega) (by omega)
  rw [this]; ring

theorem prod_nonneg_of_nonneg (l : List Int) (h : ∀ e, e ∈ l → 0 ≤ e) : 0 ≤ l.prod := by
  induction l with
  | nil => simp
  | cons a t ih =>
    rw [List.prod_cons]
    exact Int.mul_nonneg (h a (List.mem_cons_self _ _))
      (ih fun e he => h e (List.mem_cons_of_mem _ he))

theorem Tensor.create_eq (p : Ptr) (extents : List Int) (ty : ElementType)
    (data : List Nat) (beyond : List Int) (s : State) (hp : p ≠ 0) :
    Tensor.create p extents ty data beyond s
      = some (Tensor.createRaw extents ty data beyond, s.refs.length,
          ⟨Ref.incref p { s.heap with refCount := Function.update s.heap.refCount p 0 },
            s.vals, s.refs ++ [some p]⟩) := by
  unfold Tensor.create
  simp only [Ref.ctorRaw_eq _ hp, Option.map_some']

/-- C18 as stated fails for the extents `[65536, 65536]`: the product of the extents
times 4 is 17179869184, which is no `std::int32_t`, the declared result type of
`getDataByteSize()`; the tensor that `Tensor::create` returns reports 0. -/
theorem tensor_byte_size_counterexample : ¬ ByteSizeAsStated [65536, 65536] := by
  intro h
  have h1 := h 1 [] [] ⟨demoHeap, [], []⟩ _ _ _
    (Tensor.create_eq 1 [65536, 65536] ElementType.F32 [] [] ⟨demoHeap, [], []⟩ (by decide))
  revert h1
  decide

/-- C18 as amended, tensor construction: for every sequence of non-negative extents
whose product times 4 fits `std::int32_t`, element type F32 and source buffer,
whatever the memory holds after the tail-packed extents, `Tensor::create` at the
address `p` succeeds; the tensor it returns has `getRank()` equal to the number of
extents, `getExtents()` equal to the given sequence, so of exactly that length and
with `getExtent(d)` the `d`-th given extent for every `d` in `[0, rank)`,
`getDataByteSize()` equal to the product of the extents times 4, and as data the first
`getDataByteSize()` bytes of the source buffer, which is the whole buffer when it has
that many bytes; the returned handle points at `p` and the count of `p` is one. -/
theorem tensor_construction (p : Ptr) (extents : List Int) (data : List Nat)
    (beyond : List Int) (s : State) (hp : p ≠ 0)
    (hnonneg : ∀ e, e ∈ extents → 0 ≤ e) (hfit : extents.prod * 4 < 2 ^ 31) :
    ∃ t r s', Tensor.create p extents ElementType.F32 data beyond s = some (t, r, s') ∧
      t.getElementType = ElementType.F32 ∧
      t.getRank = extents.length ∧
      t.getExtents = extents ∧
      t.getExtents.length = extents.length ∧
      (∀ d : Nat, d < extents.length → t.getExtent d = extents[d]?) ∧
      (∀ d : Nat, extents.length ≤ d → t.getExtent d = none) ∧
      t.getDataByteSize = extents.prod * 4 ∧
      t.getData = data.take (extents.prod * 4).toNat ∧
      ((data.length : Int) = extents.prod * 4 → t.getData = data) ∧
      s'.ref r = some p ∧ s'.heap.refCount p = 1 := by
  have hprod := prod_nonneg_of_nonneg extents hnonneg
  have hwrap : wrapInt32 (extents.prod * 4) = extents.prod * 4 :=
    wrapInt32_of_fits _ (by omega) hfit
  have hext : (Tensor.createRaw extents ElementType.F32 data beyond).getExtents
      = extents := by
    simp [Tensor.createRaw, Tensor.getExtents, Tensor.getMutableExtents]
  have hdata : (Tensor.createRaw extents ElementType.F32 data beyond).getData
      = data.take (extents.prod * 4).toNat := by
    show data.take (wrapInt32 (extents.prod * getElementTypeByteSize ElementType.F32)).toNat
      = _
    rw [show getElementTypeByteSize ElementType.F32 = 4 from rfl, hwrap]
  refine ⟨_, _, _, Tensor.create_eq p extents ElementType.F32 data beyond s hp, rfl, rfl,
    hext, by rw [hext], ?_, ?_, ?_, hdata, ?_, ?_, ?_⟩
  · intro d _
    unfold Tensor.getExtent
    rw [hext]
    simp
  · intro d hd
    unfold Tensor.getExtent
    rw [hext]
    simp only [Int.toNat_ofNat]
    rw [if_neg (by omega)]
    exact List.getElem?_eq_none hd
  · unfold Tensor.getDataByteSize
    rw [hext]
    exact hwrap
  · intro hlen
    rw [hdata]
    apply List.take_of_length_le
    omega
  · exact State.ref_mk_append_last _ _ _ _ _ rfl
  · show (Ref.incref p
      { s.heap with refCount := Function.update s.heap.refCount p 0 }).refCount p = 1
    rw [Ref.incref_refCount]
    simp [hp, sizeRange_eq]

/-- C18 as amended at the spec's example: extents `[2, 3]`, element type F32 and a
source buffer of 6 floats, 24 bytes, with other values following the extents in
memory, give rank 2, extent(0) 2, extent(1) 3, no extent(2), data byte size 24, the 24
bytes of the source as data, and a handle to the new tensor with count 1. -/
theorem tensor_construction_witness :
    (1 : Ptr) ≠ 0 ∧ (∀ e, e ∈ ([2, 3] : List Int) → 0 ≤ e) ∧
      ([2, 3] : List Int).prod * 4 < 2 ^ 31 ∧
      ∃ t r s', Tensor.create 1 [2, 3] ElementType.F32 (List.range 24) [7, 8, 9]
          ⟨demoHeap, [], []⟩ = some (t, r, s') ∧
        t.getRank = 2 ∧ t.getExtents = [2, 3] ∧ t.getExtent 0 = some 2 ∧
        t.getExtent 1 = some 3 ∧ t.getExtent 2 = none ∧ t.getDataByteSize = 24 ∧
        t.getData = List.range 24 ∧ s'.ref r = some 1 ∧ s'.heap.refCount 1 = 1 :=
  ⟨by decide, by decide, by decide,
    match tensor_construction 1 [2, 3] (List.range 24) [7, 8, 9] ⟨demoHeap, [], []⟩
      (by decide) (by decide) (by decide) with
    | ⟨t, r, s', k0, _, k2, k3, _, k5, k6, k7, _, k9, k10, k11⟩ =>
      ⟨t, r, s', k0, k2, k3, k5 0 (by decide), k5 1 (by decide), k6 2 (by decide), k7,
        k9 (by decide), k10, k11⟩⟩

/-! ## Claim on concurrent drops -/

theorem Ref.decref_eq_steps (p : Ptr) (h : Heap) :
    Ref.decref p h
      = if p = 0 then h
        else if (Ref.fetchSub p h).1 = 1
          then Ref.releaseBlock p (Ref.runDestructor p (Ref.fetchSub p h).2)
          else (Ref.fetchSub p h).2 := by
  unfold Ref.decref Ref.fetchSub Ref.releaseBlock Ref.runDestructor
  by_cases hp : p = 0
  · simp [hp]
  · by_cases h1 : h.refCount p = 1 <;> simp [hp, h1]

theorem sum_map_set_add {α : Type} (f : α → Nat) (l : List α) (i : Nat) (x y : α)
    (h : l[i]? = some y) :
    ((l.set i x).map f).sum + f y = (l.map f).sum + f x := by
  induction l generalizing i with
  | nil => simp at h
  | cons a t ih =>
    cases i with
    | zero =>
      simp only [List.getElem?_cons_zero, Option.some.injEq] at h
      subst h
      simp only [List.set_cons_zero, List.map_cons, List.sum_cons]
      omega
    | succ k =>
      simp only [List.getElem?_cons_succ] at h
      have := ih k h
      simp only [List.set_cons_succ, List.map_cons, List.sum_cons]
      omega

theorem live_le_sum (l : List Thread) (i : Nat) (t : Thread) (h : l[i]? = some t) :
    t.live ≤ (l.map Thread.live).sum := by
  have := sum_map_set_add Thread.live l i ⟨0, t.phase, t.todo⟩ t h
  simp only at this
  omega

theorem Conc.step_inv {p : Ptr} (hp : p ≠ 0) {i : Nat} {c c' : Conc}
    (hs : Conc.step p i c = some c') (hinv : ConcInv p c)
    (hbd : c.totalLive + 1 < sizeRange) :
    ConcInv p c' ∧ c'.totalLive ≤ c.totalLive + 1 := by
  unfold Conc.step at hs
  cases ht : c.threads[i]? with
  | none => simp [ht] at hs
  | some t =>
    simp only [ht, Option.bind_eq_bind, Option.some_bind] at hs
    obtain ⟨h1, h2, h3⟩ := hinv
    have hlive := live_le_sum c.threads i t ht
    unfold ConcInv Conc.totalLive at *
    rw [sizeRange_eq] at hbd
    rcases t with ⟨live, phase, todo⟩
    cases phase with
    | destroying =>
      simp only [Option.some.injEq] at hs
      subst hs
      have k1 := sum_map_set_add Thread.live c.threads i ⟨live, Phase.releasing, todo⟩ _ ht
      have k2 := countP_set_add Thread.busy c.threads i ⟨live, Phase.releasing, todo⟩ _ ht
      have k3 := countP_set_add Thread.aboutToDestroy c.threads i
        ⟨live, Phase.releasing, todo⟩ _ ht
      simp only [Thread.busy, Thread.aboutToDestroy, ne_eq, reduceCtorEq, not_false_eq_true,
        decide_True, decide_False, if_true, Bool.false_eq_true, if_false] at k1 k2 k3
      simp only [Ref.runDestructor, frees, destroys, List.count_append, List.count_cons,
        List.count_nil, beq_iff_eq, reduceCtorEq, if_false, beq_self_eq_true, if_true] at *
      have e : ((c.threads.set i ⟨live, Phase.releasing, todo⟩).map Thread.live).sum
                = (c.threads.map Thread.live).sum := by omega
      rw [e]
      refine ⟨⟨h1, by omega, by omega⟩, by omega⟩
    | releasing =>
      simp only [Option.some.injEq] at hs
      subst hs
      have k1 := sum_map_set_add Thread.live c.threads i ⟨live, Phase.idle, todo⟩ _ ht
      have k2 := countP_set_add Thread.busy c.threads i ⟨live, Phase.idle, todo⟩ _ ht
      have k3 := countP_set_add Thread.aboutToDestroy c.threads i
        ⟨live, Phase.idle, todo⟩ _ ht
      simp only [Thread.busy, Thread.aboutToDestroy, ne_eq, reduceCtorEq, not_false_eq_true,
        decide_True, decide_False, if_true, Bool.false_eq_true, if_false, not_true_eq_false]
        at k1 k2 k3
      simp only [Ref.releaseBlock, frees, destroys, List.count_append, List.count_cons,
        List.count_nil, beq_iff_eq, reduceCtorEq, if_false, beq_self_eq_true, if_true] at *
      have e : ((c.threads.set i ⟨live, Phase.idle, todo⟩).map Thread.live).sum
                = (c.threads.map Thread.live).sum := by omega
      rw [e]
      refine ⟨⟨h1, by omega, by omega⟩, by omega⟩
    | idle =>
      cases todo with
      | nil => simp at hs
      | cons a rest =>
        cases a with
        | copy =>
          by_cases hl : live = 0
          · simp [hl] at hs
          · simp only [hl, if_false, Option.some.injEq] at hs
            subst hs
            have k1 := sum_map_set_add Thread.live c.threads i
              ⟨live + 1, Phase.idle, rest⟩ _ ht
            have k2 := countP_set_add Thread.busy c.threads i
              ⟨live + 1, Phase.idle, rest⟩ _ ht
            have k3 := countP_set_add Thread.aboutToDestroy c.threads i
              ⟨live + 1, Phase.idle, rest⟩ _ ht
            simp only [Thread.busy, Thread.aboutToDestroy, ne_eq, reduceCtorEq,
              not_false_eq_true, decide_True, decide_False, if_true, Bool.false_eq_true,
              if_false, not_true_eq_false] at k1 k2 k3 hlive
            have e : ((c.threads.set i ⟨live + 1, Phase.idle, rest⟩).map Thread.live).sum
                = (c.threads.map Thread.live).sum + 1 := by omega
            simp only [Ref.incref_refCount, Ref.incref_frees, Ref.incref_destroys, hp, ne_eq,
              not_false_eq_true, and_self, if_true, e, sizeRange_eq]
            have hpos : 1 ≤ (c.threads.map Thread.live).sum := by omega
            refine ⟨⟨by omega, ?_, ?_⟩, by omega⟩
            · rw [if_neg (by omega)] at h2; rw [if_neg (by omega)]; omega
            · rw [if_neg (by omega)] at h3; rw [if_neg (by omega)]; omega
        | drop =>
          by_cases hl : live = 0
          · simp [hl] at hs
          · simp only [hl, if_false, Option.some.injEq] at hs
            subst hs
            have hpos : 1 ≤ (c.threads.map Thread.live).sum := by
              simp only at hlive; omega
            rw [if_neg (by omega)] at h2 h3
            by_cases hone : c.heap.refCount p = 1
            · have k1 := sum_map_set_add Thread.live c.threads i
                ⟨live - 1, Phase.destroying, rest⟩ _ ht
              have k2 := countP_set_add Thread.busy c.threads i
                ⟨live - 1, Phase.destroying, rest⟩ _ ht
              have k3 := countP_set_add Thread.aboutToDestroy c.threads i
                ⟨live - 1, Phase.destroying, rest⟩ _ ht
              simp only [Thread.busy, Thread.aboutToDestroy, ne_eq, reduceCtorEq,
                not_false_eq_true, decide_True, decide_False, if_true, Bool.false_eq_true,
                if_false, not_true_eq_false] at k1 k2 k3
              simp only [Ref.fetchSub, hone, if_true, frees, destroys, List.count_append,
                List.count_cons, List.count_nil, beq_iff_eq, reduceCtorEq, if_false,
                Function.update_same, sizeRange_eq] at *
              have e : ((c.threads.set i
                  ⟨live - 1, Phase.destroying, rest⟩).map Thread.live).sum
                = 0 := by omega
              rw [e]
              refine ⟨⟨by omega, by simp; omega, by simp; omega⟩, by omega⟩
            · have hsum : (c.threads.map Thread.live).sum ≠ 1 := by
                rw [← h1]; exact hone
              have k1 := sum_map_set_add Thread.live c.threads i
                ⟨live - 1, Phase.idle, rest⟩ _ ht
              have k2 := countP_set_add Thread.busy c.threads i
                ⟨live - 1, Phase.idle, rest⟩ _ ht
              have k3 := countP_set_add Thread.aboutToDestroy c.threads i
                ⟨live - 1, Phase.idle, rest⟩ _ ht
              simp only [Thread.busy, Thread.aboutToDestroy, ne_eq, reduceCtorEq,
                not_false_eq_true, decide_True, decide_False, if_true, Bool.false_eq_true,
                if_false, not_true_eq_false] at k1 k2 k3
              simp only [Ref.fetchSub, hone, if_false, frees, destroys, List.count_append,
                List.count_cons, List.count_nil, beq_iff_eq, reduceCtorEq,
                Function.update_same, sizeRange_eq] at *
              have e : ((c.threads.set i ⟨live - 1, Phase.idle, rest⟩).map Thread.live).sum
                = (c.threads.map Thread.live).sum - 1 := by omega
              rw [e]
              refine ⟨⟨by omega, ?_, ?_⟩, by omega⟩
              · split_ifs <;> omega
              · split_ifs <;> omega

theorem Conc.exec_inv {p : Ptr} (hp : p ≠ 0) (sched : List Nat) {c c' : Conc}
    (hs : Conc.exec p sched c = some c') (hinv : ConcInv p c)
    (hbd : c.totalLive + sched.length < sizeRange) : ConcInv p c' := by
  induction sched generalizing c with
  | nil =>
    simp only [Conc.exec, Option.some.injEq] at hs
    subst hs; exact hinv
  | cons i is ih =>
    simp only [Conc.exec] at hs
    cases h1 : Conc.step p i c with
    | none => simp [h1] at hs
    | some c1 =>
      simp only [h1, Option.some_bind] at hs
      simp only [List.length_cons] at hbd
      have h2 := Conc.step_inv hp h1 hinv (by omega)
      exact ih hs h2.1 (by omega)

theorem mem_live_le_sum (l : List Thread) (t : Thread) (h : t ∈ l) :
    t.live ≤ (l.map Thread.live).sum := by
  obtain ⟨i, hi, he⟩ := List.getElem_of_mem h
  exact live_le_sum l i t (by rw [List.getElem?_eq_getElem hi, he])

/-- C19, concurrent drop safety: threads that each own handles to the tensor at `p`
(it has never been released, and its count is the number of those handles) copy and
drop their handles; under every interleaving of their atomic accesses, at every point
of the run, the block has been released at most once and the destructor has run at
most once, not less often than the block was released; the count is the number of live
handles; while a thread is about to destroy or release the tensor no thread owns a
handle; and once the block has been released no thread owns a handle, no thread is
inside `decref`, and no thread can access the tensor again. -/
theorem concurrent_drop_safety (p : Ptr) (c0 c : Conc) (sched : List Nat) (hp : p ≠ 0)
    (hidle : ∀ t, t ∈ c0.threads → t.phase = Phase.idle)
    (hlive : 1 ≤ c0.totalLive)
    (hcount : c0.heap.refCount p = c0.totalLive)
    (hfree : frees p c0.heap = 0) (hdestroy : destroys p c0.heap = 0)
    (hbd : c0.totalLive + sched.length < sizeRange)
    (hexec : Conc.exec p sched c0 = some c) :
    frees p c.heap ≤ 1 ∧ destroys p c.heap ≤ 1 ∧
    frees p c.heap ≤ destroys p c.heap ∧
    c.heap.refCount p = c.totalLive ∧
    (∀ t, t ∈ c.threads → t.phase ≠ Phase.idle → c.totalLive = 0) ∧
    (1 ≤ frees p c.heap →
      c.totalLive = 0 ∧
      (∀ t, t ∈ c.threads → t.live = 0 ∧ t.phase = Phase.idle) ∧
      ∀ i, Conc.step p i c = none) := by
  have h0 : ConcInv p c0 := by
    have hb : c0.threads.countP Thread.busy = 0 := by
      rw [List.countP_eq_zero]
      intro t ht
      simp [Thread.busy, hidle t ht]
    have hd : c0.threads.countP Thread.aboutToDestroy = 0 := by
      rw [List.countP_eq_zero]
      intro t ht
      simp [Thread.aboutToDestroy, hidle t ht]
    refine ⟨hcount, ?_, ?_⟩
    · rw [hfree, hb, if_neg (by omega)]
    · rw [hdestroy, hd, if_neg (by omega)]
  obtain ⟨k1, k2, k3⟩ := Conc.exec_inv hp sched hexec h0 hbd
  have hle : c.threads.countP Thread.aboutToDestroy ≤ c.threads.countP Thread.busy := by
    apply List.countP_mono_left
    intro t _ ht
    simp only [Thread.aboutToDestroy, decide_eq_true_eq] at ht
    simp [Thread.busy, ht]
  have hbusy : ∀ t, t ∈ c.threads → t.phase ≠ Phase.idle → c.totalLive = 0 := by
    intro t ht hph
    have : 1 ≤ c.threads.countP Thread.busy :=
      List.countP_pos_iff.mpr ⟨t, ht, by simp [Thread.busy, hph]⟩
    by_contra hne
    rw [if_neg hne] at k2
    omega
  refine ⟨?_, ?_, ?_, k1, hbusy, ?_⟩
  · split_ifs at k2 <;> omega
  · split_ifs at k3 <;> omega
  · split_ifs at k2 k3 <;> omega
  · intro hf
    have hz : c.totalLive = 0 := by
      by_contra hne
      rw [if_neg hne] at k2
      omega
    have hb : c.threads.countP Thread.busy = 0 := by
      rw [if_pos hz] at k2; omega
    have hall : ∀ t, t ∈ c.threads → t.live = 0 ∧ t.phase = Phase.idle := by
      intro t ht
      refine ⟨?_, ?_⟩
      · have := mem_live_le_sum c.threads t ht
        unfold Conc.totalLive at hz
        omega
      · have := (List.countP_eq_zero.mp hb) t ht
        simpa [Thread.busy] using this
    refine ⟨hz, hall, ?_⟩
    intro i
    unfold Conc.step
    cases ht : c.threads[i]? with
    | none => rfl
    | some t =>
      obtain ⟨hl, he⟩ := List.getElem?_eq_some.mp ht
      have hmem : t ∈ c.threads := he ▸ List.getElem_mem hl
      obtain ⟨a1, a2⟩ := hall t hmem
      rcases t with ⟨live, phase, todo⟩
      simp only at a1 a2
      subst a1; subst a2
      cases todo with
      | nil => rfl
      | cons a rest => cases a <;> rfl

/-- C19 on three threads that each own one handle, each copying its handle and then
dropping the copy and the original, under the interleaving `demoSchedule`: the run
goes through, ends with count 0 and no live handle, and the block was destroyed once
and released once, at the end. -/
theorem concurrent_drop_safety_witness :
    (1 : Ptr) ≠ 0 ∧ demoConc.totalLive = 3 ∧ demoConc.heap.refCount 1 = 3 ∧
      ∃ c, Conc.exec 1 demoSchedule demoConc = some c ∧
        c.totalLive = 0 ∧ c.heap.refCount 1 = 0 ∧ frees 1 c.heap = 1 ∧
        destroys 1 c.heap = 1 ∧
        c.heap.log = [Event.incref 1, Event.decref 1, Event.incref 1, Event.decref 1,
          Event.incref 1, Event.decref 1, Event.decref 1, Event.decref 1, Event.decref 1,
          Event.destroy 1, Event.free 1] ∧
        frees 1 c.heap ≤ 1 ∧ ∀ i, Conc.step 1 i c = none :=
  ⟨by decide, rfl, rfl, _, rfl, rfl, rfl, rfl, rfl, rfl,
    (concurrent_drop_safety 1 demoConc _ demoSchedule (by decide) (by decide) (by decide)
      rfl rfl rfl (by decide) rfl).1,
    (concurrent_drop_safety 1 demoConc _ demoSchedule (by decide) (by decide) (by decide)
      rfl rfl rfl (by decide) rfl).2.2.2.2.2 (by decide) |>.2.2⟩

end refbackrt
